import Mathlib

/-!
# go-swagger: the array rule of the validator, and the Responses / Items wire forms

A shallow embedding of

* `internal/validate/slice_validator.go` (`schemaSliceValidator.Validate`),
* `spec/responses.go` (`Responses`, `responsesProps` and their JSON methods),
* `spec/items.go` (`Items` and its JSON methods),

followed by the properties established about them.

Conventions.  A Go `*T` that may be nil is an `Option T`; a Go slice is a `List`; a Go
`map[K]V` is an association list without repeated keys, whose list order stands for
the (unspecified) iteration order of the map.  Lengths and loop indices are `Nat`: they
are non-negative and far below `2^63`, so the `int`/`int64` conversions of the source are
exact.  A run-time panic (`reflect.Value.Index` out of range) is an explicit outcome.
-/

set_option autoImplicit false

namespace GoSwagger

/-! ## Validation results -/

namespace Validate

/-- Modelled from the spec: the error values of package `errors` (outside `src/`), the entries
of a `Result`.  `New code message` is `errors.New(code, message)`; the other three are the
errors of `validate.MinItems`, `validate.MaxItems` and `validate.UniqueItems`, kept symbolic
(their message text is formatted outside `src/`). -/
inductive Error where
  | New (code : Int) (message : String)
  | TooFewItems (path : String) (location : String) (min : Int)
  | TooManyItems (path : String) (location : String) (max : Int)
  | DuplicateItems (path : String) (location : String)
  deriving DecidableEq, Repr

/-- Modelled from the spec: `Result` (internal/validate/result.go is not under `src/`):
"Result{errors: ordered list of (path, message); validationCount: integer}". -/
structure Result where
  Errors : List Error
  MatchCount : Int
  deriving DecidableEq, Repr

namespace Result

/-- The value of `new(Result)`. -/
def new : Result := ⟨[], 0⟩

/-- Modelled from the spec: `Result.AddErrors` appends the given errors to the error list. -/
def AddErrors (r : Result) (errs : List Error) : Result :=
  { r with Errors := r.Errors ++ errs }

/-- Modelled from the spec: `Result.Merge`: "Results merge by concatenating error lists in
discovery order and summing validation counts." -/
def Merge (r other : Result) : Result :=
  { Errors := r.Errors ++ other.Errors, MatchCount := r.MatchCount + other.MatchCount }

/-- Modelled from the spec: `Result.Inc` adds one to the validation count. -/
def Inc (r : Result) : Result :=
  { r with MatchCount := r.MatchCount + 1 }

end Result

/-- Modelled from the spec: `validate.MinItems(path, in, size, min)` (httpkit/validate is not
under `src/`): the min-items error when the sequence is shorter than `min`. -/
def MinItems (path location : String) (size min : Int) : Option Error :=
  if size < min then some (Error.TooFewItems path location min) else none

/-- Modelled from the spec: `validate.MaxItems(path, in, size, max)` (httpkit/validate is not
under `src/`): the max-items error when the sequence is longer than `max`. -/
def MaxItems (path location : String) (size max : Int) : Option Error :=
  if size > max then some (Error.TooManyItems path location max) else none

/-- Modelled from the spec: `validate.UniqueItems(path, in, data)` (httpkit/validate is not
under `src/`): the unique-items error when two elements of the sequence are equal. -/
def UniqueItems {V : Type} [DecidableEq V] (path location : String)
    (data : List V) : Option Error :=
  if data.Nodup then none else some (Error.DuplicateItems path location)

/-! ## Schemas and sub-validators

`spec.Schema` is declared outside `src/`; it is a type parameter.  The schema validator
built by `NewSchemaValidator` is outside `src/` as well: the record below keeps what the
slice rule hands to it (schema and path; `Root` and `KnownFormats` are passed through
unchanged to every sub-validator and are part of the parameter `sub`), and its `Validate`
method is the parameter `sub : SchemaValidator S → V → Result`. -/

/-- The type `spec.SchemaOrBool`: `Allows bool; Schema *Schema`. -/
structure SchemaOrBool (S : Type) where
  Allows : Bool
  Schema : Option S
  deriving DecidableEq, Repr

/-- The type `spec.SchemaOrArray`: `Schema *Schema; Schemas []Schema`. -/
structure SchemaOrArray (S : Type) where
  Schema : Option S
  Schemas : List S
  deriving DecidableEq, Repr

/-- Modelled from the spec: the validator returned by `NewSchemaValidator(schema, root, path,
formats)` (schema_validator.go is not under `src/`): a schema together with the path it
reports errors under. -/
structure SchemaValidator (S : Type) where
  Schema : S
  Path : String
  deriving DecidableEq, Repr

/-- Modelled from the spec: the constructor `NewSchemaValidator(schema, s.Root, path,
s.KnownFormats)` (schema_validator.go is not under `src/`). -/
def NewSchemaValidator {S : Type} (schema : S) (path : String) :
    SchemaValidator S :=
  ⟨schema, path⟩

/-- Modelled from the spec: the method `SchemaValidator.SetPath` (schema_validator.go is not
under `src/`): the validator reports under the new path. -/
def SchemaValidator.SetPath {S : Type} (v : SchemaValidator S) (path : String) :
    SchemaValidator S :=
  { v with Path := path }

/-- The string `fmt.Sprintf("%s.%d", path, i)`. -/
def indexPath (path : String) (i : Nat) : String :=
  path ++ "." ++ toString i

/-- The struct `schemaSliceValidator` (without `Root` and `KnownFormats`, see above). -/
structure schemaSliceValidator (S : Type) where
  Path : String
  In : String
  MaxItems : Option Int
  MinItems : Option Int
  UniqueItems : Bool
  AdditionalItems : Option (SchemaOrBool S)
  Items : Option (SchemaOrArray S)
  deriving DecidableEq, Repr

/-! ## Execution state

`Validate` threads the `result` it builds.  Next to it the embedding keeps a log of the
calls made to sub-validators (which loop made the call, the validator called, the index and
the element), so that "element `i` is validated against schema `j`" is a statement about
the run. -/

/-- The three places of `Validate` that call a sub-validator. -/
inductive Site where
  | shared
  | tuple
  | additional
  deriving DecidableEq, Repr

/-- One call `validator.Validate(val.Index(index).Interface())`. -/
structure Call (S V : Type) where
  site : Site
  validator : SchemaValidator S
  index : Nat
  value : V
  deriving DecidableEq, Repr

/-- The state of a run: the `result` under construction and the calls made so far. -/
structure Run (S V : Type) where
  result : Result
  calls : List (Call S V)
  deriving DecidableEq, Repr

/-- How a run ends: it returns, or it panics (index out of range) in the state reached. -/
inductive Outcome (S V : Type) where
  | returned (st : Run S V)
  | panicked (st : Run S V)
  deriving DecidableEq, Repr

section
variable {S V : Type}

/-- The state an outcome ended in. -/
def Outcome.state : Outcome S V → Run S V
  | .returned st => st
  | .panicked st => st

/-- The `*Result` handed back to the caller, if the run returned. -/
def Outcome.result? : Outcome S V → Option Result
  | .returned st => some st.result
  | .panicked _ => none

/-- The calls made to sub-validators during the run (also those before a panic). -/
def Outcome.calls (o : Outcome S V) : List (Call S V) :=
  o.state.calls

/-- Sequencing: the rest of the function runs only if the first part did not panic. -/
def Outcome.andThen (o : Outcome S V) (f : Run S V → Outcome S V) :
    Outcome S V :=
  match o with
  | .returned st => f st
  | .panicked st => .panicked st

/-- The statement `result.Merge(validator.Validate(val.Index(i).Interface()))`: panics when
`i` is out of range, otherwise calls the sub-validator on element `i` and merges. -/
def validateIndex (sub : SchemaValidator S → V → Result) (site : Site)
    (validator : SchemaValidator S) (val : List V) (i : Nat)
    (st : Run S V) : Outcome S V :=
  match val[i]? with
  | none => .panicked st
  | some value =>
    .returned
      { result := st.result.Merge (sub validator value)
        calls := st.calls ++ [⟨site, validator, i, value⟩] }

/-- The loop `for i := lo; count iterations; i++ { body }`, stopped by the first panic. -/
def forLoop (body : Nat → Run S V → Outcome S V) :
    Nat → Nat → Run S V → Outcome S V
  | _, 0, st => .returned st
  | i, n + 1, st => (body i st).andThen (forLoop body (i + 1) n)

/-- The loop `for i := lo; i < hi; i++ { body }`. -/
def forRange (lo hi : Nat) (body : Nat → Run S V → Outcome S V)
    (st : Run S V) : Outcome S V :=
  forLoop body lo (hi - lo) st

/-- Lines 43-50: the shared schema of `Items`, applied to every element. -/
def sharedItems (sub : SchemaValidator S → V → Result)
    (s : schemaSliceValidator S) (val : List V) (size : Nat)
    (st : Run S V) : Outcome S V :=
  match s.Items with
  | some ⟨some schema, _⟩ =>
    let validator := NewSchemaValidator schema s.Path
    forRange 0 size
      (fun i st => validateIndex sub .shared (validator.SetPath (indexPath s.Path i)) val i st)
      st
  | _ => .returned st

/-- Lines 52-54: `itemsSize`, the length of the tuple when `Items` holds one, else `0`. -/
def itemsSize (s : schemaSliceValidator S) : Nat :=
  match s.Items with
  | some items => if items.Schemas.length > 0 then items.Schemas.length else 0
  | none => 0

/-- Lines 53-60: the tuple of `Items`, schema `i` applied to element `i`. -/
def tupleItems (sub : SchemaValidator S → V → Result)
    (s : schemaSliceValidator S) (val : List V)
    (st : Run S V) : Outcome S V :=
  match s.Items with
  | some items =>
    if items.Schemas.length > 0 then
      forRange 0 items.Schemas.length
        (fun i st =>
          match items.Schemas[i]? with
          | none => .panicked st
          | some schema =>
            validateIndex sub .tuple (NewSchemaValidator schema (indexPath s.Path i)) val i st)
        st
    else .returned st
  | none => .returned st

/-- The error `errors.New(422, "array doesn't allow for additional items")`. -/
def additionalItemsError : Error :=
  Error.New 422 "array doesn't allow for additional items"

/-- Lines 61-71: the `AdditionalItems` policy. -/
def additionalItems (sub : SchemaValidator S → V → Result)
    (s : schemaSliceValidator S) (val : List V) (size itemsSize : Nat)
    (st : Run S V) : Outcome S V :=
  match s.AdditionalItems with
  | some additional =>
    if itemsSize < size then
      let tupleMode : Bool :=
        match s.Items with
        | some items => decide (items.Schemas.length > 0)
        | none => false
      let st :=
        if tupleMode && !additional.Allows then
          { st with result := st.result.AddErrors [additionalItemsError] }
        else st
      match additional.Schema with
      | some schema =>
        forRange itemsSize ((size - itemsSize) + 1)
          (fun i st =>
            validateIndex sub .additional (NewSchemaValidator schema (indexPath s.Path i)) val i st)
          st
      | none => .returned st
    else .returned st
  | none => .returned st

/-- Lines 73-88: `MinItems`, `MaxItems`, `UniqueItems` and the final `result.Inc()`. -/
def sizeChecks [DecidableEq V] (s : schemaSliceValidator S) (val : List V)
    (size : Nat) (result : Result) : Result :=
  let result :=
    match s.MinItems with
    | some min =>
      match MinItems s.Path s.In size min with
      | some err => result.AddErrors [err]
      | none => result
    | none => result
  let result :=
    match s.MaxItems with
    | some max =>
      match MaxItems s.Path s.In size max with
      | some err => result.AddErrors [err]
      | none => result
    | none => result
  let result :=
    if s.UniqueItems then
      match UniqueItems s.Path s.In val with
      | some err => result.AddErrors [err]
      | none => result
    else result
  result.Inc

/-- The method `schemaSliceValidator.Validate(data)`.  `data = none` is the nil interface;
`some val` is a slice with elements `val`. -/
def schemaSliceValidator.Validate [DecidableEq V]
    (sub : SchemaValidator S → V → Result)
    (s : schemaSliceValidator S) (data : Option (List V)) : Outcome S V :=
  let result : Run S V := ⟨Result.new, []⟩
  match data with
  | none => .returned result
  | some val =>
    let size := val.length
    (sharedItems sub s val size result).andThen fun st =>
    (tupleItems sub s val st).andThen fun st =>
    (additionalItems sub s val size (itemsSize s) st).andThen fun st =>
    .returned { st with result := sizeChecks s val size st.result }


/-! ## Vocabulary for the properties -/

/-- The errors returned by the sub-validators on the given calls, in call order. -/
def subErrors (sub : SchemaValidator S → V → Result) (cs : List (Call S V)) : List Error :=
  cs.flatMap fun c => (sub c.validator c.value).Errors

/-- The sum of the validation counts returned by the sub-validators on the given calls. -/
def subCount (sub : SchemaValidator S → V → Result) (cs : List (Call S V)) : Int :=
  (cs.map fun c => (sub c.validator c.value).MatchCount).sum

/-- The state after the calls `cs` were made and their results merged. -/
def Run.extend (sub : SchemaValidator S → V → Result) (st : Run S V)
    (cs : List (Call S V)) : Run S V :=
  { result := ⟨st.result.Errors ++ subErrors sub cs, st.result.MatchCount + subCount sub cs⟩
    calls := st.calls ++ cs }

/-- The call made for index `i` (none when the validator or the element does not exist). -/
def callAt (site : Site) (mk : Nat → Option (SchemaValidator S)) (val : List V) (i : Nat) :
    List (Call S V) :=
  match mk i, val[i]? with
  | some v, some x => [⟨site, v, i, x⟩]
  | _, _ => []

/-- The calls made for the indices `lo, lo+1, ..., lo+n-1`, in this order. -/
def callsAt (site : Site) (mk : Nat → Option (SchemaValidator S)) (val : List V)
    (lo n : Nat) : List (Call S V) :=
  (List.range' lo n).flatMap (callAt site mk val)

/-- The calls of a run made at one site, in the order they were made. -/
def Outcome.callsFrom (o : Outcome S V) (site : Site) : List (Call S V) :=
  o.calls.filter fun c => decide (c.site = site)

/-- The errors added by the size checks of lines 73-87. -/
def sizeErrors [DecidableEq V] (s : schemaSliceValidator S) (val : List V) : List Error :=
  (sizeChecks s val val.length Result.new).Errors

/-- The body of a loop of `Validate`: build the validator for index `i`, validate element `i`. -/
def stepBody (sub : SchemaValidator S → V → Result) (site : Site)
    (mk : Nat → Option (SchemaValidator S)) (val : List V) (i : Nat) (st : Run S V) :
    Outcome S V :=
  match mk i with
  | none => .panicked st
  | some v => validateIndex sub site v val i st

/-- The calls of the shared-schema loop (lines 45-49) on `val`. -/
def sharedCalls (s : schemaSliceValidator S) (val : List V) : List (Call S V) :=
  match s.Items with
  | some ⟨some schema, _⟩ =>
    callsAt .shared (fun i => some ⟨schema, indexPath s.Path i⟩) val 0 val.length
  | _ => []

/-- The validator that the tuple loop builds for index `i`. -/
def tupleValidator (s : schemaSliceValidator S) (schemas : List S) (i : Nat) :
    Option (SchemaValidator S) :=
  match schemas[i]? with
  | some schema => some ⟨schema, indexPath s.Path i⟩
  | none => none

/-- The calls of the tuple loop (lines 55-58) on `val`. -/
def tupleCalls (s : schemaSliceValidator S) (val : List V) : List (Call S V) :=
  match s.Items with
  | some items => callsAt .tuple (tupleValidator s items.Schemas) val 0 items.Schemas.length
  | none => []

/-- The calls of the additional-items loop (lines 66-69) on `val`. -/
def additionalCalls (s : schemaSliceValidator S) (val : List V) : List (Call S V) :=
  match s.AdditionalItems with
  | some ⟨_, some schema⟩ =>
    if itemsSize s < val.length then
      callsAt .additional (fun i => some ⟨schema, indexPath s.Path i⟩) val (itemsSize s)
        (((val.length - itemsSize s) + 1) - itemsSize s)
    else []
  | _ => []

/-- The error list added at line 63: the "additional items" error, or nothing. -/
def additionalErrors (s : schemaSliceValidator S) (val : List V) : List Error :=
  match s.AdditionalItems with
  | some additional =>
    if itemsSize s < val.length ∧ 0 < itemsSize s ∧ additional.Allows = false then
      [additionalItemsError]
    else []
  | none => []

/-- Whether the additional-items loop stays inside the sequence. -/
def additionalInRange (s : schemaSliceValidator S) (val : List V) : Bool :=
  match s.AdditionalItems with
  | some ⟨_, some _⟩ => decide (val.length ≤ itemsSize s ∨ 0 < itemsSize s)
  | _ => true

/-- The state reached after the element-level part of `Validate` (lines 43-71). -/
def elementState (sub : SchemaValidator S → V → Result) (s : schemaSliceValidator S)
    (val : List V) : Run S V :=
  { result :=
      ⟨subErrors sub (sharedCalls s val) ++ subErrors sub (tupleCalls s val)
          ++ additionalErrors s val ++ subErrors sub (additionalCalls s val),
        subCount sub (sharedCalls s val) + subCount sub (tupleCalls s val)
          + subCount sub (additionalCalls s val)⟩
    calls := sharedCalls s val ++ tupleCalls s val ++ additionalCalls s val }

/-- The result returned by `Validate` when the run does not panic: the element-level errors
followed by the errors of the size checks, and the element-level count plus one. -/
def finalResult [DecidableEq V] (sub : SchemaValidator S → V → Result)
    (s : schemaSliceValidator S) (val : List V) : Result :=
  ⟨(elementState sub s val).result.Errors ++ sizeErrors s val,
    (elementState sub s val).result.MatchCount + 1⟩

/-- The error list added at lines 73-77: the min-items error, or nothing. -/
def minItemsErrors (s : schemaSliceValidator S) (val : List V) : List Error :=
  match s.MinItems with
  | some min => (MinItems s.Path s.In val.length min).toList
  | none => []

/-- The error list added at lines 78-82: the max-items error, or nothing. -/
def maxItemsErrors (s : schemaSliceValidator S) (val : List V) : List Error :=
  match s.MaxItems with
  | some max => (MaxItems s.Path s.In val.length max).toList
  | none => []

/-- The error list added at lines 83-87: the unique-items error, or nothing. -/
def uniqueItemsErrors [DecidableEq V] (s : schemaSliceValidator S) (val : List V) :
    List Error :=
  if s.UniqueItems then (UniqueItems s.Path s.In val).toList else []

/-! ## `Applies` -/

/-- The values of `reflect.Kind`. -/
inductive Kind where
  | Invalid | Bool | Int | Int8 | Int16 | Int32 | Int64
  | Uint | Uint8 | Uint16 | Uint32 | Uint64 | Uintptr
  | Float32 | Float64 | Complex64 | Complex128
  | Array | Chan | Func | Interface | Map | Ptr | Slice | String | Struct | UnsafePointer
  deriving DecidableEq, Repr

/-- A value passed as `source interface{}`: a `*spec.Schema` (the pointer may be nil), or a
value of any other dynamic type (the nil interface included). -/
inductive Source (S : Type) where
  | schema (p : Option S)
  | other
  deriving DecidableEq, Repr

/-- The method `schemaSliceValidator.Applies(source, kind)`: the type assertion
`source.(*spec.Schema)` succeeds, and `kind == reflect.Slice`. -/
def schemaSliceValidator.Applies (_s : schemaSliceValidator S) (source : Source S)
    (kind : Kind) : Bool :=
  let ok : Bool :=
    match source with
    | .schema _ => true
    | .other => false
  let r := ok && decide (kind = Kind.Slice)
  r

/-! ## Concrete inputs -/

/-- A sub-validator that accepts every element; each validation counts one. -/
def acceptAll (_ : SchemaValidator String) (_ : Nat) : Result :=
  ⟨[], 1⟩

/-- A sub-validator that rejects every element, with an error naming the path and the schema;
each validation counts one. -/
def rejectAll (v : SchemaValidator String) (_ : Nat) : Result :=
  ⟨[Error.New 422 (v.Path ++ ": " ++ v.Schema)], 1⟩

/-- A slice validator at path `"p"` in `"body"` with the given `Items`, `AdditionalItems` and
`MinItems`, and neither `MaxItems` nor `UniqueItems`. -/
def sliceOf (items : Option (SchemaOrArray String)) (additional : Option (SchemaOrBool String))
    (minItems : Option Int) : schemaSliceValidator String :=
  { Path := "p", In := "body", MaxItems := none, MinItems := minItems, UniqueItems := false,
    AdditionalItems := additional, Items := items }

end

end Validate

end GoSwagger

/-! # The spec object model: JSON, `Responses`, `Items` -/

namespace GoSwagger

namespace Spec

/-! ## JSON values and Go maps

`encoding/json` is outside the repository.  A payload (`[]byte` holding valid JSON) is the
tree it denotes; a number literal is the rational it denotes.  An object keeps its members in
payload order, repeated names included. -/

/-- A JSON document.  Read as a Go dynamic value (`interface{}`), it is what the decoder
produces: `nil`, `bool`, `float64`, `string`, `[]interface{}`, `map[string]interface{}`. -/
inductive Json where
  | null
  | bool (b : Bool)
  | number (q : ℚ)
  | string (s : String)
  | array (xs : List Json)
  | object (ms : List (String × Json))
  deriving Repr, Inhabited

/-- The value of the last member named `name` in a member list: the one a decoder keeps. -/
def Json.lastMember (ms : List (String × Json)) (name : String) : Option Json :=
  (ms.reverse.find? fun e => decide (e.1 = name)).map Prod.snd

/-- The members of a JSON object (nothing for any other document). -/
def Json.members : Json → List (String × Json)
  | .object ms => ms
  | _ => []

/-- A Go dynamic value (`interface{}`): either one of the values the decoder produces, written
as the JSON tree it mirrors (`null` is the nil interface), or a Go `int`, which stands for the
values the decoder never produces. -/
inductive GoValue where
  | json (j : Json)
  | int (n : Int)
  deriving Repr, Inhabited

/-- The encoding of a dynamic value by `json.Marshal`. -/
def GoValue.toJson : GoValue → Json
  | .json j => j
  | .int n => .number n

/-- Whether a dynamic value is the nil interface. -/
def GoValue.isNil : GoValue → Bool
  | .json .null => true
  | _ => false

/-- Whether a dynamic value is one the decoder produces. -/
def GoValue.isNative : GoValue → Bool
  | .json _ => true
  | .int _ => false

section
variable {K V : Type} [DecidableEq K]

/-- The Go expression `v, ok := m[k]`. -/
def mapLookup (m : List (K × V)) (k : K) : Option V :=
  match m with
  | [] => none
  | (k2, v) :: rest => if k2 = k then some v else mapLookup rest k

/-- The Go statement `m[k] = v`: replaces the entry of `k`, or adds one. -/
def mapInsert (m : List (K × V)) (k : K) (v : V) : List (K × V) :=
  match m with
  | [] => [(k, v)]
  | (k2, v2) :: rest => if k2 = k then (k, v) :: rest else (k2, v2) :: mapInsert rest k v

/-- The Go statement `delete(m, k)`. -/
def mapDelete (m : List (K × V)) (k : K) : List (K × V) :=
  m.filter fun e => decide (e.1 ≠ k)

end

/-! ## `strconv` -/

/-- The value of a decimal digit. -/
def digitValue (c : Char) : Option Nat :=
  if '0' ≤ c ∧ c ≤ '9' then some (c.toNat - '0'.toNat) else none

/-- Reads a run of decimal digits, most significant first. -/
def parseDigits : List Char → Nat → Option Nat
  | [], acc => some acc
  | c :: cs, acc =>
    match digitValue c with
    | some d => parseDigits cs (acc * 10 + d)
    | none => none

/-- Reads a non-empty run of decimal digits. -/
def parseNat (cs : List Char) : Option Nat :=
  if cs = [] then none else parseDigits cs 0

/-- The function `strconv.Atoi` for a 64-bit `int`: an optional sign, then decimal digits only;
`none` is the error result (syntax or range). -/
def Atoi (s : String) : Option Int :=
  let parsed : Option Int :=
    match s.toList with
    | '+' :: cs => (parseNat cs).map fun n => (n : Int)
    | '-' :: cs => (parseNat cs).map fun n => - (n : Int)
    | cs => (parseNat cs).map fun n => (n : Int)
  parsed.bind fun n => if - (2 : Int) ^ 63 ≤ n ∧ n < (2 : Int) ^ 63 then some n else none

/-- The function `strconv.Itoa`. -/
def Itoa (k : Int) : String :=
  toString k

/-! ## `Responses` -/

/-- The type `Response` is declared in spec/response.go, outside `src/`: it is a type parameter
`R`, and its JSON methods are the two fields of this record (`UnmarshalJSON` gives `none` when
it returns an error). -/
structure ResponseCodec (R : Type) where
  MarshalJSON : R → Json
  UnmarshalJSON : Json → Option R

/-- The struct `responsesProps`.  A nil map and an empty map are both `[]`. -/
structure responsesProps (R : Type) where
  Default : Option R
  StatusCodeResponses : List (Int × R)

/-- Modelled from the spec: `vendorExtensible` (declared outside `src/`): the vendor extensions
of a node, a `map[string]interface{}`. -/
structure vendorExtensible where
  Extensions : List (String × GoValue)

/-- The struct `Responses`, with its two embedded structs. -/
structure Responses (R : Type) extends vendorExtensible, responsesProps R

/-- Modelled from the spec: the test `vendorExtensible` applies to a member name (outside
`src/`): a vendor extension is named `x-...`, in any letter case. -/
def isExtensionName (name : String) : Bool :=
  ['x', '-'].isPrefixOf (name.toList.map Char.toLower)

/-- Modelled from the spec: `vendorExtensible.MarshalJSON` (outside `src/`): "Unknown/extra
fields are preserved verbatim as vendor extensions": one object holding the extensions. -/
def vendorExtensible.MarshalJSON (v : vendorExtensible) : Json :=
  .object ((v.Extensions.filter fun e => isExtensionName e.1).map fun e => (e.1, e.2.toJson))

/-- Modelled from the spec: `vendorExtensible.UnmarshalJSON` (outside `src/`): every member of
the payload named `x-...` becomes an extension, with its value as decoded into `interface{}`;
a payload that is not an object is an error (`none`). -/
def vendorExtensible.UnmarshalJSON (v : vendorExtensible) : Json → Option vendorExtensible
  | .null => some v
  | .object ms =>
    some ⟨ms.foldl
      (fun ext e => if isExtensionName e.1 then mapInsert ext e.1 (.json e.2) else ext)
      v.Extensions⟩
  | _ => none

/-- Modelled from the spec: `swag.ConcatJSON` (swag is outside `src/`): "flattens the results
into one object": the members of the given objects, in order. -/
def ConcatJSON (blobs : List Json) : Json :=
  .object (blobs.flatMap Json.members)

section
variable {R : Type}

/-- The call `json.Unmarshal(data, &res)` for `var res map[string]Response`: the members are
decoded in payload order, a repeated name overwrites the earlier entry, and the first value
that is not a `Response` aborts with an error (`none`). -/
def unmarshalResponseMap (codec : ResponseCodec R) : Json → Option (List (String × R))
  | .null => some []
  | .object ms =>
    ms.foldl
      (fun acc e =>
        match acc with
        | none => none
        | some res =>
          match codec.UnmarshalJSON e.2 with
          | some v => some (mapInsert res e.1 v)
          | none => none)
      (some [])
  | _ => none

/-- One turn of the loop of lines 99-106. -/
def storeStatusCode (r : responsesProps R) (e : String × R) : responsesProps R :=
  match Atoi e.1 with
  | some nk => { r with StatusCodeResponses := mapInsert r.StatusCodeResponses nk e.2 }
  | none => r

/-- The method `responsesProps.UnmarshalJSON`: the receiver after the call, and the returned
error (`none` is `nil`).  `order` is the order in which `range res` visits the map. -/
def responsesProps.UnmarshalJSON (codec : ResponseCodec R)
    (order : List (String × R) → List (String × R))
    (r : responsesProps R) (data : Json) : responsesProps R × Option String :=
  match unmarshalResponseMap codec data with
  | none => (r, none)
  | some res =>
    match mapLookup res "default" with
    | some v =>
      ((order (mapDelete res "default")).foldl storeStatusCode { r with Default := some v }, none)
    | none => ((order res).foldl storeStatusCode r, none)

/-- The method `responsesProps.MarshalJSON`: the map `toser` of lines 80-86, encoded as an
object.  (`encoding/json` writes the members sorted by name; here they come `default` first,
then in the order of `StatusCodeResponses`.) -/
def responsesProps.MarshalJSON (codec : ResponseCodec R) (r : responsesProps R) : Json :=
  let toser : List (String × R) :=
    match r.Default with
    | some d => [("default", d)]
    | none => []
  let toser := r.StatusCodeResponses.foldl (fun m e => mapInsert m (Itoa e.1) e.2) toser
  .object (toser.map fun e => (e.1, codec.MarshalJSON e.2))

/-- The method `Responses.MarshalJSON`.  The encoders of the model do not fail, so the error
returns of lines 63-69 are not taken and the result is the payload. -/
def Responses.MarshalJSON (codec : ResponseCodec R) (r : Responses R) : Json :=
  let b1 := r.toresponsesProps.MarshalJSON codec
  let b2 := r.tovendorExtensible.MarshalJSON
  ConcatJSON [b1, b2]

/-- The method `Responses.UnmarshalJSON`: the receiver after the call, and the returned error
(`none` is `nil`).  Lines 54-56 replace `r.responsesProps` by the zero value when it is deeply
equal to the zero value, which changes nothing. -/
def Responses.UnmarshalJSON (codec : ResponseCodec R)
    (order : List (String × R) → List (String × R))
    (r : Responses R) (data : Json) : Responses R × Option String :=
  match responsesProps.UnmarshalJSON codec order r.toresponsesProps data with
  | (props, some err) => ({ r with toresponsesProps := props }, some err)
  | (props, none) =>
    match r.tovendorExtensible.UnmarshalJSON data with
    | none => ({ r with toresponsesProps := props }, some "json: cannot unmarshal")
    | some ext => ({ tovendorExtensible := ext, toresponsesProps := props }, none)

/-- What `Responses.JSONLookup` returns: the pointer `r.Default` (which may be nil), the
address of a copy of an extension, the address of a copy of a status-code response, each with a
nil error; or the error `fmt.Errorf("object has no field %q", token)` with a nil value. -/
inductive Lookup (R : Type) where
  | default (d : Option R)
  | extension (ex : GoValue)
  | statusCode (scr : R)
  | noField (token : String)

/-- Whether a lookup returned the error. -/
def Lookup.isError : Lookup R → Bool
  | .noField _ => true
  | _ => false

/-- The method `Responses.JSONLookup(token)`. -/
def Responses.JSONLookup (r : Responses R) (token : String) : Lookup R :=
  if token = "default" then .default r.Default
  else
    match mapLookup r.Extensions token with
    | some ex => .extension ex
    | none =>
      match Atoi token with
      | some i =>
        match mapLookup r.StatusCodeResponses i with
        | some scr => .statusCode scr
        | none => .noField token
      | none => .noField token

/-- No two distinct member names of an object are read by `strconv.Atoi` as the same integer:
two members whose names are read as the same integer have the same name. -/
def distinctStatusCodes (ms : List (String × Json)) : Prop :=
  ∀ e1 ∈ ms, ∀ e2 ∈ ms, (Atoi e1.1).isSome = true → Atoi e1.1 = Atoi e2.1 → e1.1 = e2.1

instance (ms : List (String × Json)) : Decidable (distinctStatusCodes ms) :=
  inferInstanceAs (Decidable (∀ e1 ∈ ms, ∀ e2 ∈ ms,
    (Atoi e1.1).isSome = true → Atoi e1.1 = Atoi e2.1 → e1.1 = e2.1))

/-- A value of type `Responses` before anything is stored in it. -/
def Responses.fresh : Responses R :=
  { Extensions := [], Default := none, StatusCodeResponses := [] }

end

/-! ### A concrete `Response`

For closed examples: a response that has only a description, written `{"description": ...}`;
its decoder, like every decoder of a Go struct, rejects a document that is not an object. -/

/-- A codec for responses that hold a description only. -/
def descriptionCodec : ResponseCodec String where
  MarshalJSON := fun d => .object [("description", .string d)]
  UnmarshalJSON := fun j =>
    match j with
    | .object ms =>
      ms.foldl
        (fun acc e =>
          match acc with
          | none => none
          | some d =>
            if e.1 = "description" then
              match e.2 with
              | .string s => some s
              | .null => some d
              | _ => none
            else some d)
        (some "")
    | .null => some ""
    | _ => none

end Spec

end GoSwagger

/-! ## `Items`

Go numbers and strings.  A `float64` is `NaN`, an infinity, or finite; a finite one is the
rational it holds (the model does not round: written as a JSON number and read back, a finite
`float64` is the same value, as `strconv` guarantees for the decimal it writes).  An `int64`
is an integer in the 64-bit range.  A `string` is a sequence of bytes, which `encoding/json`
reads as UTF-8. -/

namespace GoSwagger

namespace Spec

/-- The Go type `int64`. -/
def Int64 : Type :=
  { n : Int // - (2 : Int) ^ 63 ≤ n ∧ n < (2 : Int) ^ 63 }

instance : DecidableEq Int64 :=
  inferInstanceAs (DecidableEq { n : Int // - (2 : Int) ^ 63 ≤ n ∧ n < (2 : Int) ^ 63 })

/-- The `int64` a JSON number denotes: the number must be an integer in range. -/
def Int64.ofRat? (q : ℚ) : Option Int64 :=
  if h : q.den = 1 ∧ - (2 : Int) ^ 63 ≤ q.num ∧ q.num < (2 : Int) ^ 63 then
    some ⟨q.num, h.2⟩
  else none

/-- The Go type `float64`. -/
inductive Float64 where
  | finite (q : ℚ)
  | nan
  | posInf
  | negInf
  deriving DecidableEq, Repr

/-- Whether a `float64` is a number `json.Marshal` writes: neither `NaN` nor an infinity. -/
def Float64.isFinite : Float64 → Bool
  | .finite _ => true
  | _ => false

/-- One step of reading a Go `string` as UTF-8, the way `range` and `encoding/json` do: a code
point that is validly encoded, or one byte that is part of no valid encoding. -/
inductive GoRune where
  | char (c : Char)
  | invalid (byte : Nat)
  deriving DecidableEq, Repr

/-- The Go type `string`: the bytes, as the sequence of steps in which they are read as UTF-8.
A string is valid UTF-8 when no step is an invalid byte. -/
structure GoString where
  runes : List GoRune
  deriving DecidableEq, Repr

/-- The Go string that holds the UTF-8 encoding of a text. -/
def GoString.ofText (t : String) : GoString :=
  ⟨t.toList.map GoRune.char⟩

instance : Coe String GoString :=
  ⟨GoString.ofText⟩

/-- Whether a step is a validly encoded code point. -/
def GoRune.isValid : GoRune → Bool
  | .char _ => true
  | .invalid _ => false

/-- Whether a Go string is valid UTF-8. -/
def GoString.isValid (s : GoString) : Bool :=
  s.runes.all GoRune.isValid

/-- The code point `json.Marshal` writes for a step: an invalid byte becomes U+FFFD. -/
def GoRune.toChar : GoRune → Char
  | .char c => c
  | .invalid _ => Char.ofNat 0xFFFD

/-- The text `json.Marshal` writes for a Go string: "invalid UTF-8 is replaced by the Unicode
replacement rune" (encoding/json). -/
def GoString.toText (s : GoString) : String :=
  String.mk (s.runes.map GoRune.toChar)

/-- Modelled from the spec: `refable` (spec/ref.go is not under `src/`), the "reference-info"
sub-group of a node: the text of the reference, empty when the node is not a reference. -/
structure refable where
  Ref : String
  deriving DecidableEq, Repr

/-- The struct `commonValidations`.  The slice `Enum` is `none` when it is nil and `some xs`
otherwise (`some []` is the empty slice that is not nil). -/
structure commonValidations where
  Maximum : Option Float64
  ExclusiveMaximum : Bool
  Minimum : Option Float64
  ExclusiveMinimum : Bool
  MaxLength : Option Int64
  MinLength : Option Int64
  Pattern : GoString
  MaxItems : Option Int64
  MinItems : Option Int64
  UniqueItems : Bool
  MultipleOf : Option Float64
  Enum : Option (List GoValue)

/-- The struct `simpleSchema`; `I` is the type `Items`, which it points to (`Items *Items`).
The field `Type` is written `Type_`. -/
structure simpleSchema (I : Type) where
  Type_ : GoString
  Format : GoString
  Items : Option I
  CollectionFormat : GoString
  Default : GoValue

/-- The struct `Items`, with its three embedded structs. -/
inductive Items where
  | mk (ref : refable) (validations : commonValidations) (simple : simpleSchema Items)

/-- The embedded `refable` of an `Items`. -/
def Items.torefable : Items → refable
  | ⟨ref, _, _⟩ => ref

/-- The embedded `commonValidations` of an `Items`. -/
def Items.tocommonValidations : Items → commonValidations
  | ⟨_, validations, _⟩ => validations

/-- The embedded `simpleSchema` of an `Items`. -/
def Items.tosimpleSchema : Items → simpleSchema Items
  | ⟨_, _, simple⟩ => simple

/-- The zero value of `commonValidations`. -/
def commonValidations.zero : commonValidations :=
  { Maximum := none, ExclusiveMaximum := false, Minimum := none, ExclusiveMinimum := false,
    MaxLength := none, MinLength := none, Pattern := "", MaxItems := none, MinItems := none,
    UniqueItems := false, MultipleOf := none, Enum := none }

/-- The zero value of `simpleSchema`. -/
def simpleSchema.zero {I : Type} : simpleSchema I :=
  { Type_ := "", Format := "", Items := none, CollectionFormat := "", Default := .json .null }

/-! ### Encoding

`json.Marshal` of a struct writes the fields in declaration order; every field here is tagged
`omitempty`, which leaves out a nil pointer, `false`, `""`, an empty slice and a nil
interface. -/

/-- The member of a `*float64` field that `json.Marshal` can write (see
`commonValidations.MarshalJSON` for the one it refuses). -/
def floatPtrMember (name : String) (x : Option Float64) : List (String × Json) :=
  match x with
  | some (.finite q) => [(name, .number q)]
  | _ => []

/-- The member of a `bool` field. -/
def boolMember (name : String) (b : Bool) : List (String × Json) :=
  if b then [(name, .bool true)] else []

/-- The member of an `*int64` field. -/
def int64PtrMember (name : String) (x : Option Int64) : List (String × Json) :=
  match x with
  | some n => [(name, .number (n.val : ℚ))]
  | none => []

/-- The member of a `string` field: a JSON string is valid text, so the invalid bytes are
replaced. -/
def stringMember (name : String) (s : GoString) : List (String × Json) :=
  if s = "" then [] else [(name, .string s.toText)]

/-- The member of the reference text (`Ref.String()`). -/
def textMember (name : String) (s : String) : List (String × Json) :=
  if s = "" then [] else [(name, .string s)]

/-- The member of a `[]interface{}` field: `omitempty` leaves out the nil slice and the empty
one. -/
def sliceMember (name : String) (xs : Option (List GoValue)) : List (String × Json) :=
  match xs with
  | none => []
  | some [] => []
  | some (v :: vs) => [(name, .array ((v :: vs).map GoValue.toJson))]

/-- The member of an `interface{}` field. -/
def interfaceMember (name : String) (v : GoValue) : List (String × Json) :=
  if v.isNil then [] else [(name, v.toJson)]

/-- The member of the `*Items` field, given the encoding of the `Items` it points to. -/
def itemsPtrMember (name : String) (x : Option Json) : List (String × Json) :=
  match x with
  | some j => [(name, j)]
  | none => []

/-- The members written by `json.Marshal(i.commonValidations)`. -/
def commonValidations.members (c : commonValidations) : List (String × Json) :=
  floatPtrMember "maximum" c.Maximum ++
  (boolMember "exclusiveMaximum" c.ExclusiveMaximum ++
  (floatPtrMember "minimum" c.Minimum ++
  (boolMember "exclusiveMinimum" c.ExclusiveMinimum ++
  (int64PtrMember "maxLength" c.MaxLength ++
  (int64PtrMember "minLength" c.MinLength ++
  (stringMember "pattern" c.Pattern ++
  (int64PtrMember "maxItems" c.MaxItems ++
  (int64PtrMember "minItems" c.MinItems ++
  (boolMember "uniqueItems" c.UniqueItems ++
  (floatPtrMember "multipleOf" c.MultipleOf ++
  sliceMember "enum" c.Enum))))))))))

/-- The members written by `json.Marshal(i.simpleSchema)`, given the encoding of the `Items`
the field `Items` points to. -/
def simpleSchema.members (type format : GoString) (items : Option Json)
    (collectionFormat : GoString) (default : GoValue) : List (String × Json) :=
  stringMember "type" type ++
  (stringMember "format" format ++
  (itemsPtrMember "items" items ++
  (stringMember "collectionFormat" collectionFormat ++
  interfaceMember "default" default)))

/-- Modelled from the spec: the members written by `json.Marshal(i.refable)` (spec/ref.go is not
under `src/`): the reference under the name `$ref`, nothing for a node that is no reference. -/
def refable.members (r : refable) : List (String × Json) :=
  textMember "$ref" r.Ref

/-- Whether `json.Marshal(i.commonValidations)` succeeds: it returns an
`UnsupportedValueError` when `Maximum`, `Minimum` or `MultipleOf` points to a `NaN` or an
infinity. -/
def commonValidations.finiteBounds (c : commonValidations) : Bool :=
  (c.Maximum.all Float64.isFinite && c.Minimum.all Float64.isFinite) &&
    c.MultipleOf.all Float64.isFinite

/-- The call `json.Marshal(i.commonValidations)` of line 172: the payload, or `none` for the
error. -/
def commonValidations.MarshalJSON (c : commonValidations) : Option Json :=
  if c.finiteBounds then some (.object c.members) else none

/-- The method `Items.MarshalJSON`: `swag.ConcatJSON(b3, b1, b2)` of the encodings `b3` of the
`refable`, `b1` of the `commonValidations` and `b2` of the `simpleSchema`; `none` is the error
return of lines 173-183.  The encoding `b2` holds the encoding of the `Items` the field `Items`
points to, and fails when that one fails.  (A dynamic value `json.Marshal` refuses, a channel
or a `NaN` held in `Default` or `Enum`, has no counterpart in `GoValue`.) -/
def Items.MarshalJSON : Items → Option Json
  | ⟨ref, validations, ⟨type, format, none, collectionFormat, default⟩⟩ =>
    match validations.MarshalJSON with
    | none => none
    | some b1 =>
      some (ConcatJSON
        [.object ref.members, b1,
          .object (simpleSchema.members type format none collectionFormat default)])
  | ⟨ref, validations, ⟨type, format, some items, collectionFormat, default⟩⟩ =>
    match validations.MarshalJSON with
    | none => none
    | some b1 =>
      match items.MarshalJSON with
      | none => none
      | some b =>
        some (ConcatJSON
          [.object ref.members, b1,
            .object (simpleSchema.members type format (some b) collectionFormat default)])

/-! ### Decoding

`json.Unmarshal` into a struct reads the members of the object in payload order and stores
each one in the field whose name matches the member name, without regard to letter case; a
member that matches no field is skipped; `null` leaves a non-pointer field as it is and sets a
pointer, slice or interface to nil; a value of the wrong kind is an error.  The payload `null`
leaves the struct unchanged. -/

/-- The folding under which `encoding/json` compares a member name with a field name: the
letter case of the ASCII letters is ignored, and U+017F (long s) and U+212A (Kelvin sign) count
as `s` and `k`. -/
def foldRune (c : Char) : Char :=
  if c = Char.ofNat 0x17F then 's' else if c = Char.ofNat 0x212A then 'k' else c.toLower

/-- Whether a member name matches a field name. -/
def matchesField (key field : String) : Bool :=
  key.toList.map foldRune == field.toList.map foldRune

/-- The name of the field, among `fields`, that a member named `key` is stored in; `key`
itself when it matches none. -/
def fieldFor (fields : List String) (key : String) : String :=
  (fields.find? (matchesField key)).getD key

/-- The JSON names of the fields of `commonValidations`. -/
def validationFields : List String :=
  ["maximum", "exclusiveMaximum", "minimum", "exclusiveMinimum", "maxLength", "minLength",
    "pattern", "maxItems", "minItems", "uniqueItems", "multipleOf", "enum"]

/-- The JSON names of the fields of `simpleSchema`. -/
def simpleFields : List String :=
  ["type", "format", "items", "collectionFormat", "default"]

/-- Decoding into a `*float64` field.  (The number is kept as it is: `strconv.ParseFloat`
rounds it to the nearest `float64` and fails when it is out of range, which the model, where a
finite `float64` is any rational, does not show.) -/
def decodeFloatPtr : Json → Option (Option Float64)
  | .null => some none
  | .number q => some (some (.finite q))
  | _ => none

/-- Decoding into a `bool` field holding `old`. -/
def decodeBool (old : Bool) : Json → Option Bool
  | .null => some old
  | .bool b => some b
  | _ => none

/-- Decoding into an `*int64` field.  (A JSON number is the value it denotes: the model accepts
every number whose value is an integer in range, where `encoding/json` also asks that the
literal has no fraction and no exponent, as the literals `json.Marshal` writes for an
`int64`.) -/
def decodeInt64Ptr : Json → Option (Option Int64)
  | .null => some none
  | .number q =>
    match Int64.ofRat? q with
    | some n => some (some n)
    | none => none
  | _ => none

/-- Decoding into a `string` field holding `old`. -/
def decodeString (old : GoString) : Json → Option GoString
  | .null => some old
  | .string s => some (GoString.ofText s)
  | _ => none

/-- Decoding into a `[]interface{}` field: `null` gives the nil slice, an array a slice that
is not nil. -/
def decodeSlice : Json → Option (Option (List GoValue))
  | .null => some none
  | .array xs => some (some (xs.map GoValue.json))
  | _ => none

/-- Storing the member `name: value` into a `commonValidations`. -/
def commonValidations.setField (c : commonValidations) (key : String) (value : Json) :
    Option commonValidations :=
  let name := fieldFor validationFields key
  if name = "maximum" then (decodeFloatPtr value).map fun x => { c with Maximum := x }
  else if name = "exclusiveMaximum" then
    (decodeBool c.ExclusiveMaximum value).map fun x => { c with ExclusiveMaximum := x }
  else if name = "minimum" then (decodeFloatPtr value).map fun x => { c with Minimum := x }
  else if name = "exclusiveMinimum" then
    (decodeBool c.ExclusiveMinimum value).map fun x => { c with ExclusiveMinimum := x }
  else if name = "maxLength" then (decodeInt64Ptr value).map fun x => { c with MaxLength := x }
  else if name = "minLength" then (decodeInt64Ptr value).map fun x => { c with MinLength := x }
  else if name = "pattern" then
    (decodeString c.Pattern value).map fun x => { c with Pattern := x }
  else if name = "maxItems" then (decodeInt64Ptr value).map fun x => { c with MaxItems := x }
  else if name = "minItems" then (decodeInt64Ptr value).map fun x => { c with MinItems := x }
  else if name = "uniqueItems" then
    (decodeBool c.UniqueItems value).map fun x => { c with UniqueItems := x }
  else if name = "multipleOf" then (decodeFloatPtr value).map fun x => { c with MultipleOf := x }
  else if name = "enum" then (decodeSlice value).map fun x => { c with Enum := x }
  else some c

/-- Modelled from the spec: storing the member `name: value` into a `refable` (spec/ref.go is
not under `src/`): the member named `$ref` gives the reference when its value is a string. -/
def refable.setField (r : refable) (name : String) (value : Json) : Option refable :=
  if name = "$ref" then
    match value with
    | .string s => some ⟨s⟩
    | _ => some r
  else some r

/-- Reading the members of an object into a struct, one after the other: the call
`json.Unmarshal(data, &v)` for an object `data` with these members. -/
def decodeFields {T : Type} (set : T → String → Json → Option T) :
    List (String × Json) → T → Option T
  | [], t => some t
  | e :: rest, t =>
    match set t e.1 e.2 with
    | some t2 => decodeFields set rest t2
    | none => none

/-- Storing a member that is not `items` into a `simpleSchema`. -/
def simpleSchema.setField {I : Type} (s : simpleSchema I) (key : String) (value : Json) :
    Option (simpleSchema I) :=
  let name := fieldFor simpleFields key
  if name = "type" then (decodeString s.Type_ value).map fun x => { s with Type_ := x }
  else if name = "format" then (decodeString s.Format value).map fun x => { s with Format := x }
  else if name = "collectionFormat" then
    (decodeString s.CollectionFormat value).map fun x => { s with CollectionFormat := x }
  else if name = "default" then some { s with Default := .json value }
  else some s

mutual

/-- The method `Items.UnmarshalJSON`, on a fresh value: the three sub-groups are decoded from
the same payload, and the value is assembled when all three succeeded (`none` is an error). -/
def Items.UnmarshalJSON : Json → Option Items
  | .null => some ⟨⟨""⟩, commonValidations.zero, simpleSchema.zero⟩
  | .object ms =>
    match decodeFields commonValidations.setField ms commonValidations.zero with
    | none => none
    | some validations =>
      match decodeFields refable.setField ms ⟨""⟩ with
      | none => none
      | some ref =>
        match simpleSchema.decodeFields ms simpleSchema.zero with
        | none => none
        | some simple => some ⟨ref, validations, simple⟩
  | _ => none

/-- The call `json.Unmarshal(data, &simpleSchema)` on the members of an object: the member
`items` is decoded by `Items.UnmarshalJSON` (`null` gives the nil pointer). -/
def simpleSchema.decodeFields :
    List (String × Json) → simpleSchema Items → Option (simpleSchema Items)
  | [], s => some s
  | (name, value) :: rest, s =>
    if fieldFor simpleFields name = "items" then
      match value with
      | .null => simpleSchema.decodeFields rest { s with Items := none }
      | value =>
        match Items.UnmarshalJSON value with
        | some items => simpleSchema.decodeFields rest { s with Items := some items }
        | none => none
    else
      match s.setField name value with
      | some s2 => simpleSchema.decodeFields rest s2
      | none => none

end

/-- The names of the members of a member list, in order. -/
def memberNames (ms : List (String × Json)) : List String :=
  ms.map Prod.fst

/-- The member names `Items.MarshalJSON` can write, in the order it writes them. -/
def itemsMemberNames : List String :=
  ["$ref", "maximum", "exclusiveMaximum", "minimum", "exclusiveMinimum", "maxLength",
    "minLength", "pattern", "maxItems", "minItems", "uniqueItems", "multipleOf", "enum",
    "type", "format", "items", "collectionFormat", "default"]

/-- Whether every dynamic value held by an `Items` (in `Default` and `Enum`, at every depth) is
one the decoder produces. -/
def Items.isNative : Items → Bool
  | ⟨_, validations, ⟨_, _, none, _, default⟩⟩ =>
    (validations.Enum.getD []).all GoValue.isNative && default.isNative
  | ⟨_, validations, ⟨_, _, some items, _, default⟩⟩ =>
    (validations.Enum.getD []).all GoValue.isNative && default.isNative && items.isNative

/-- Whether the strings of a `commonValidations` and of a `simpleSchema` are valid UTF-8. -/
def validStrings (validations : commonValidations) (type format collectionFormat : GoString) :
    Bool :=
  ((validations.Pattern.isValid && type.isValid) && format.isValid) && collectionFormat.isValid

/-- Whether every string of an `Items` (`Pattern`, `Type`, `Format`, `CollectionFormat`, at
every depth) is valid UTF-8. -/
def Items.validStrings : Items → Bool
  | ⟨_, validations, ⟨type, format, none, collectionFormat, _⟩⟩ =>
    Spec.validStrings validations type format collectionFormat
  | ⟨_, validations, ⟨type, format, some items, collectionFormat, _⟩⟩ =>
    Spec.validStrings validations type format collectionFormat && items.validStrings

/-- Whether every `float64` bound of an `Items` (`Maximum`, `Minimum`, `MultipleOf`, at every
depth) is finite. -/
def Items.finiteBounds : Items → Bool
  | ⟨_, validations, ⟨_, _, none, _, _⟩⟩ => validations.finiteBounds
  | ⟨_, validations, ⟨_, _, some items, _, _⟩⟩ => validations.finiteBounds && items.finiteBounds

/-- Whether a slice is empty without being nil. -/
def isEmptySlice : Option (List GoValue) → Bool
  | some [] => true
  | _ => false

/-- Whether no `Enum` of an `Items` (at every depth) is an empty slice that is not nil. -/
def Items.noEmptyEnum : Items → Bool
  | ⟨_, validations, ⟨_, _, none, _, _⟩⟩ => !isEmptySlice validations.Enum
  | ⟨_, validations, ⟨_, _, some items, _, _⟩⟩ =>
    !isEmptySlice validations.Enum && items.noEmptyEnum

/-! ### Fluent builders

A builder mutates the receiver `i` and returns the pointer `i`: here it is the function from the
receiver before the call to the receiver after it, which is also what the returned pointer
points to.  `CollectionOf` stores the pointer `items`; the model stores the value it points to
(an `Items` that points to itself has no counterpart here). -/

/-- The function `NewItems`: a pointer to the zero value. -/
def NewItems : Items :=
  ⟨⟨""⟩, commonValidations.zero, simpleSchema.zero⟩

/-- The method `Items.Typed`. -/
def Items.Typed : Items → GoString → GoString → Items
  | ⟨ref, validations, simple⟩, tpe, format =>
    ⟨ref, validations, { simple with Type_ := tpe, Format := format }⟩

/-- The method `Items.CollectionOf`. -/
def Items.CollectionOf : Items → Option Items → GoString → Items
  | ⟨ref, validations, simple⟩, items, format =>
    ⟨ref, validations,
      { simple with Type_ := "array", Items := items, CollectionFormat := format }⟩

/-- The method `Items.WithDefault`. -/
def Items.WithDefault : Items → GoValue → Items
  | ⟨ref, validations, simple⟩, defaultValue =>
    ⟨ref, validations, { simple with Default := defaultValue }⟩

/-- The method `Items.WithMaxLength`. -/
def Items.WithMaxLength : Items → Int64 → Items
  | ⟨ref, validations, simple⟩, max => ⟨ref, { validations with MaxLength := some max }, simple⟩

/-- The method `Items.WithMinLength`. -/
def Items.WithMinLength : Items → Int64 → Items
  | ⟨ref, validations, simple⟩, min => ⟨ref, { validations with MinLength := some min }, simple⟩

/-- The method `Items.WithPattern`. -/
def Items.WithPattern : Items → GoString → Items
  | ⟨ref, validations, simple⟩, pattern => ⟨ref, { validations with Pattern := pattern }, simple⟩

/-- The method `Items.WithMultipleOf`. -/
def Items.WithMultipleOf : Items → Float64 → Items
  | ⟨ref, validations, simple⟩, number =>
    ⟨ref, { validations with MultipleOf := some number }, simple⟩

/-- The method `Items.WithMaximum`. -/
def Items.WithMaximum : Items → Float64 → Bool → Items
  | ⟨ref, validations, simple⟩, max, exclusive =>
    ⟨ref, { validations with Maximum := some max, ExclusiveMaximum := exclusive }, simple⟩

/-- The method `Items.WithMinimum`. -/
def Items.WithMinimum : Items → Float64 → Bool → Items
  | ⟨ref, validations, simple⟩, min, exclusive =>
    ⟨ref, { validations with Minimum := some min, ExclusiveMinimum := exclusive }, simple⟩

/-- The method `Items.WithEnum`: `append([]interface{}{}, values...)` is a new slice holding
the arguments; it is not nil, also when there are no arguments. -/
def Items.WithEnum : Items → List GoValue → Items
  | ⟨ref, validations, simple⟩, values =>
    ⟨ref, { validations with Enum := some ([] ++ values) }, simple⟩

/-- The method `Items.WithMaxItems`. -/
def Items.WithMaxItems : Items → Int64 → Items
  | ⟨ref, validations, simple⟩, size => ⟨ref, { validations with MaxItems := some size }, simple⟩

/-- The method `Items.WithMinItems`. -/
def Items.WithMinItems : Items → Int64 → Items
  | ⟨ref, validations, simple⟩, size => ⟨ref, { validations with MinItems := some size }, simple⟩

/-- The method `Items.UniqueValues`. -/
def Items.UniqueValues : Items → Items
  | ⟨ref, validations, simple⟩ => ⟨ref, { validations with UniqueItems := true }, simple⟩

/-- The method `Items.AllowDuplicates`. -/
def Items.AllowDuplicates : Items → Items
  | ⟨ref, validations, simple⟩ => ⟨ref, { validations with UniqueItems := false }, simple⟩

/-- The fields of an `Items`: those of its three embedded structs. -/
inductive Field where
  | Ref | Maximum | ExclusiveMaximum | Minimum | ExclusiveMinimum | MaxLength | MinLength
  | Pattern | MaxItems | MinItems | UniqueItems | MultipleOf | Enum
  | Type_ | Format | Items | CollectionFormat | Default
  deriving DecidableEq, Repr

/-- Two `Items` hold the same value in the field `f`. -/
def Items.sameField (f : Field) (a b : Items) : Prop :=
  match f with
  | .Ref => a.torefable.Ref = b.torefable.Ref
  | .Maximum => a.tocommonValidations.Maximum = b.tocommonValidations.Maximum
  | .ExclusiveMaximum =>
    a.tocommonValidations.ExclusiveMaximum = b.tocommonValidations.ExclusiveMaximum
  | .Minimum => a.tocommonValidations.Minimum = b.tocommonValidations.Minimum
  | .ExclusiveMinimum =>
    a.tocommonValidations.ExclusiveMinimum = b.tocommonValidations.ExclusiveMinimum
  | .MaxLength => a.tocommonValidations.MaxLength = b.tocommonValidations.MaxLength
  | .MinLength => a.tocommonValidations.MinLength = b.tocommonValidations.MinLength
  | .Pattern => a.tocommonValidations.Pattern = b.tocommonValidations.Pattern
  | .MaxItems => a.tocommonValidations.MaxItems = b.tocommonValidations.MaxItems
  | .MinItems => a.tocommonValidations.MinItems = b.tocommonValidations.MinItems
  | .UniqueItems => a.tocommonValidations.UniqueItems = b.tocommonValidations.UniqueItems
  | .MultipleOf => a.tocommonValidations.MultipleOf = b.tocommonValidations.MultipleOf
  | .Enum => a.tocommonValidations.Enum = b.tocommonValidations.Enum
  | .Type_ => a.tosimpleSchema.Type_ = b.tosimpleSchema.Type_
  | .Format => a.tosimpleSchema.Format = b.tosimpleSchema.Format
  | .Items => a.tosimpleSchema.Items = b.tosimpleSchema.Items
  | .CollectionFormat => a.tosimpleSchema.CollectionFormat = b.tosimpleSchema.CollectionFormat
  | .Default => a.tosimpleSchema.Default = b.tosimpleSchema.Default

/-- The builder result `j` differs from the receiver `i` in the fields `fs` at most. -/
def Items.changesOnly (fs : List Field) (i j : Items) : Prop :=
  ∀ f, f ∉ fs → Items.sameField f j i

/-! ### Concrete values -/

/-- The value `new(Items).WithDefault(5)`: only `Default` is set, to the Go `int` 5. -/
def intDefaultItems : Items :=
  NewItems.WithDefault (.int 5)

/-- The value `new(Items).WithMaximum(math.NaN(), false)`. -/
def nanMaximumItems : Items :=
  NewItems.WithMaximum .nan false

/-- The value `new(Items).WithPattern("a\xffb")`: the byte `0xff` is part of no valid
encoding. -/
def invalidPatternItems : Items :=
  NewItems.WithPattern ⟨[.char 'a', .invalid 255, .char 'b']⟩

/-- The value `new(Items).WithEnum()`: `Enum` is the empty slice, not nil. -/
def emptyEnumItems : Items :=
  NewItems.WithEnum []

/-- An array of integers: between one and three items, unique, in `csv` collection format,
with a default; the integers are `int32`, at least `0` and below `10`, from an enumeration. -/
def sampleItems : Items :=
  ⟨⟨""⟩,
    { commonValidations.zero with
      MaxItems := some ⟨3, by decide⟩
      MinItems := some ⟨1, by decide⟩
      UniqueItems := true },
    { Type_ := "array", Format := "",
      Items := some
        ⟨⟨""⟩,
          { commonValidations.zero with
            Maximum := some (.finite 10)
            ExclusiveMaximum := true
            Minimum := some (.finite 0)
            Enum := some [.json (.number 1), .json (.number 2)] },
          { Type_ := "integer", Format := "int32", Items := none, CollectionFormat := "",
            Default := .json .null }⟩,
      CollectionFormat := "csv", Default := .json (.array [.number 1]) }⟩

end Spec

end GoSwagger

/-! # The contract registry (`httpkit/middleware/untyped`) and the document queries

Under `src/` there is only the test `api_test.go`: `api.go` (the type `API`, `NewAPI`, the
`Register...` methods, `Validate`, `validate`, `verify`) and the document analyzer of package
`spec` (`ConsumesFor`, `ProducesFor`, `RequiredConsumes`, ...) are not.  The missing code is
modelled from the words of the specification.  The assertions of `TestUntypedAppValidation`
are translated from `api_test.go` as properties of the functions under test, so that what the
specification says of a function can be compared with what the test asserts of it. -/

namespace GoSwagger

namespace Untyped

/-! ## Sorted names and set differences -/

/-- The byte-wise order of `sort.Strings`, on the characters of two names: whether the first
name comes strictly before the second. -/
def lessChars : List Char → List Char → Bool
  | [], [] => false
  | [], _ :: _ => true
  | _ :: _, [] => false
  | a :: as, b :: bs =>
    if a.toNat < b.toNat then true
    else if b.toNat < a.toNat then false
    else lessChars as bs

/-- The name `a` does not come after the name `b`. -/
def nameLE (a b : String) : Prop :=
  lessChars b.toList a.toList = false

instance : DecidableRel nameLE :=
  fun a b => inferInstanceAs (Decidable (lessChars b.toList a.toList = false))

/-- The names "sorted lexicographically". -/
def sortNames (names : List String) : List String :=
  names.insertionSort nameLE

/-- The set difference `a − b`, each name once. -/
def difference (a b : List String) : List String :=
  (a.filter fun x => decide (x ∉ b)).dedup

/-! ## The document queries -/

/-- Modelled from the spec: the part of an operation (`spec.Operation`, not under `src/`) that
`ConsumesFor` and `ProducesFor` read: its own `consumes` and `produces` lists. -/
structure Operation where
  Consumes : List String
  Produces : List String

/-- Modelled from the spec: the part of a document (`spec.Document`, not under `src/`) that
`ConsumesFor` and `ProducesFor` read: the document-level `consumes` and `produces` lists. -/
structure Document where
  Consumes : List String
  Produces : List String

/-- Modelled from the spec: `Document.ConsumesFor(op)` (not under `src/`): "return the
operation's own list if non-empty, else the document-level default". -/
def Document.ConsumesFor (d : Document) (op : Operation) : List String :=
  if op.Consumes = [] then d.Consumes else op.Consumes

/-- Modelled from the spec: `Document.ProducesFor(op)` (not under `src/`): "return the
operation's own list if non-empty, else the document-level default". -/
def Document.ProducesFor (d : Document) (op : Operation) : List String :=
  if op.Produces = [] then d.Produces else op.Produces

/-! ## The registry -/

/-- Modelled from the spec: what `Validate` asks of the spec document (the analyzer is not
under `src/`): the "required sets" `RequiredConsumes()`, `RequiredProduces()`, the operation
ids, the scheme names referenced by operations, and the names declared in
`securityDefinitions`. -/
structure Requirements where
  RequiredConsumes : List String
  RequiredProduces : List String
  OperationIDs : List String
  RequiredSchemes : List String
  SecurityDefinitions : List String

/-- Modelled from the spec: the type `API` (api.go is not under `src/`): "three independent
key→value mappings (content-type→codec, operationId→handler, scheme-name→authenticator), bound
to one Spec at construction", with consumers and producers kept apart as in the test.
`Validate` reads the keys only: each map is the list of its keys. -/
structure API where
  spec : Requirements
  consumers : List String
  producers : List String
  operations : List String
  authenticators : List String

/-- Modelled from the spec: `NewAPI(spec)`: "seeds default codecs for `application/json` as
both consumer and producer". -/
def NewAPI (spec : Requirements) : API :=
  { spec := spec, consumers := ["application/json"], producers := ["application/json"],
    operations := [], authenticators := [] }

/-- The Go statement `m[k] = v` on the keys of a map. -/
def upsert (keys : List String) (k : String) : List String :=
  if k ∈ keys then keys else keys ++ [k]

/-- Modelled from the spec: `API.RegisterConsumer` ("idempotent upsert"). -/
def API.RegisterConsumer (d : API) (mediaType : String) : API :=
  { d with consumers := upsert d.consumers mediaType }

/-- Modelled from the spec: `API.RegisterProducer` ("idempotent upsert"). -/
def API.RegisterProducer (d : API) (mediaType : String) : API :=
  { d with producers := upsert d.producers mediaType }

/-- Modelled from the spec: `API.RegisterOperation` ("idempotent upsert"). -/
def API.RegisterOperation (d : API) (operationID : String) : API :=
  { d with operations := upsert d.operations operationID }

/-- Modelled from the spec: `API.RegisterAuth` ("idempotent upsert"). -/
def API.RegisterAuth (d : API) (scheme : String) : API :=
  { d with authenticators := upsert d.authenticators scheme }

/-- Modelled from the spec: the line "missing [sorted, comma-joined] <kind> registrations". -/
def missingRegistrationLine (kind : String) (names : List String) : String :=
  "missing [" ++ ", ".intercalate names ++ "] " ++ kind ++ " registrations"

/-- Modelled from the spec: the line "missing from spec file [sorted, comma-joined] <kind>". -/
def missingSpecLine (kind : String) (names : List String) : String :=
  "missing from spec file [" ++ ", ".intercalate names ++ "] " ++ kind

/-- Modelled from the spec: the check of one kind (`API.verify`, not under `src/`): "compute
differences against the registry's keys in both directions: `missing = required − registered`
... `extra = registered − required`".  The result is the lines of the violation, none when
there is none. -/
def verify (kind : String) (registrations expectations : List String) : List String :=
  let unregistered := sortNames (difference expectations registrations)
  let unspecified := sortNames (difference registrations expectations)
  (if unregistered = [] then [] else [missingRegistrationLine kind unregistered]) ++
  (if unspecified = [] then [] else [missingSpecLine kind unspecified])

/-- Modelled from the spec: the "separate check [that] verifies every scheme name referenced by
an operation is declared in security-definitions ..., reported as "missing [sorted names]
security definitions registrations"". -/
def securityDefinitionsCheck (defined required : List String) : List String :=
  let undeclared := sortNames (difference required defined)
  if undeclared = [] then [] else [missingRegistrationLine "security definitions" undeclared]

/-- The four kinds of registration, in the order of the checks: the kind, the registered keys
and the required keys. -/
def API.registrations (d : API) : List (String × List String × List String) :=
  [("consumes", d.consumers, d.spec.RequiredConsumes),
   ("produces", d.producers, d.spec.RequiredProduces),
   ("operation", d.operations, d.spec.OperationIDs),
   ("auth scheme", d.authenticators, d.spec.RequiredSchemes)]

/-- The violations found by each check, "consumes, produces, operations, auth, then
security-definitions ... in that fixed order". -/
def API.checks (d : API) : List (List String) :=
  (d.registrations.map fun k => verify k.1 k.2.1 k.2.2) ++
    [securityDefinitionsCheck d.spec.SecurityDefinitions d.spec.RequiredSchemes]

/-- Modelled from the spec: `API.validate` (not under `src/`): the error it returns, as the
list of its lines; `none` is the nil error.  "All violations across consumes, produces,
operations, auth, then security-definitions are concatenated one per line, in that fixed
order, into a single aggregate error; `Validate` succeeds only when every check passes." -/
def API.validate (d : API) : Option (List String) :=
  let lines := d.checks.foldr (fun c rest => c ++ rest) []
  if lines = [] then none else some lines

/-- Modelled from the spec: the exported `API.Validate` (not under `src/`): "`Validate()`
(aggregate, possibly multi-line error)". -/
def API.Validate (d : API) : Option (List String) :=
  d.validate

/-- The text of an error (`err.Error()`): its lines, "one per line". -/
def errorText (lines : List String) : String :=
  "\n".intercalate lines

/-- The lines of a text: its characters split at every line feed. -/
def linesOf : List Char → List (List Char)
  | [] => [[]]
  | c :: rest =>
    if c = '\n' then [] :: linesOf rest
    else
      match linesOf rest with
      | [] => [[c]]
      | l :: ls => (c :: l) :: ls

/-- The returned error (`none` is the nil error) holds the given line. -/
def holdsLine (err : Option String) (line : String) : Prop :=
  match err with
  | none => False
  | some text => line.toList ∈ linesOf text.toList

instance (err : Option String) (line : String) : Decidable (holdsLine err line) :=
  match err with
  | none => isFalse (fun h => h)
  | some text => inferInstanceAs (Decidable (line.toList ∈ linesOf text.toList))

/-- The Go statement `delete(api2.consumers, mediaType)` of the test (line 215). -/
def API.deleteConsumer (d : API) (mediaType : String) : API :=
  { d with consumers := d.consumers.filter fun k => decide (k ≠ mediaType) }

/-- The Go statement `delete(api2.producers, mediaType)` of the test (line 220). -/
def API.deleteProducer (d : API) (mediaType : String) : API :=
  { d with producers := d.producers.filter fun k => decide (k ≠ mediaType) }

/-! ## The test `TestUntypedAppValidation` (api_test.go)

The two documents of the test, and its assertions on `ConsumesFor`, `ProducesFor`, `Validate`
and `validate`.  The functions under test are parameters: the text of the error a call
returns (`err.Error()`, `none` for `assert.NoError`), or the list a query returns. -/

/-- The document-level lists of both documents of the test: `"consumes": ["application/json"]`,
`"produces": ["application/json"]`. -/
def testDocument : Document :=
  { Consumes := ["application/json"], Produces := ["application/json"] }

/-- The operation `get /` of both documents of the test: `"consumes": ["application/x-yaml"]`,
`"produces": ["application/x-yaml"]`. -/
def testOperation : Operation :=
  { Consumes := ["application/x-yaml"], Produces := ["application/x-yaml"] }

/-- Modelled from the spec: the requirements of `invalidSpecStr`: "a spec requiring consumes
`["application/json","application/x-yaml"]`, produces the same two, one operation
`"someOperation"`, and security schemes `{"apiKey","basic"}`"; the document declares no
security definitions. -/
def invalidSpec : Requirements :=
  { RequiredConsumes := ["application/json", "application/x-yaml"],
    RequiredProduces := ["application/json", "application/x-yaml"],
    OperationIDs := ["someOperation"],
    RequiredSchemes := ["basic", "apiKey"],
    SecurityDefinitions := [] }

/-- Modelled from the spec: the requirements of `specStr`: those of `invalidSpecStr`, with
`basic` and `apiKey` declared in `securityDefinitions`. -/
def validSpec : Requirements :=
  { invalidSpec with SecurityDefinitions := ["basic", "apiKey"] }

/-- The registry of the test after all its registrations (lines 178, 182, 186, 190-191 for
`api1`, lines 197-201 for `api3`). -/
def completeAPI (spec : Requirements) : API :=
  ((((NewAPI spec).RegisterConsumer "application/x-yaml").RegisterProducer
    "application/x-yaml").RegisterOperation "someOperation").RegisterAuth "basic"
    |>.RegisterAuth "apiKey"

/-- The assertions of lines 169-170, 223-227 and 231-233 on `ConsumesFor` and `ProducesFor`:
for the operation `get /` of the document, `ConsumesFor` has length 2, and `ConsumesFor` and
`ProducesFor`, sorted, equal `["application/json", "application/x-yaml"]`. -/
def queryAssertions (ConsumesFor ProducesFor : Document → Operation → List String) : Prop :=
  (ConsumesFor testDocument testOperation).length = 2 ∧
  sortNames (ConsumesFor testDocument testOperation) =
    ["application/json", "application/x-yaml"] ∧
  sortNames (ProducesFor testDocument testOperation) =
    ["application/json", "application/x-yaml"]

/-- The assertions of lines 174-194 on `api1`, a registry for `invalidSpecStr`: `Validate` on
the fresh registry, then `validate` after each round of registration.  Each is
`assert.Equal(t, "...", err.Error())`. -/
def validationAssertions (Validate validate : API → Option String) : Prop :=
  Validate (NewAPI invalidSpec) =
    some "missing [application/x-yaml] consumes registrations" ∧
  validate ((NewAPI invalidSpec).RegisterConsumer "application/x-yaml") =
    some "missing [application/x-yaml] produces registrations" ∧
  validate (((NewAPI invalidSpec).RegisterConsumer "application/x-yaml").RegisterProducer
    "application/x-yaml") =
    some "missing [someOperation] operation registrations" ∧
  validate ((((NewAPI invalidSpec).RegisterConsumer "application/x-yaml").RegisterProducer
    "application/x-yaml").RegisterOperation "someOperation") =
    some "missing [apiKey, basic] auth scheme registrations" ∧
  validate (completeAPI invalidSpec) =
    some "missing [apiKey, basic] security definitions registrations"

/-- The assertions of lines 196-219 on `api3`, a registry for `specStr`, and `api2`, a registry
for `invalidSpecStr`: no error for the complete `api3`; then `api3` with the consumer
`application/something`; `api2` with that consumer; `api2` with the `application/x-yaml`
consumer in its place and the producer `application/something`. -/
def registrationAssertions (validate : API → Option String) : Prop :=
  validate (completeAPI validSpec) = none ∧
  validate ((completeAPI validSpec).RegisterConsumer "application/something") =
    some "missing from spec file [application/something] consumes" ∧
  validate ((NewAPI invalidSpec).RegisterConsumer "application/something") =
    some ("missing [application/x-yaml] consumes registrations\n" ++
      "missing from spec file [application/something] consumes") ∧
  validate (((((NewAPI invalidSpec).RegisterConsumer "application/something").RegisterConsumer
    "application/x-yaml").deleteConsumer "application/something").RegisterProducer
    "application/something") =
    some ("missing [application/x-yaml] produces registrations\n" ++
      "missing from spec file [application/something] produces")

/-- The returned error `err` is the violation of the check at position `i` of `d.checks`, and
of that check alone; that check fails and the checks before it pass. -/
def reportsCheck (err : Option String) (d : API) (i : Nat) : Prop :=
  (d.checks[i]?).map errorText = err ∧
  d.checks[i]? ≠ some [] ∧
  ∀ j : Nat, j < i → d.checks[j]? = some []

instance (err : Option String) (d : API) (i : Nat) : Decidable (reportsCheck err d i) :=
  inferInstanceAs (Decidable ((d.checks[i]?).map errorText = err ∧
    d.checks[i]? ≠ some [] ∧ ∀ j : Nat, j < i → d.checks[j]? = some []))

/-- Every check of `d.checks` after position `i` fails. -/
def laterChecksFail (d : API) (i : Nat) : Prop :=
  ∀ j : Nat, j < d.checks.length → i < j → d.checks[j]? ≠ some []

instance (d : API) (i : Nat) : Decidable (laterChecksFail d i) :=
  inferInstanceAs (Decidable
    (∀ j : Nat, j < d.checks.length → i < j → d.checks[j]? ≠ some []))

/-! ### Functions that satisfy the assertions

`api.go` and the analyzer are not under `src/`: the two functions below are not their code.
They show that the assertions of the test can be met. -/

/-- The first check with a violation. -/
def firstFailure : List (List String) → Option (List String)
  | [] => none
  | c :: rest => if c = [] then firstFailure rest else some c

/-- A `validate` that stops at the first check with a violation and returns that violation
alone. -/
def reportFirst (d : API) : Option String :=
  (firstFailure d.checks).map errorText

/-- A query that returns the document-level list and the operation's own list together, each
media type once. -/
def bothLists (document own : List String) : List String :=
  (document ++ own).dedup

end Untyped

end GoSwagger
/-! # Properties of the array rule -/

namespace GoSwagger

namespace Validate

section
variable {S V : Type}

theorem Run.extend_nil (sub : SchemaValidator S → V → Result) (st : Run S V) :
    st.extend sub [] = st := by
  cases st with
  | mk r c => cases r; simp [Run.extend, subErrors, subCount]

theorem Run.extend_append (sub : SchemaValidator S → V → Result) (st : Run S V)
    (a b : List (Call S V)) : (st.extend sub a).extend sub b = st.extend sub (a ++ b) := by
  simp [Run.extend, subErrors, subCount, List.flatMap_append, add_assoc]

theorem callsAt_succ (site : Site) (mk : Nat → Option (SchemaValidator S)) (val : List V)
    (lo n : Nat) :
    callsAt site mk val lo (n + 1) = callAt site mk val lo ++ callsAt site mk val (lo + 1) n := by
  simp [callsAt, List.range'_succ]

theorem callsAt_out (site : Site) (mk : Nat → Option (SchemaValidator S)) (val : List V)
    (lo n : Nat) (h : val.length ≤ lo) : callsAt site mk val lo n = [] := by
  induction n generalizing lo with
  | zero => simp [callsAt]
  | succ n ih =>
    rw [callsAt_succ, ih (lo + 1) (by omega)]
    have : val[lo]? = none := by simp [h]
    simp [callAt, this]

theorem forLoop_stepBody (sub : SchemaValidator S → V → Result) (site : Site)
    (mk : Nat → Option (SchemaValidator S)) (val : List V) (n : Nat) :
    ∀ (lo : Nat) (st : Run S V),
      (∀ i, lo ≤ i → i < lo + n → ∃ v, mk i = some v) →
      forLoop (stepBody sub site mk val) lo n st =
        if n = 0 ∨ lo + n ≤ val.length then
          .returned (st.extend sub (callsAt site mk val lo n))
        else .panicked (st.extend sub (callsAt site mk val lo n)) := by
  induction n with
  | zero =>
    intro lo st _
    simp [forLoop, callsAt, Run.extend_nil]
  | succ n ih =>
    intro lo st hmk
    obtain ⟨v, hv⟩ := hmk lo (le_refl _) (by omega)
    rw [forLoop, callsAt_succ]
    cases hx : val[lo]? with
    | none =>
      have hlen : val.length ≤ lo := by
        by_contra hc
        simp [List.getElem?_eq_getElem (Nat.lt_of_not_le hc)] at hx
      have h1 : ¬ (lo + (n + 1) ≤ val.length) := by omega
      simp [stepBody, hv, validateIndex, hx, Outcome.andThen, callAt, h1,
        callsAt_out site mk val (lo + 1) n (by omega), Run.extend_nil]
    | some x =>
      have hlen : lo < val.length := by
        by_contra hc
        simp [List.getElem?_eq_none (Nat.le_of_not_lt hc)] at hx
      have hstep : stepBody sub site mk val lo st
          = .returned (st.extend sub [⟨site, v, lo, x⟩]) := by
        simp [stepBody, hv, validateIndex, hx, Run.extend, subErrors, subCount, Result.Merge]
      rw [hstep]
      simp only [Outcome.andThen]
      rw [ih (lo + 1) _ (fun i h1 h2 => hmk i (by omega) (by omega))]
      simp only [callAt, hv, hx, Run.extend_append]
      by_cases hn : n = 0
      · subst hn
        have h1 : lo + 1 ≤ val.length := hlen
        simp [h1]
      · have e : (lo + 1 + n ≤ val.length) = (lo + (n + 1) ≤ val.length) := by
          rw [Nat.add_assoc, Nat.add_comm 1 n]
        simp [hn, e]

theorem sharedItems_eq (sub : SchemaValidator S → V → Result) (s : schemaSliceValidator S)
    (val : List V) (st : Run S V) :
    sharedItems sub s val val.length st = .returned (st.extend sub (sharedCalls s val)) := by
  unfold sharedItems sharedCalls
  split
  · rename_i schema rest _
    have hb : (fun i st => validateIndex sub Site.shared
          ((NewSchemaValidator schema s.Path).SetPath (indexPath s.Path i)) val i st)
        = stepBody sub .shared (fun i => some ⟨schema, indexPath s.Path i⟩) val := by
      funext i st
      simp [stepBody, NewSchemaValidator, SchemaValidator.SetPath]
    simp only [forRange, hb, Nat.sub_zero]
    rw [forLoop_stepBody sub .shared _ val val.length 0 st (fun i _ _ => ⟨_, rfl⟩)]
    simp
  · simp [Run.extend_nil]

theorem itemsSize_eq (s : schemaSliceValidator S) (items : SchemaOrArray S)
    (h : s.Items = some items) : itemsSize s = items.Schemas.length := by
  simp only [itemsSize, h]
  split
  · rfl
  · omega

theorem tupleItems_eq (sub : SchemaValidator S → V → Result) (s : schemaSliceValidator S)
    (val : List V) (st : Run S V) :
    tupleItems sub s val st =
      if itemsSize s ≤ val.length then .returned (st.extend sub (tupleCalls s val))
      else .panicked (st.extend sub (tupleCalls s val)) := by
  cases hI : s.Items with
  | none => simp [tupleItems, tupleCalls, itemsSize, hI, Run.extend_nil]
  | some items =>
    have hsz := itemsSize_eq s items hI
    simp only [tupleItems, tupleCalls, hI, hsz]
    by_cases h0 : items.Schemas.length > 0
    · have hb : (fun i st =>
            match items.Schemas[i]? with
            | none => Outcome.panicked st
            | some schema =>
              validateIndex sub Site.tuple (NewSchemaValidator schema (indexPath s.Path i)) val i st)
          = stepBody sub .tuple (tupleValidator s items.Schemas) val := by
        funext i st
        simp only [stepBody, tupleValidator, NewSchemaValidator]
        cases items.Schemas[i]? <;> rfl
      simp only [h0, if_true, forRange, hb, Nat.sub_zero]
      rw [forLoop_stepBody sub .tuple _ val items.Schemas.length 0 st]
      · have h1 : ¬ items.Schemas.length = 0 := by omega
        simp [h1]
      · intro i _ hi
        have hi2 : i < items.Schemas.length := by omega
        exact ⟨⟨items.Schemas[i], indexPath s.Path i⟩, by
          simp [tupleValidator, List.getElem?_eq_getElem hi2]⟩
    · have h1 : items.Schemas.length = 0 := by omega
      simp [h1, callsAt, Run.extend_nil]

theorem additionalItems_eq (sub : SchemaValidator S → V → Result) (s : schemaSliceValidator S)
    (val : List V) (st : Run S V) :
    additionalItems sub s val val.length (itemsSize s) st =
      if additionalInRange s val then
        .returned (Run.extend sub
          { st with result := st.result.AddErrors (additionalErrors s val) }
          (additionalCalls s val))
      else
        .panicked (Run.extend sub
          { st with result := st.result.AddErrors (additionalErrors s val) }
          (additionalCalls s val)) := by
  have hAdd0 : ∀ r : Run S V, ({ r with result := r.result.AddErrors [] } : Run S V) = r := by
    intro r
    cases r with
    | mk res c => cases res; simp [Result.AddErrors]
  have hmode : (match s.Items with
        | some items => decide (items.Schemas.length > 0)
        | none => false) = decide (0 < itemsSize s) := by
    cases hI : s.Items with
    | none => simp [itemsSize, hI]
    | some items => simp [itemsSize_eq s items hI]
  cases hA : s.AdditionalItems with
  | none =>
    simp [additionalItems, additionalInRange, additionalErrors, additionalCalls, hA, hAdd0,
      Run.extend_nil]
  | some additional =>
    obtain ⟨allows, schema⟩ := additional
    simp only [additionalItems, hA, hmode]
    by_cases hlt : itemsSize s < val.length
    · have hst : (if (decide (0 < itemsSize s) && !allows) = true then
            ({ st with result := st.result.AddErrors [additionalItemsError] } : Run S V)
          else st)
          = { st with result := st.result.AddErrors (additionalErrors s val) } := by
        by_cases h0 : 0 < itemsSize s <;> cases allows <;>
          simp [additionalErrors, hA, hlt, h0, hAdd0]
      simp only [hlt, if_true, hst]
      cases schema with
      | none => simp [additionalInRange, additionalCalls, hA, Run.extend_nil]
      | some schema =>
        have hb : (fun i st => validateIndex sub Site.additional
              (NewSchemaValidator schema (indexPath s.Path i)) val i st)
            = stepBody sub .additional (fun i => some ⟨schema, indexPath s.Path i⟩) val := by
          funext i st
          simp [stepBody, NewSchemaValidator]
        simp only [forRange, hb]
        rw [forLoop_stepBody sub .additional _ val _ _ _ (fun i _ _ => ⟨_, rfl⟩)]
        simp only [additionalInRange, additionalCalls, hA, hlt, if_true]
        by_cases h0 : 0 < itemsSize s
        · have c1 : (val.length - itemsSize s + 1 - itemsSize s = 0 ∨
              itemsSize s + (val.length - itemsSize s + 1 - itemsSize s) ≤ val.length) := by
            omega
          simp [c1, h0]
        · have c1 : ¬ (val.length - itemsSize s + 1 - itemsSize s = 0 ∨
              itemsSize s + (val.length - itemsSize s + 1 - itemsSize s) ≤ val.length) := by
            omega
          have c2 : ¬ (val.length ≤ itemsSize s) := by omega
          simp [c1, h0, c2]
    · have hle : val.length ≤ itemsSize s := by omega
      cases schema <;>
        simp [hlt, additionalInRange, additionalErrors, additionalCalls, hA, hAdd0,
          Run.extend_nil, hle]

theorem sizeChecks_eq [DecidableEq V] (s : schemaSliceValidator S) (val : List V) (r : Result) :
    sizeChecks s val val.length r
      = ⟨r.Errors ++ sizeErrors s val, r.MatchCount + 1⟩ := by
  cases r with
  | mk errs n =>
    simp only [sizeChecks, sizeErrors, Result.new]
    cases s.MinItems <;> cases s.MaxItems <;> cases s.UniqueItems <;>
      simp [Result.AddErrors, Result.Inc] <;>
      (repeat' split) <;> simp

theorem Validate_eq [DecidableEq V] (sub : SchemaValidator S → V → Result)
    (s : schemaSliceValidator S) (val : List V) :
    s.Validate sub (some val) =
      if itemsSize s ≤ val.length then
        if additionalInRange s val then
          .returned ⟨finalResult sub s val, (elementState sub s val).calls⟩
        else .panicked (elementState sub s val)
      else
        .panicked
          { result := ⟨subErrors sub (sharedCalls s val) ++ subErrors sub (tupleCalls s val),
              subCount sub (sharedCalls s val) + subCount sub (tupleCalls s val)⟩
            calls := sharedCalls s val ++ tupleCalls s val } := by
  simp only [schemaSliceValidator.Validate, sharedItems_eq, Outcome.andThen, tupleItems_eq]
  by_cases hT : itemsSize s ≤ val.length
  · simp only [hT, if_true, additionalItems_eq]
    by_cases hA : additionalInRange s val = true
    · simp only [hA, if_true, sizeChecks_eq]
      simp [Run.extend, Result.new, Result.AddErrors, elementState, finalResult, add_assoc]
    · simp only [hA]
      simp [Run.extend, Result.new, Result.AddErrors, elementState, add_assoc]
  · simp only [hT, if_false]
    simp [Run.extend, Result.new]

theorem Validate_returned [DecidableEq V] (sub : SchemaValidator S → V → Result)
    (s : schemaSliceValidator S) (val : List V)
    (hT : itemsSize s ≤ val.length) (hA : additionalInRange s val = true) :
    s.Validate sub (some val)
      = .returned ⟨finalResult sub s val, (elementState sub s val).calls⟩ := by
  rw [Validate_eq]
  simp only [hT, hA, if_true]

theorem callsAt_length (site : Site) (mk : Nat → Option (SchemaValidator S)) (val : List V)
    (n : Nat) : ∀ lo : Nat, lo + n ≤ val.length →
      (∀ i, lo ≤ i → i < lo + n → ∃ v, mk i = some v) →
      (callsAt site mk val lo n).length = n := by
  induction n with
  | zero => intro lo _ _; simp [callsAt]
  | succ n ih =>
    intro lo h hmk
    obtain ⟨v, hv⟩ := hmk lo (le_refl _) (by omega)
    have hlo : lo < val.length := by omega
    rw [callsAt_succ, List.length_append, ih (lo + 1) (by omega)
      (fun i h1 h2 => hmk i (by omega) (by omega))]
    simp [callAt, hv, List.getElem?_eq_getElem hlo]
    omega

theorem callsAt_getElem? (site : Site) (mk : Nat → Option (SchemaValidator S)) (val : List V)
    (n : Nat) : ∀ (lo k : Nat) (v : SchemaValidator S) (x : V), k < n →
      (∀ i, lo ≤ i → i < lo + k → ∃ w y, mk i = some w ∧ val[i]? = some y) →
      mk (lo + k) = some v → val[lo + k]? = some x →
      (callsAt site mk val lo n)[k]? = some ⟨site, v, lo + k, x⟩ := by
  induction n with
  | zero => intro lo k v x hk; omega
  | succ n ih =>
    intro lo k v x hk hpre hv hx
    rw [callsAt_succ]
    cases k with
    | zero =>
      simp only [Nat.add_zero] at hv hx
      simp [callAt, hv, hx]
    | succ k =>
      obtain ⟨w, y, hw, hy⟩ := hpre lo (le_refl _) (by omega)
      have e : lo + (k + 1) = lo + 1 + k := by omega
      rw [e] at hv hx
      have := ih (lo + 1) k v x (by omega)
        (fun i h1 h2 => hpre i (by omega) (by omega)) hv hx
      simp only [callAt, hw, hy, List.singleton_append, List.getElem?_cons_succ]
      rw [this, e]

theorem site_of_mem_callsAt (site : Site) (mk : Nat → Option (SchemaValidator S))
    (val : List V) (lo n : Nat) (c : Call S V) (h : c ∈ callsAt site mk val lo n) :
    c.site = site := by
  simp only [callsAt, List.mem_flatMap] at h
  obtain ⟨i, _, hc⟩ := h
  unfold callAt at hc
  split at hc
  · simp at hc; rw [hc]
  · simp at hc

theorem filter_callsAt (site site2 : Site) (mk : Nat → Option (SchemaValidator S))
    (val : List V) (lo n : Nat) :
    (callsAt site mk val lo n).filter (fun c => decide (c.site = site2))
      = if site = site2 then callsAt site mk val lo n else [] := by
  by_cases h : site = site2
  · subst h
    simp only [if_true]
    rw [List.filter_eq_self]
    intro c hc
    simp [site_of_mem_callsAt site mk val lo n c hc]
  · simp only [h, if_false]
    rw [List.filter_eq_nil_iff]
    intro c hc
    simp [site_of_mem_callsAt site mk val lo n c hc, h]

theorem filter_sharedCalls (site : Site) (s : schemaSliceValidator S) (val : List V) :
    (sharedCalls s val).filter (fun c => decide (c.site = site))
      = if site = .shared then sharedCalls s val else [] := by
  unfold sharedCalls
  split
  · rw [filter_callsAt]; by_cases h : site = .shared <;> simp [h, eq_comm]
  · simp

theorem filter_tupleCalls (site : Site) (s : schemaSliceValidator S) (val : List V) :
    (tupleCalls s val).filter (fun c => decide (c.site = site))
      = if site = .tuple then tupleCalls s val else [] := by
  unfold tupleCalls
  split
  · rw [filter_callsAt]; by_cases h : site = .tuple <;> simp [h, eq_comm]
  · simp

theorem filter_additionalCalls (site : Site) (s : schemaSliceValidator S) (val : List V) :
    (additionalCalls s val).filter (fun c => decide (c.site = site))
      = if site = .additional then additionalCalls s val else [] := by
  unfold additionalCalls
  split
  · split
    · rw [filter_callsAt]; by_cases h : site = .additional <;> simp [h, eq_comm]
    · simp
  · simp

/-- The calls of every run on a sequence: all shared-schema calls, all tuple calls, and the
additional-items calls when the tuple loop did not panic. -/
theorem Validate_calls [DecidableEq V] (sub : SchemaValidator S → V → Result)
    (s : schemaSliceValidator S) (val : List V) :
    (s.Validate sub (some val)).calls =
      sharedCalls s val ++ tupleCalls s val ++
        (if itemsSize s ≤ val.length then additionalCalls s val else []) := by
  rw [Validate_eq]
  by_cases hT : itemsSize s ≤ val.length <;> by_cases hA : additionalInRange s val = true <;>
    simp [hT, hA, Outcome.calls, Outcome.state, elementState]

theorem Validate_callsFrom_shared [DecidableEq V] (sub : SchemaValidator S → V → Result)
    (s : schemaSliceValidator S) (val : List V) :
    (s.Validate sub (some val)).callsFrom .shared = sharedCalls s val := by
  by_cases h : itemsSize s ≤ val.length <;>
    simp [Outcome.callsFrom, Validate_calls, List.filter_append, filter_sharedCalls,
      filter_tupleCalls, filter_additionalCalls, h]

theorem Validate_callsFrom_tuple [DecidableEq V] (sub : SchemaValidator S → V → Result)
    (s : schemaSliceValidator S) (val : List V) :
    (s.Validate sub (some val)).callsFrom .tuple = tupleCalls s val := by
  by_cases h : itemsSize s ≤ val.length <;>
    simp [Outcome.callsFrom, Validate_calls, List.filter_append, filter_sharedCalls,
      filter_tupleCalls, filter_additionalCalls, h]

theorem Validate_callsFrom_additional [DecidableEq V] (sub : SchemaValidator S → V → Result)
    (s : schemaSliceValidator S) (val : List V) (h : itemsSize s ≤ val.length) :
    (s.Validate sub (some val)).callsFrom .additional = additionalCalls s val := by
  simp [Outcome.callsFrom, Validate_calls, List.filter_append, filter_sharedCalls,
    filter_tupleCalls, filter_additionalCalls, h]

theorem mem_callsAt (site : Site) (mk : Nat → Option (SchemaValidator S)) (val : List V)
    (lo n : Nat) (c : Call S V) (h : c ∈ callsAt site mk val lo n) :
    ∃ i v x, mk i = some v ∧ val[i]? = some x ∧ c = ⟨site, v, i, x⟩ := by
  simp only [callsAt, List.mem_flatMap] at h
  obtain ⟨i, _, hc⟩ := h
  unfold callAt at hc
  split at hc
  · rename_i v x hv hx
    simp at hc
    exact ⟨i, v, x, hv, hx, hc⟩
  · simp at hc

theorem subErrors_nil (sub : SchemaValidator S → V → Result) :
    subErrors sub ([] : List (Call S V)) = [] := rfl

theorem subCount_nil (sub : SchemaValidator S → V → Result) :
    subCount sub ([] : List (Call S V)) = 0 := rfl

theorem subErrors_eq_nil (sub : SchemaValidator S → V → Result) (cs : List (Call S V))
    (h : ∀ c ∈ cs, (sub c.validator c.value).Errors = []) : subErrors sub cs = [] := by
  simp only [subErrors, List.flatMap_eq_nil_iff]
  exact h

theorem mem_subErrors (sub : SchemaValidator S → V → Result) (cs : List (Call S V))
    (c : Call S V) (e : Error) (hc : c ∈ cs) (he : e ∈ (sub c.validator c.value).Errors) :
    e ∈ subErrors sub cs := by
  simp only [subErrors, List.mem_flatMap]
  exact ⟨c, hc, he⟩

theorem sizeErrors_cases [DecidableEq V] (s : schemaSliceValidator S) (val : List V)
    (e : Error) (h : e ∈ sizeErrors s val) :
    (∃ min, s.MinItems = some min ∧ MinItems s.Path s.In val.length min = some e) ∨
    (∃ max, s.MaxItems = some max ∧ MaxItems s.Path s.In val.length max = some e) ∨
    (s.UniqueItems = true ∧ UniqueItems s.Path s.In val = some e) := by
  revert h
  simp only [sizeErrors, sizeChecks, Result.new]
  cases hmin : s.MinItems <;> cases hmax : s.MaxItems <;> cases hu : s.UniqueItems <;>
    simp [Result.AddErrors, Result.Inc] <;>
    (repeat' split) <;> simp_all <;> aesop

theorem additionalItemsError_not_mem_sizeErrors [DecidableEq V] (s : schemaSliceValidator S)
    (val : List V) : additionalItemsError ∉ sizeErrors s val := by
  intro h
  rcases sizeErrors_cases s val _ h with ⟨m, _, h⟩ | ⟨m, _, h⟩ | ⟨_, h⟩
  · unfold MinItems at h; split at h <;> simp [additionalItemsError] at h
  · unfold MaxItems at h; split at h <;> simp [additionalItemsError] at h
  · unfold UniqueItems at h; split at h <;> simp [additionalItemsError] at h

theorem sizeErrors_unset [DecidableEq V] (s : schemaSliceValidator S) (val : List V)
    (hmin : s.MinItems = none) (hmax : s.MaxItems = none) (hu : s.UniqueItems = false) :
    sizeErrors s val = [] := by
  simp [sizeErrors, sizeChecks, hmin, hmax, hu, Result.Inc, Result.new]

/-- C1. Tuple `Items` of `M ≥ 1` schemas, `AdditionalItems` forbidding extras (`Allows = false`,
no schema), sequence of length `N ≥ M`: `Validate` returns, and the errors of its result are the
errors of the tuple validations, then the "array doesn't allow for additional items" error
exactly once when `M < N` (whatever `N - M` is) and not at all when `M = N`, then the errors of
the size checks, none of which is that error.  When every element passes its tuple schema and
`MinItems`, `MaxItems`, `UniqueItems` are unset, the result holds exactly that one error for
`M < N`, and none for `M = N`. -/
theorem additional_items_error_exactly_once [DecidableEq V]
    (sub : SchemaValidator S → V → Result) (s : schemaSliceValidator S)
    (schemas : List S) (val : List V)
    (hItems : s.Items = some ⟨none, schemas⟩) (hM : 1 ≤ schemas.length)
    (hAdd : s.AdditionalItems = some ⟨false, none⟩)
    (hMN : schemas.length ≤ val.length) :
    ∃ r : Result, (s.Validate sub (some val)).result? = some r ∧
      r.Errors = subErrors sub (s.Validate sub (some val)).calls
          ++ (if schemas.length < val.length then [additionalItemsError] else [])
          ++ sizeErrors s val ∧
      additionalItemsError ∉ sizeErrors s val ∧
      ((∀ i schema x, schemas[i]? = some schema → val[i]? = some x →
            (sub ⟨schema, indexPath s.Path i⟩ x).Errors = []) →
        s.MinItems = none → s.MaxItems = none → s.UniqueItems = false →
        r.Errors = if schemas.length < val.length then [additionalItemsError] else []) := by
  have hsz : itemsSize s = schemas.length := itemsSize_eq s _ hItems
  have hshared : sharedCalls s val = [] := by simp [sharedCalls, hItems]
  have hadd : additionalCalls s val = [] := by simp [additionalCalls, hAdd]
  have hrange : additionalInRange s val = true := by simp [additionalInRange, hAdd]
  have hextra : additionalErrors s val
      = if schemas.length < val.length then [additionalItemsError] else [] := by
    have h0 : 0 < schemas.length := hM
    simp [additionalErrors, hAdd, hsz, h0]
  have hcalls : (s.Validate sub (some val)).calls = tupleCalls s val := by
    simp [Validate_calls, hshared, hadd]
  have hT : itemsSize s ≤ val.length := by omega
  refine ⟨finalResult sub s val, ?_, ?_, additionalItemsError_not_mem_sizeErrors s val, ?_⟩
  · rw [Validate_returned sub s val hT hrange]
    rfl
  · simp [hcalls, finalResult, elementState, hshared, hadd, hextra, subErrors_nil]
  · intro hpass hmin hmax hu
    have htuple : subErrors sub (tupleCalls s val) = [] := by
      apply subErrors_eq_nil
      intro c hc
      simp only [tupleCalls, hItems] at hc
      obtain ⟨i, v, x, hv, hx, rfl⟩ := mem_callsAt _ _ _ _ _ c hc
      simp only [tupleValidator] at hv
      cases hsch : schemas[i]? with
      | none => simp [hsch] at hv
      | some schema =>
        simp only [hsch, Option.some.injEq] at hv
        subst hv
        exact hpass i schema x hsch hx
    simp [finalResult, elementState, hshared, hadd, hextra, htuple,
      sizeErrors_unset s val hmin hmax hu, subErrors_nil]

/-- C3. Tuple `Items` of `M` schemas, sequence of length `N ≥ M`: the calls made by the tuple
loop are exactly `M`, the `i`-th of them validates element `i` against tuple schema `i` under
the path `"<Path>.<i>"` (so each index is validated once, and no element meets the tuple schema
of another index); when `M ≥ 1` the run returns and the errors of each of these validations are
in the result. -/
theorem tuple_schema_i_validates_element_i [DecidableEq V]
    (sub : SchemaValidator S → V → Result) (s : schemaSliceValidator S)
    (shared : Option S) (schemas : List S) (val : List V)
    (hItems : s.Items = some ⟨shared, schemas⟩) (hMN : schemas.length ≤ val.length) :
    ((s.Validate sub (some val)).callsFrom .tuple).length = schemas.length ∧
    (∀ i schema x, schemas[i]? = some schema → val[i]? = some x →
      ((s.Validate sub (some val)).callsFrom .tuple)[i]?
        = some (Call.mk .tuple ⟨schema, indexPath s.Path i⟩ i x)) ∧
    (1 ≤ schemas.length →
      ∃ r, (s.Validate sub (some val)).result? = some r ∧
        ∀ c ∈ (s.Validate sub (some val)).callsFrom .tuple,
          ∀ e ∈ (sub c.validator c.value).Errors, e ∈ r.Errors) := by
  have hsz : itemsSize s = schemas.length := itemsSize_eq s _ hItems
  have hmk : ∀ i, i < schemas.length →
      ∃ w y, tupleValidator s schemas i = some w ∧ val[i]? = some y := by
    intro i hi
    have hi2 : i < val.length := by omega
    exact ⟨⟨schemas[i], indexPath s.Path i⟩, val[i], by
      simp [tupleValidator, List.getElem?_eq_getElem hi],
      List.getElem?_eq_getElem hi2⟩
  rw [Validate_callsFrom_tuple]
  refine ⟨?_, ?_, ?_⟩
  · simp only [tupleCalls, hItems]
    apply callsAt_length
    · omega
    · intro i _ hi
      obtain ⟨w, _, hw, _⟩ := hmk i (by omega)
      exact ⟨w, hw⟩
  · intro i schema x hs hx
    have hi : i < schemas.length := by
      by_contra hc
      simp [List.getElem?_eq_none (Nat.le_of_not_lt hc)] at hs
    simp only [tupleCalls, hItems]
    have := callsAt_getElem? Site.tuple (tupleValidator s schemas) val schemas.length 0 i
      ⟨schema, indexPath s.Path i⟩ x hi
      (fun j _ hj => hmk j (by omega)) (by simp [tupleValidator, hs]) (by simpa using hx)
    simpa using this
  · intro hM
    have hrange : additionalInRange s val = true := by
      unfold additionalInRange
      split
      · simp [hsz]; omega
      · rfl
    have hT : itemsSize s ≤ val.length := by omega
    refine ⟨finalResult sub s val, ?_, ?_⟩
    · rw [Validate_returned sub s val hT hrange]
      rfl
    · intro c hc e he
      have := mem_subErrors sub _ c e hc he
      simp only [finalResult, elementState, List.mem_append]
      tauto

theorem additionalCalls_tuple (s : schemaSliceValidator S) (val : List V)
    (allows : Bool) (schema : S)
    (hAdd : s.AdditionalItems = some ⟨allows, some schema⟩)
    (hM : 1 ≤ itemsSize s) (hMN : itemsSize s < val.length) :
    (additionalCalls s val).length = (val.length - itemsSize s + 1) - itemsSize s ∧
    ∀ k x, k < (val.length - itemsSize s + 1) - itemsSize s →
      val[itemsSize s + k]? = some x →
      (additionalCalls s val)[k]?
        = some (Call.mk .additional ⟨schema, indexPath s.Path (itemsSize s + k)⟩
            (itemsSize s + k) x) := by
  simp only [additionalCalls, hAdd, hMN, if_true]
  refine ⟨?_, ?_⟩
  · apply callsAt_length
    · omega
    · intro i _ _
      exact ⟨_, rfl⟩
  · intro k x hk hx
    apply callsAt_getElem? _ _ _ _ _ _ _ _ hk _ rfl hx
    intro i _ hi
    have hi2 : i < val.length := by omega
    exact ⟨_, val[i], rfl, List.getElem?_eq_getElem hi2⟩

/-- The shared-schema loop validates every element, in every run (also one that panics
later): call `i` validates element `i` against the shared schema under `"<Path>.<i>"`. -/
theorem sharedCalls_all_elements [DecidableEq V] (sub : SchemaValidator S → V → Result)
    (s : schemaSliceValidator S) (schema : S) (schemas : List S) (val : List V)
    (hItems : s.Items = some ⟨some schema, schemas⟩) :
    ((s.Validate sub (some val)).callsFrom .shared).length = val.length ∧
    ∀ i x, val[i]? = some x →
      ((s.Validate sub (some val)).callsFrom .shared)[i]?
        = some (Call.mk .shared ⟨schema, indexPath s.Path i⟩ i x) := by
  rw [Validate_callsFrom_shared]
  simp only [sharedCalls, hItems]
  refine ⟨?_, ?_⟩
  · apply callsAt_length
    · omega
    · intro i _ _
      exact ⟨_, rfl⟩
  · intro i x hx
    have hi : i < val.length := by
      by_contra hc
      simp [List.getElem?_eq_none (Nat.le_of_not_lt hc)] at hx
    have := callsAt_getElem? Site.shared (fun i => some ⟨schema, indexPath s.Path i⟩) val
      val.length 0 i ⟨schema, indexPath s.Path i⟩ x hi
      (fun j _ hj => by
        have hj2 : j < val.length := by omega
        exact ⟨_, val[j], rfl, List.getElem?_eq_getElem hj2⟩)
      (by simp) (by simpa using hx)
    simpa using this

/-- A run that returns hands back `finalResult`: all element-level errors in call order, then
the errors of the size checks. -/
theorem result_of_returned [DecidableEq V] (sub : SchemaValidator S → V → Result)
    (s : schemaSliceValidator S) (val : List V) (r : Result)
    (h : (s.Validate sub (some val)).result? = some r) : r = finalResult sub s val := by
  rw [Validate_eq] at h
  by_cases hT : itemsSize s ≤ val.length <;> by_cases hA : additionalInRange s val = true <;>
    simp [hT, hA, Outcome.result?] at h
  exact h.symm

/-- When the run returns, the size checks were applied to the whole sequence: the min-items
error is in the result if `MinItems` is set and the sequence is shorter, and the max-items
error if `MaxItems` is set and the sequence is longer. -/
theorem size_errors_of_returned [DecidableEq V] (sub : SchemaValidator S → V → Result)
    (s : schemaSliceValidator S) (val : List V) (r : Result)
    (h : (s.Validate sub (some val)).result? = some r) :
    (∀ min, s.MinItems = some min → (val.length : Int) < min →
      Error.TooFewItems s.Path s.In min ∈ r.Errors) ∧
    (∀ max, s.MaxItems = some max → (val.length : Int) > max →
      Error.TooManyItems s.Path s.In max ∈ r.Errors) := by
  rw [result_of_returned sub s val r h]
  refine ⟨?_, ?_⟩
  · intro min hmin hlt
    have : Error.TooFewItems s.Path s.In min ∈ sizeErrors s val := by
      simp only [sizeErrors, sizeChecks, hmin, MinItems, hlt, if_true, Result.new,
        Result.AddErrors, Result.Inc]
      cases s.MaxItems <;> cases s.UniqueItems <;> simp <;> (repeat' split) <;> simp
    simp [finalResult, this]
  · intro max hmax hgt
    have : Error.TooManyItems s.Path s.In max ∈ sizeErrors s val := by
      simp only [sizeErrors, sizeChecks, hmax, MaxItems, hgt, if_true, Result.new,
        Result.AddErrors, Result.Inc]
      cases s.MinItems <;> cases s.UniqueItems <;> simp <;> (repeat' split) <;> simp
    simp [finalResult, this]

/-- The run returns exactly when the tuple is not longer than the sequence and the
additional-items loop stays in range. -/
theorem returned_iff [DecidableEq V] (sub : SchemaValidator S → V → Result)
    (s : schemaSliceValidator S) (val : List V) :
    (s.Validate sub (some val)).result?.isSome = true ↔
      itemsSize s ≤ val.length ∧ additionalInRange s val = true := by
  rw [Validate_eq]
  by_cases hT : itemsSize s ≤ val.length <;> by_cases hA : additionalInRange s val = true <;>
    simp [hT, hA, Outcome.result?]

/-- Outside tuple mode an `AdditionalItems` that carries no schema changes nothing: the run
is the one made without `AdditionalItems`. -/
theorem additional_without_schema_ignored [DecidableEq V]
    (sub : SchemaValidator S → V → Result) (s : schemaSliceValidator S) (val : List V)
    (allows : Bool) (hTuple : itemsSize s = 0)
    (hAdd : s.AdditionalItems = some ⟨allows, none⟩) :
    s.Validate sub (some val)
      = ({ s with AdditionalItems := none } : schemaSliceValidator S).Validate sub
          (some val) := by
  have hsz : itemsSize ({ s with AdditionalItems := none } : schemaSliceValidator S) = 0 := by
    simpa [itemsSize] using hTuple
  have htv : ∀ schemas : List S,
      tupleValidator ({ s with AdditionalItems := none } : schemaSliceValidator S) schemas
        = tupleValidator s schemas := by
    intro schemas
    funext i
    simp [tupleValidator]
  rw [Validate_eq, Validate_eq]
  simp [hTuple, hsz, additionalInRange, hAdd, finalResult, elementState, sharedCalls, tupleCalls,
    additionalCalls, additionalErrors, sizeErrors, sizeChecks, htv]

end

/-- C1, at a concrete input: a one-schema tuple, extras forbidden, three elements that all
pass: the result holds the one "additional items" error. -/
theorem additional_items_error_exactly_once_witness :
    ∃ r : Result,
      ((sliceOf (some ⟨none, ["a"]⟩) (some ⟨false, none⟩) none).Validate acceptAll
          (some [10, 20, 30])).result? = some r ∧
      r.Errors = [additionalItemsError] := by
  obtain ⟨r, h1, _, _, h4⟩ :=
    additional_items_error_exactly_once acceptAll
      (sliceOf (some ⟨none, ["a"]⟩) (some ⟨false, none⟩) none) ["a"] [10, 20, 30]
      rfl (by decide) rfl (by decide)
  exact ⟨r, h1, by simpa using h4 (fun _ _ _ _ _ => rfl) rfl rfl rfl⟩

/-- C2 (defect in the code).  Tuple of `M = 2` schemas, `AdditionalItems` carrying the schema
`"x"`, sequence `[10, 20, 30]` (`N = 3`): the loop of line 66 runs from `i = 2` while
`i < (3 - 2) + 1 = 2`, that is zero times instead of `N - M = 1` time.  The run returns with
the two tuple calls only: element `2` is never validated against the `AdditionalItems` schema,
although the sub-validator used here rejects every element it is given. -/
theorem additional_loop_skips_extra_elements :
    (sliceOf (some ⟨none, ["a", "b"]⟩) (some ⟨true, some "x"⟩) none).Validate rejectAll
        (some [10, 20, 30])
      = .returned
          ⟨⟨[Error.New 422 "p.0: a", Error.New 422 "p.1: b"], 3⟩,
            [⟨.tuple, ⟨"a", "p.0"⟩, 0, 10⟩, ⟨.tuple, ⟨"b", "p.1"⟩, 1, 20⟩]⟩ ∧
    ((sliceOf (some ⟨none, ["a", "b"]⟩) (some ⟨true, some "x"⟩) none).Validate rejectAll
        (some [10, 20, 30])).callsFrom .additional = [] := by
  decide

/-- C3, at a concrete input: a two-schema tuple on three elements: two tuple calls, the
second one validating element `1` against schema `"b"` under `"p.1"`. -/
theorem tuple_schema_i_validates_element_i_witness :
    (((sliceOf (some ⟨none, ["a", "b"]⟩) none none).Validate acceptAll
        (some [10, 20, 30])).callsFrom .tuple).length = 2 ∧
    (((sliceOf (some ⟨none, ["a", "b"]⟩) none none).Validate acceptAll
        (some [10, 20, 30])).callsFrom .tuple)[1]?
      = some (Call.mk .tuple ⟨"b", "p.1"⟩ 1 20) := by
  have h := tuple_schema_i_validates_element_i acceptAll
    (sliceOf (some ⟨none, ["a", "b"]⟩) none none) none ["a", "b"] [10, 20, 30]
    rfl (by decide)
  exact ⟨h.1, h.2.1 1 "b" 20 rfl rfl⟩

/-- C4 (defect in the code).  `Items` holds the single shared schema `"item"` and
`AdditionalItems` carries the schema `"extra"`; the sequence is `[10]` and every validation
fails.  The shared loop validates element `0`; then, `itemsSize` being `0`, the loop of line 66
runs for `i = 0` and `i = 1` (`i < (1 - 0) + 1`), and `val.Index(1)` is out of range: the run
panics and returns no result, so the error of the failing element does not reach the caller. -/
theorem shared_schema_errors_lost_in_panic :
    (sliceOf (some ⟨some "item", []⟩) (some ⟨true, some "extra"⟩) none).Validate rejectAll
        (some [10])
      = .panicked
          ⟨⟨[Error.New 422 "p.0: item", Error.New 422 "p.0: extra"], 2⟩,
            [⟨.shared, ⟨"item", "p.0"⟩, 0, 10⟩, ⟨.additional, ⟨"extra", "p.0"⟩, 0, 10⟩]⟩ ∧
    ((sliceOf (some ⟨some "item", []⟩) (some ⟨true, some "extra"⟩) none).Validate rejectAll
        (some [10])).result? = none := by
  decide

/-- C5 (defect in the code).  Tuple of two schemas, `MinItems = 2`, sequence `[10]`: `N = 1`
is below `MinItems`, and `validate.MinItems` does give the min-items error for these
arguments, but the tuple loop of line 55 runs up to `itemsSize = 2` and `val.Index(1)` is out of
range: the run panics before line 73, so no result, and no min-items error, is returned. -/
theorem min_items_error_lost_in_panic :
    ((sliceOf (some ⟨none, ["a", "b"]⟩) none (some 2)).Validate acceptAll
        (some [10])).result? = none ∧
    MinItems "p" "body" 1 2 = some (Error.TooFewItems "p" "body" 2) := by
  decide

/-- C6 (defect in the code).  `Items` absent, sequence `[10]`: without `AdditionalItems` the
run returns the empty result with count `1`; with an `AdditionalItems` that carries a schema
the loop of line 66 validates element `0` against that schema and then reads index `1`: the
run panics and returns nothing.  The outcome depends on `AdditionalItems` outside tuple
mode. -/
theorem additional_items_matter_without_tuple :
    ((sliceOf none none none).Validate acceptAll (some [10])).result? = some ⟨[], 1⟩ ∧
    (sliceOf none (some ⟨true, some "x"⟩) none).Validate acceptAll (some [10])
      = .panicked ⟨⟨[], 1⟩, [⟨.additional, ⟨"x", "p.0"⟩, 0, 10⟩]⟩ ∧
    ((sliceOf none (some ⟨true, some "x"⟩) none).Validate acceptAll (some [10])).result?
      = none := by
  decide

/-- C7 (defect in the code).  Tuple of `M = 2` schemas, `AdditionalItems` carrying a schema,
sequence of `N = 3` elements, every element validation counting one: the returned count is
`3` (two tuple validations and the rule's own increment), not `M + (N - M) + 1 = 4`, because
the loop of line 66 never validates element `2`. -/
theorem count_misses_additional_validations :
    ((sliceOf (some ⟨none, ["a", "b"]⟩) (some ⟨true, some "x"⟩) none).Validate acceptAll
        (some [10, 20, 30])).result? = some ⟨[], 3⟩ ∧
    (3 : Int) ≠ 2 + (3 - 2) + 1 := by
  decide

end Validate

end GoSwagger

/-! # Further properties of the array rule -/

namespace GoSwagger

namespace Validate

section
variable {S V : Type}

theorem sizeErrors_parts [DecidableEq V] (s : schemaSliceValidator S) (val : List V) :
    sizeErrors s val = minItemsErrors s val ++ maxItemsErrors s val ++ uniqueItemsErrors s val := by
  simp only [sizeErrors, sizeChecks, minItemsErrors, maxItemsErrors, uniqueItemsErrors,
    Result.new]
  cases s.MinItems <;> cases s.MaxItems <;> cases s.UniqueItems <;>
    simp [Result.AddErrors, Result.Inc] <;>
    (repeat' split) <;> simp_all

theorem callsAt_index_sublist (site : Site) (mk : Nat → Option (SchemaValidator S))
    (val : List V) (n : Nat) :
    ∀ lo : Nat, ((callsAt site mk val lo n).map Call.index).Sublist (List.range' lo n) := by
  induction n with
  | zero => intro lo; simp [callsAt]
  | succ n ih =>
    intro lo
    rw [callsAt_succ, List.map_append, List.range'_succ]
    have hhead : ((callAt site mk val lo).map Call.index).Sublist [lo] := by
      unfold callAt
      split <;> simp
    exact hhead.append (ih (lo + 1))

theorem callsAt_index_increasing (site : Site) (mk : Nat → Option (SchemaValidator S))
    (val : List V) (lo n : Nat) :
    ((callsAt site mk val lo n).map Call.index).Pairwise (· < ·) :=
  (List.pairwise_lt_range' lo n).sublist (callsAt_index_sublist site mk val n lo)

theorem callsFrom_index_increasing [DecidableEq V] (sub : SchemaValidator S → V → Result)
    (s : schemaSliceValidator S) (val : List V) (site : Site) :
    (((s.Validate sub (some val)).callsFrom site).map Call.index).Pairwise (· < ·) := by
  cases site with
  | shared =>
    rw [Validate_callsFrom_shared]
    unfold sharedCalls
    split
    · exact callsAt_index_increasing _ _ _ _ _
    · simp
  | tuple =>
    rw [Validate_callsFrom_tuple]
    unfold tupleCalls
    split
    · exact callsAt_index_increasing _ _ _ _ _
    · simp
  | additional =>
    by_cases h : itemsSize s ≤ val.length
    · rw [Validate_callsFrom_additional sub s val h]
      unfold additionalCalls
      split
      · split
        · exact callsAt_index_increasing _ _ _ _ _
        · simp
      · simp
    · simp [Outcome.callsFrom, Validate_calls, List.filter_append, filter_sharedCalls,
        filter_tupleCalls, h]

theorem subCount_nonneg (sub : SchemaValidator S → V → Result)
    (hsub : ∀ v x, 0 ≤ (sub v x).MatchCount) (cs : List (Call S V)) : 0 ≤ subCount sub cs := by
  unfold subCount
  apply List.sum_nonneg
  intro n hn
  simp only [List.mem_map] at hn
  obtain ⟨c, _, rfl⟩ := hn
  exact hsub _ _

/-- C15. For every sequence on which `Validate` returns, the returned error list is, in this
order: the errors of the shared-schema validations, the errors of the tuple validations, the
"additional items" error, the errors of the additional-element validations, the min-items
error, the max-items error, the unique-items error; within each loop the validations are by
increasing index; the additional-items part is that one error or nothing.  The run does return
whenever the tuple is not longer than the sequence and the additional-items loop stays in
range. -/
theorem errors_in_discovery_order [DecidableEq V] (sub : SchemaValidator S → V → Result)
    (s : schemaSliceValidator S) (val : List V) :
    (∀ r, (s.Validate sub (some val)).result? = some r →
      r.Errors =
        subErrors sub ((s.Validate sub (some val)).callsFrom .shared)
          ++ subErrors sub ((s.Validate sub (some val)).callsFrom .tuple)
          ++ additionalErrors s val
          ++ subErrors sub ((s.Validate sub (some val)).callsFrom .additional)
          ++ minItemsErrors s val ++ maxItemsErrors s val ++ uniqueItemsErrors s val) ∧
    (∀ site,
      (((s.Validate sub (some val)).callsFrom site).map Call.index).Pairwise (· < ·)) ∧
    (additionalErrors s val = [] ∨ additionalErrors s val = [additionalItemsError]) ∧
    (itemsSize s ≤ val.length → additionalInRange s val = true →
      (s.Validate sub (some val)).result? = some (finalResult sub s val)) := by
  refine ⟨?_, callsFrom_index_increasing sub s val, ?_, ?_⟩
  · intro r hr
    have hret := (returned_iff sub s val).1 (by rw [hr]; rfl)
    rw [result_of_returned sub s val r hr, Validate_callsFrom_shared, Validate_callsFrom_tuple,
      Validate_callsFrom_additional sub s val hret.1]
    simp [finalResult, elementState, sizeErrors_parts]
  · unfold additionalErrors
    split
    · split
      · exact Or.inr rfl
      · exact Or.inl rfl
    · exact Or.inl rfl
  · intro hT hA
    rw [Validate_returned sub s val hT hA]
    rfl

/-- C16. `Applies(source, kind)` is true exactly when `source` is a `*spec.Schema` and `kind`
is `reflect.Slice`; it is the same for every validator, and for every schema the pointer
points to (so it does not read the declared `Type` of the schema). -/
theorem applies_iff_schema_and_slice (s : schemaSliceValidator S) (source : Source S)
    (kind : Kind) :
    (s.Applies source kind = true ↔ (∃ p, source = Source.schema p) ∧ kind = Kind.Slice) ∧
    (∀ s2 : schemaSliceValidator S, s2.Applies source kind = s.Applies source kind) ∧
    (∀ p q : Option S, s.Applies (Source.schema p) kind = s.Applies (Source.schema q) kind) := by
  refine ⟨?_, fun _ => rfl, fun _ _ => rfl⟩
  cases source with
  | schema p => simp [schemaSliceValidator.Applies]
  | other => simp [schemaSliceValidator.Applies]

/-- C19. For every validator, `Validate(nil)` returns the empty result: no errors, count `0`,
and no sub-validator is called.  For every sequence on which `Validate` returns, the count of
the result is at least `1`, the sub-validators returning counts that are not negative. -/
theorem nil_gives_empty_result_and_count_positive [DecidableEq V]
    (sub : SchemaValidator S → V → Result) (s : schemaSliceValidator S)
    (hsub : ∀ v x, 0 ≤ (sub v x).MatchCount) :
    s.Validate sub none = .returned ⟨⟨[], 0⟩, []⟩ ∧
    ∀ (val : List V) (r : Result),
      (s.Validate sub (some val)).result? = some r → 1 ≤ r.MatchCount := by
  refine ⟨rfl, ?_⟩
  intro val r hr
  rw [result_of_returned sub s val r hr]
  have h1 := subCount_nonneg sub hsub (sharedCalls s val)
  have h2 := subCount_nonneg sub hsub (tupleCalls s val)
  have h3 := subCount_nonneg sub hsub (additionalCalls s val)
  simp only [finalResult, elementState]
  omega

end

/-- C15, at a concrete input: shared schema, one-schema tuple, an `AdditionalItems` that
forbids extras and carries a schema, `MinItems = 5`, two elements, every validation failing:
the six errors come in discovery order. -/
theorem errors_in_discovery_order_witness :
    ((sliceOf (some ⟨some "item", ["a"]⟩) (some ⟨false, some "x"⟩) (some 5)).Validate rejectAll
        (some [10, 20])).result?
      = some (finalResult rejectAll
          (sliceOf (some ⟨some "item", ["a"]⟩) (some ⟨false, some "x"⟩) (some 5)) [10, 20]) ∧
    (finalResult rejectAll
        (sliceOf (some ⟨some "item", ["a"]⟩) (some ⟨false, some "x"⟩) (some 5)) [10, 20]).Errors
      = [Error.New 422 "p.0: item", Error.New 422 "p.1: item", Error.New 422 "p.0: a",
          additionalItemsError, Error.New 422 "p.1: x", Error.TooFewItems "p" "body" 5] :=
  ⟨(errors_in_discovery_order rejectAll
      (sliceOf (some ⟨some "item", ["a"]⟩) (some ⟨false, some "x"⟩) (some 5)) [10, 20]).2.2.2
      (by decide) (by decide),
    by decide⟩

/-- C18 (defect in the code).  Two runs on a non-nil sequence that read past its end.  A tuple
of two schemas on the one-element sequence `[10]`: the loop of line 55 runs up to
`itemsSize = 2` and `val.Index(1)` panics.  No tuple, an `AdditionalItems` schema, the sequence
`[10, 20]`: the loop of line 66 runs for `i = 0, 1, 2` (`i < (2 - 0) + 1`) and `val.Index(2)`
panics. -/
theorem validate_reads_past_the_end :
    (sliceOf (some ⟨none, ["a", "b"]⟩) none none).Validate acceptAll (some [10])
      = .panicked ⟨⟨[], 1⟩, [⟨.tuple, ⟨"a", "p.0"⟩, 0, 10⟩]⟩ ∧
    (sliceOf none (some ⟨false, some "x"⟩) none).Validate acceptAll (some [10, 20])
      = .panicked
          ⟨⟨[], 2⟩, [⟨.additional, ⟨"x", "p.0"⟩, 0, 10⟩, ⟨.additional, ⟨"x", "p.1"⟩, 1, 20⟩]⟩ := by
  decide

/-- C19, at a concrete input: the nil interface gives the empty result even with a tuple and
`MinItems = 2`; a sequence of two accepted elements gives count `3`. -/
theorem nil_gives_empty_result_and_count_positive_witness :
    (sliceOf (some ⟨none, ["a", "b"]⟩) none (some 2)).Validate acceptAll none
      = .returned ⟨⟨[], 0⟩, []⟩ ∧
    ((sliceOf (some ⟨none, ["a", "b"]⟩) none (some 2)).Validate acceptAll
        (some [10, 20])).result? = some ⟨[], 3⟩ ∧
    (1 : Int) ≤ 3 := by
  have h := nil_gives_empty_result_and_count_positive acceptAll
    (sliceOf (some ⟨none, ["a", "b"]⟩) none (some 2))
    (fun _ _ => show (0 : Int) ≤ 1 by decide)
  exact ⟨h.1, by decide, h.2 [10, 20] ⟨[], 3⟩ (by decide)⟩

end Validate

end GoSwagger
/-! # Properties of the `Responses` wire form -/

namespace GoSwagger

namespace Spec

section
variable {K V : Type} [DecidableEq K]

theorem mapLookup_mapInsert (m : List (K × V)) (k k2 : K) (v : V) :
    mapLookup (mapInsert m k v) k2 = if k = k2 then some v else mapLookup m k2 := by
  induction m with
  | nil => simp [mapInsert, mapLookup]
  | cons e rest ih =>
    obtain ⟨a, b⟩ := e
    by_cases h : a = k
    · subst h
      by_cases h2 : a = k2 <;> simp [mapInsert, mapLookup, h2]
    · by_cases h2 : a = k2
      · subst h2
        simp [mapInsert, mapLookup, h, Ne.symm h]
      · simp [mapInsert, mapLookup, h, h2, ih]

theorem mem_of_mem_mapInsert (m : List (K × V)) (k : K) (v : V) (e : K × V)
    (h : e ∈ mapInsert m k v) : e = (k, v) ∨ e ∈ m := by
  induction m with
  | nil => simp [mapInsert] at h; exact Or.inl h
  | cons e2 rest ih =>
    obtain ⟨a, b⟩ := e2
    by_cases hk : a = k
    · simp only [mapInsert, hk, if_true, List.mem_cons] at h
      rcases h with h | h
      · exact Or.inl h
      · exact Or.inr (List.mem_cons_of_mem _ h)
    · simp only [mapInsert, hk, if_false, List.mem_cons] at h
      rcases h with h | h
      · exact Or.inr (by simp [h])
      · rcases ih h with h2 | h2
        · exact Or.inl h2
        · exact Or.inr (List.mem_cons_of_mem _ h2)

theorem key_mem_mapInsert (m : List (K × V)) (k : K) (v : V) :
    ∃ w, (k, w) ∈ mapInsert m k v := by
  induction m with
  | nil => exact ⟨v, by simp [mapInsert]⟩
  | cons e2 rest ih =>
    obtain ⟨a, b⟩ := e2
    by_cases hk : a = k
    · exact ⟨v, by simp [mapInsert, hk]⟩
    · obtain ⟨w, hw⟩ := ih
      exact ⟨w, by simp [mapInsert, hk, hw]⟩

theorem key_mem_mapInsert_of_mem (m : List (K × V)) (k k2 : K) (v w : V)
    (h : (k2, w) ∈ m) : ∃ w2, (k2, w2) ∈ mapInsert m k v := by
  by_cases hk : k2 = k
  · subst hk
    exact key_mem_mapInsert m k2 v
  · refine ⟨w, ?_⟩
    induction m with
    | nil => simp at h
    | cons e2 rest ih =>
      obtain ⟨a, b⟩ := e2
      by_cases ha : a = k
      · simp only [List.mem_cons] at h
        rcases h with h | h
        · simp only [Prod.mk.injEq] at h
          exact absurd (h.1.trans ha) hk
        · simp [mapInsert, ha, h]
      · simp only [List.mem_cons] at h
        rcases h with h | h
        · simp [mapInsert, ha, h]
        · simp [mapInsert, ha, ih h]

theorem mapLookup_isSome_of_mem (m : List (K × V)) (k : K) (w : V) (h : (k, w) ∈ m) :
    (mapLookup m k).isSome = true := by
  induction m with
  | nil => simp at h
  | cons e2 rest ih =>
    obtain ⟨a, b⟩ := e2
    by_cases ha : a = k
    · simp [mapLookup, ha]
    · simp only [List.mem_cons, Prod.mk.injEq] at h
      rcases h with h | h
      · exact absurd h.1.symm ha
      · simp [mapLookup, ha, ih h]

theorem mem_of_mapLookup (m : List (K × V)) (k : K) (w : V) (h : mapLookup m k = some w) :
    (k, w) ∈ m := by
  induction m with
  | nil => simp [mapLookup] at h
  | cons e2 rest ih =>
    obtain ⟨a, b⟩ := e2
    by_cases ha : a = k
    · simp [mapLookup, ha] at h
      simp [ha, h]
    · simp [mapLookup, ha] at h
      simp [ih h]

theorem mem_mapDelete (m : List (K × V)) (k : K) (e : K × V) :
    e ∈ mapDelete m k ↔ e ∈ m ∧ e.1 ≠ k := by
  simp [mapDelete]

end

section
variable {R : Type}

theorem lastMember_append_singleton (ms : List (String × Json)) (e : String × Json)
    (name : String) :
    Json.lastMember (ms ++ [e]) name
      = if e.1 = name then some e.2 else Json.lastMember ms name := by
  by_cases h : e.1 = name <;> simp [Json.lastMember, List.find?, h]

theorem lastMember_isSome_iff (ms : List (String × Json)) (name : String) :
    (Json.lastMember ms name).isSome = true ↔ ∃ j, (name, j) ∈ ms := by
  simp only [Json.lastMember, Option.isSome_map', List.find?_isSome, List.mem_reverse,
    decide_eq_true_eq]
  constructor
  · rintro ⟨⟨a, b⟩, h1, h2⟩
    simp only at h2
    subst h2
    exact ⟨b, h1⟩
  · rintro ⟨j, h⟩
    exact ⟨(name, j), h, rfl⟩

theorem unmarshalResponseMap_spec (codec : ResponseCodec R) (ms : List (String × Json))
    (hdec : ∀ e ∈ ms, ∃ v, codec.UnmarshalJSON e.2 = some v) :
    ∃ res, unmarshalResponseMap codec (.object ms) = some res ∧
      (∀ name, mapLookup res name = (Json.lastMember ms name).bind codec.UnmarshalJSON) ∧
      (∀ name v, (name, v) ∈ res → ∃ j, (name, j) ∈ ms ∧ codec.UnmarshalJSON j = some v) ∧
      (∀ name j, (name, j) ∈ ms → ∃ v, (name, v) ∈ res) := by
  simp only [unmarshalResponseMap]
  induction ms using List.reverseRecOn with
  | nil =>
    refine ⟨[], rfl, ?_, ?_, ?_⟩
    · intro name; simp [mapLookup, Json.lastMember]
    · intro name v h; simp at h
    · intro name j h; simp at h
  | append_singleton ms e ih =>
    obtain ⟨res, hres, h1, h2, h3⟩ := ih (fun e2 he2 => hdec e2 (by simp [he2]))
    obtain ⟨v, hv⟩ := hdec e (by simp)
    refine ⟨mapInsert res e.1 v, ?_, ?_, ?_, ?_⟩
    · simp [List.foldl_append, hres, hv]
    · intro name
      rw [mapLookup_mapInsert, lastMember_append_singleton, h1]
      by_cases h : e.1 = name <;> simp [h, hv]
    · intro name w hw
      rcases mem_of_mem_mapInsert _ _ _ _ hw with h | h
      · simp only [Prod.mk.injEq] at h
        exact ⟨e.2, by simp [h.1], by rw [hv, h.2]⟩
      · obtain ⟨j, hj, hd⟩ := h2 name w h
        exact ⟨j, by simp [hj], hd⟩
    · intro name j hj
      simp only [List.mem_append, List.mem_singleton] at hj
      rcases hj with hj | hj
      · obtain ⟨w, hw⟩ := h3 name j hj
        exact key_mem_mapInsert_of_mem res e.1 name v w hw
      · have : e.1 = name := by rw [← hj]
        rw [← this]
        exact key_mem_mapInsert res e.1 v

theorem foldl_storeStatusCode_Default (l : List (String × R)) (r : responsesProps R) :
    (l.foldl storeStatusCode r).Default = r.Default := by
  induction l generalizing r with
  | nil => rfl
  | cons e rest ih =>
    rw [List.foldl_cons, ih]
    unfold storeStatusCode
    split <;> rfl

theorem foldl_storeStatusCode_lookup (l : List (String × R)) (r : responsesProps R)
    (k : Int) (w : R)
    (h : mapLookup (l.foldl storeStatusCode r).StatusCodeResponses k = some w) :
    mapLookup r.StatusCodeResponses k = some w ∨ ∃ name, (name, w) ∈ l ∧ Atoi name = some k := by
  induction l generalizing r with
  | nil => exact Or.inl h
  | cons e rest ih =>
    rw [List.foldl_cons] at h
    rcases ih _ h with h1 | ⟨name, hmem, hat⟩
    · unfold storeStatusCode at h1
      split at h1
      · rename_i nk hnk
        simp only [mapLookup_mapInsert] at h1
        by_cases hk : nk = k
        · simp only [hk, if_true, Option.some.injEq] at h1
          refine Or.inr ⟨e.1, ?_, by rw [hnk, hk]⟩
          rw [← h1]
          simp
        · simp only [hk, if_false] at h1
          exact Or.inl h1
      · exact Or.inl h1
    · exact Or.inr ⟨name, List.mem_cons_of_mem _ hmem, hat⟩

theorem foldl_storeStatusCode_keeps (l : List (String × R)) (r : responsesProps R) (k : Int)
    (h : (mapLookup r.StatusCodeResponses k).isSome = true) :
    (mapLookup (l.foldl storeStatusCode r).StatusCodeResponses k).isSome = true := by
  induction l generalizing r with
  | nil => exact h
  | cons e rest ih =>
    rw [List.foldl_cons]
    apply ih
    unfold storeStatusCode
    split
    · rename_i nk hnk
      simp only [mapLookup_mapInsert]
      by_cases hk : nk = k <;> simp [hk, h]
    · exact h

theorem foldl_storeStatusCode_present (l : List (String × R)) (r : responsesProps R)
    (name : String) (v : R) (k : Int) (hmem : (name, v) ∈ l) (hat : Atoi name = some k) :
    (mapLookup (l.foldl storeStatusCode r).StatusCodeResponses k).isSome = true := by
  induction l generalizing r with
  | nil => simp at hmem
  | cons e rest ih =>
    rw [List.foldl_cons]
    simp only [List.mem_cons] at hmem
    rcases hmem with hmem | hmem
    · apply foldl_storeStatusCode_keeps
      subst hmem
      simp [storeStatusCode, hat, mapLookup_mapInsert]
    · exact ih _ hmem

theorem mem_of_lastMember (ms : List (String × Json)) (name : String) (j : Json)
    (h : Json.lastMember ms name = some j) : (name, j) ∈ ms := by
  simp only [Json.lastMember, Option.map_eq_some'] at h
  obtain ⟨⟨a, b⟩, hfind, hb⟩ := h
  have hmem := List.mem_of_find?_eq_some hfind
  have hp := List.find?_some hfind
  simp only [decide_eq_true_eq] at hp
  simp only at hb
  subst hb
  subst hp
  simpa using hmem

/-- The case in which the decoding of line 92 succeeds: the payload is an object of responses
(every member value decodes as a `Response`).  On a fresh value `responsesProps.UnmarshalJSON` returns no error; `Default` is
the decoded member named `"default"`, and is set if and only if such a member exists; every
member whose name parses as the decimal integer `k` gives `StatusCodeResponses` an entry for
`k`; and every entry of `StatusCodeResponses` comes from a member, other than `"default"`,
whose name parses as its status code: a member whose name is neither is ignored, without
error and without entry.  This holds for every order in which the map is visited. -/
theorem responsesProps_decode_splits_members (codec : ResponseCodec R)
    (order : List (String × R) → List (String × R)) (horder : ∀ l, (order l).Perm l)
    (ms : List (String × Json))
    (hdec : ∀ e ∈ ms, ∃ v, codec.UnmarshalJSON e.2 = some v) :
    (responsesProps.UnmarshalJSON codec order ⟨none, []⟩ (.object ms)).2 = none ∧
    (responsesProps.UnmarshalJSON codec order ⟨none, []⟩ (.object ms)).1.Default
      = (Json.lastMember ms "default").bind codec.UnmarshalJSON ∧
    ((responsesProps.UnmarshalJSON codec order ⟨none, []⟩ (.object ms)).1.Default.isSome = true
      ↔ ∃ j, ("default", j) ∈ ms) ∧
    (∀ name j k, (name, j) ∈ ms → Atoi name = some k →
      (mapLookup (responsesProps.UnmarshalJSON codec order ⟨none, []⟩
        (.object ms)).1.StatusCodeResponses k).isSome = true) ∧
    (∀ k w,
      mapLookup (responsesProps.UnmarshalJSON codec order ⟨none, []⟩
        (.object ms)).1.StatusCodeResponses k = some w →
      ∃ name j, (name, j) ∈ ms ∧ name ≠ "default" ∧ Atoi name = some k ∧
        codec.UnmarshalJSON j = some w) := by
  obtain ⟨res, hres, h1, h2, h3⟩ := unmarshalResponseMap_spec codec ms hdec
  have hno : Atoi "default" = none := by decide
  have hne : ∀ name k, Atoi name = some k → name ≠ "default" := by
    intro name k hk hn
    rw [hn, hno] at hk
    exact Option.noConfusion hk
  have hdefault : (responsesProps.UnmarshalJSON codec order ⟨none, []⟩ (.object ms)).1.Default
      = (Json.lastMember ms "default").bind codec.UnmarshalJSON := by
    rw [← h1]
    simp only [responsesProps.UnmarshalJSON, hres]
    cases hd : mapLookup res "default" with
    | none => simp [foldl_storeStatusCode_Default]
    | some v => simp [foldl_storeStatusCode_Default]
  refine ⟨?_, hdefault, ?_, ?_, ?_⟩
  · simp only [responsesProps.UnmarshalJSON, hres]
    cases mapLookup res "default" <;> rfl
  · rw [hdefault]
    constructor
    · intro h
      cases hl : Json.lastMember ms "default" with
      | none => simp [hl] at h
      | some j => exact ⟨j, mem_of_lastMember ms _ j hl⟩
    · rintro ⟨j, hj⟩
      have hsome := (lastMember_isSome_iff ms "default").2 ⟨j, hj⟩
      cases hl : Json.lastMember ms "default" with
      | none => simp [hl] at hsome
      | some j2 =>
        obtain ⟨v, hv⟩ := hdec _ (mem_of_lastMember ms _ j2 hl)
        simp [hv]
  · intro name j k hmem hat
    obtain ⟨v, hv⟩ := h3 name j hmem
    simp only [responsesProps.UnmarshalJSON, hres]
    cases hd : mapLookup res "default" with
    | none =>
      exact foldl_storeStatusCode_present _ _ name v k ((horder res).mem_iff.2 hv) hat
    | some d =>
      exact foldl_storeStatusCode_present _ _ name v k
        ((horder _).mem_iff.2 ((mem_mapDelete res "default" (name, v)).2
          ⟨hv, hne name k hat⟩)) hat
  · intro k w hk
    simp only [responsesProps.UnmarshalJSON, hres] at hk
    have key : ∃ name, (name, w) ∈ res ∧ Atoi name = some k := by
      cases hd : mapLookup res "default" with
      | none =>
        rw [hd] at hk
        rcases foldl_storeStatusCode_lookup _ _ k w hk with h | ⟨name, hmem, hat⟩
        · simp [mapLookup] at h
        · exact ⟨name, (horder res).mem_iff.1 hmem, hat⟩
      | some d =>
        rw [hd] at hk
        rcases foldl_storeStatusCode_lookup _ _ k w hk with h | ⟨name, hmem, hat⟩
        · simp [mapLookup] at h
        · exact ⟨name, ((mem_mapDelete res "default" (name, w)).1
            ((horder _).mem_iff.1 hmem)).1, hat⟩
    obtain ⟨name, hmem, hat⟩ := key
    obtain ⟨j, hj, hjd⟩ := h2 name w hmem
    exact ⟨name, j, hj, hne name k hat, hat, hjd⟩

/-- A member whose value is not a `Response` makes the whole decode fail, silently: the
receiver is returned unchanged, with no error. -/
theorem unmarshalResponseMap_bad_member (codec : ResponseCodec R)
    (ms : List (String × Json)) (e : String × Json) (he : e ∈ ms)
    (hbad : codec.UnmarshalJSON e.2 = none) :
    unmarshalResponseMap codec (.object ms) = none := by
  have hfold : ∀ (l : List (String × Json)),
      l.foldl
        (fun acc e =>
          match acc with
          | none => none
          | some res =>
            match codec.UnmarshalJSON e.2 with
            | some v => some (mapInsert res e.1 v)
            | none => none) (none : Option (List (String × R))) = none := by
    intro l
    induction l with
    | nil => rfl
    | cons a rest ih => simpa using ih
  have hnone : unmarshalResponseMap codec (.object ms) = none := by
    simp only [unmarshalResponseMap]
    obtain ⟨l1, l2, rfl⟩ := List.append_of_mem he
    rw [List.foldl_append, List.foldl_cons]
    cases hacc : List.foldl
        (fun acc e =>
          match acc with
          | none => none
          | some res =>
            match codec.UnmarshalJSON e.2 with
            | some v => some (mapInsert res e.1 v)
            | none => none) (some []) l1 with
    | none => simpa using hfold l2
    | some res => simpa [hbad] using hfold l2
  exact hnone

theorem responsesProps_unchanged_of_bad_member (codec : ResponseCodec R)
    (order : List (String × R) → List (String × R)) (r : responsesProps R)
    (ms : List (String × Json)) (e : String × Json) (he : e ∈ ms)
    (hbad : codec.UnmarshalJSON e.2 = none) :
    responsesProps.UnmarshalJSON codec order r (.object ms) = (r, none) := by
  have hnone := unmarshalResponseMap_bad_member codec ms e he hbad
  simp [responsesProps.UnmarshalJSON, hnone]

end

/-- The successful case at a concrete input: the object `{"default": .., "200": .., "note": ..}` of three
responses: `Default` is the decoded `default` member and status code `200` has an entry. -/
theorem responsesProps_decode_splits_members_witness :
    (responsesProps.UnmarshalJSON descriptionCodec id ⟨none, []⟩
      (.object [("default", .object [("description", .string "fallback")]),
        ("200", .object [("description", .string "ok")]),
        ("note", .object [])])).1.Default
      = some "fallback" ∧
    (mapLookup (responsesProps.UnmarshalJSON descriptionCodec id ⟨none, []⟩
      (.object [("default", .object [("description", .string "fallback")]),
        ("200", .object [("description", .string "ok")]),
        ("note", .object [])])).1.StatusCodeResponses 200).isSome = true := by
  have h := responsesProps_decode_splits_members descriptionCodec id (fun l => List.Perm.refl l)
    [("default", .object [("description", .string "fallback")]),
      ("200", .object [("description", .string "ok")]),
      ("note", .object [])]
    (by
      intro e he
      simp only [List.mem_cons, List.mem_singleton, List.not_mem_nil, or_false] at he
      rcases he with rfl | rfl | rfl <;> exact ⟨_, rfl⟩)
  refine ⟨?_, h.2.2.2.1 "200" (.object [("description", .string "ok")]) 200 (by simp)
    (by decide)⟩
  rw [h.2.1]
  rfl

/-- C8 (defect in the code).  The flat object `{"default": .., "200": .., "x-note": "text"}`
is decoded on a fresh value.  The member `default` exists and the name `200` is a decimal
integer, yet `Default` stays unset and `StatusCodeResponses` gets no entry, and no error is
returned: the member `x-note`, whose name is neither `default` nor a decimal integer, is not
ignored, its value is decoded as a `Response` with all the others (line 92), the string
`"text"` is not one, and line 93 returns nil.  Without that member the same payload gives
`Default` and the entry `200`. -/
theorem responsesProps_decode_loses_members_beside_other_member :
    (responsesProps.UnmarshalJSON descriptionCodec id ⟨none, []⟩
      (.object [("default", .object [("description", .string "fallback")]),
        ("200", .object [("description", .string "ok")]),
        ("x-note", .string "text")])).2 = none ∧
    (responsesProps.UnmarshalJSON descriptionCodec id ⟨none, []⟩
      (.object [("default", .object [("description", .string "fallback")]),
        ("200", .object [("description", .string "ok")]),
        ("x-note", .string "text")])).1.Default = none ∧
    (responsesProps.UnmarshalJSON descriptionCodec id ⟨none, []⟩
      (.object [("default", .object [("description", .string "fallback")]),
        ("200", .object [("description", .string "ok")]),
        ("x-note", .string "text")])).1.StatusCodeResponses = [] ∧
    (responsesProps.UnmarshalJSON descriptionCodec id ⟨none, []⟩
      (.object [("default", .object [("description", .string "fallback")]),
        ("200", .object [("description", .string "ok")])])).1.Default = some "fallback" ∧
    (responsesProps.UnmarshalJSON descriptionCodec id ⟨none, []⟩
      (.object [("default", .object [("description", .string "fallback")]),
        ("200", .object [("description", .string "ok")])])).1.StatusCodeResponses
      = [(200, "ok")] := by
  decide

/-- C9 (defect in the code).  The value `r` has a `Default`, the status code `200` and the
vendor extension `"x-note": "text"`.  `Responses.MarshalJSON` writes
`{"default": .., "200": .., "x-note": "text"}`.  Decoding this payload on a fresh value,
`responsesProps.UnmarshalJSON` decodes every member as a `Response`, the string `"text"` is
not one, and the error is dropped at line 93: no error is returned, the extension is restored,
but `Default` and `StatusCodeResponses` come back empty. -/
theorem responses_round_trip_loses_props :
    Responses.MarshalJSON descriptionCodec
        { Extensions := [("x-note", .json (.string "text"))], Default := some "fallback",
          StatusCodeResponses := [(200, "ok")] }
      = .object [("default", .object [("description", .string "fallback")]),
          ("200", .object [("description", .string "ok")]),
          ("x-note", .string "text")] ∧
    (Responses.UnmarshalJSON descriptionCodec id Responses.fresh
      (Responses.MarshalJSON descriptionCodec
        { Extensions := [("x-note", .json (.string "text"))], Default := some "fallback",
          StatusCodeResponses := [(200, "ok")] })).2 = none ∧
    (Responses.UnmarshalJSON descriptionCodec id Responses.fresh
      (Responses.MarshalJSON descriptionCodec
        { Extensions := [("x-note", .json (.string "text"))], Default := some "fallback",
          StatusCodeResponses := [(200, "ok")] })).1.Default = none ∧
    (Responses.UnmarshalJSON descriptionCodec id Responses.fresh
      (Responses.MarshalJSON descriptionCodec
        { Extensions := [("x-note", .json (.string "text"))], Default := some "fallback",
          StatusCodeResponses := [(200, "ok")] })).1.StatusCodeResponses = [] ∧
    (Responses.UnmarshalJSON descriptionCodec id Responses.fresh
      (Responses.MarshalJSON descriptionCodec
        { Extensions := [("x-note", .json (.string "text"))], Default := some "fallback",
          StatusCodeResponses := [(200, "ok")] })).1.Extensions
      = [("x-note", .json (.string "text"))] := by
  refine ⟨rfl, ?_, ?_, ?_, rfl⟩ <;> decide

end Spec

end GoSwagger

/-! # Further properties of `Responses` -/

namespace GoSwagger

namespace Spec

section
variable {R : Type}

theorem digitValue_digitChar : ∀ m : Nat, m < 10 → digitValue (Nat.digitChar m) = some m := by
  decide

theorem parseDigits_toDigitsCore (fuel : Nat) :
    ∀ (n : Nat) (ds : List Char), n < fuel →
      parseDigits (Nat.toDigitsCore 10 fuel n ds) 0 = parseDigits ds n := by
  induction fuel with
  | zero => intro n ds h; omega
  | succ fuel ih =>
    intro n ds h
    have hd : digitValue (Nat.digitChar (n % 10)) = some (n % 10) :=
      digitValue_digitChar _ (Nat.mod_lt _ (by decide))
    simp only [Nat.toDigitsCore]
    by_cases h0 : n / 10 = 0
    · have hn : n % 10 = n := by omega
      rw [hn] at hd
      simp [h0, hn, parseDigits, hd]
    · have hlt : n / 10 < fuel := by omega
      simp only [h0, if_false]
      rw [ih (n / 10) _ hlt]
      have hn : n / 10 * 10 + n % 10 = n := by omega
      simp [parseDigits, hd, hn]

theorem toDigitsCore_length_le (fuel : Nat) :
    ∀ (n : Nat) (ds : List Char), ds.length ≤ (Nat.toDigitsCore 10 fuel n ds).length := by
  induction fuel with
  | zero => intro n ds; simp [Nat.toDigitsCore]
  | succ fuel ih =>
    intro n ds
    simp only [Nat.toDigitsCore]
    split
    · simp
    · exact Nat.le_trans (by simp) (ih _ _)

theorem toDigits_ne_nil (n : Nat) : Nat.toDigits 10 n ≠ [] := by
  intro h
  have hlen := congrArg List.length h
  simp only [Nat.toDigits, Nat.toDigitsCore, List.length_nil] at hlen
  split at hlen
  · simp at hlen
  · have := toDigitsCore_length_le n (n / 10) [Nat.digitChar (n % 10)]
    simp only [List.length_singleton] at this
    omega

theorem parseNat_toDigits (n : Nat) : parseNat (Nat.toDigits 10 n) = some n := by
  simp only [parseNat, toDigits_ne_nil, if_false]
  rw [Nat.toDigits, parseDigits_toDigitsCore (n + 1) n [] (by omega)]
  rfl

theorem head_is_digit_of_parseNat (c : Char) (cs : List Char) (n : Nat)
    (h : parseNat (c :: cs) = some n) : c ≠ '+' ∧ c ≠ '-' := by
  simp only [parseNat, List.cons_ne_nil, if_false, parseDigits] at h
  constructor
  · intro hc
    subst hc
    simp [show digitValue '+' = none by decide] at h
  · intro hc
    subst hc
    simp [show digitValue '-' = none by decide] at h

theorem Atoi_of_digits (s : String) (n : Nat) (h : parseNat s.toList = some n)
    (hr : (n : Int) < (2 : Int) ^ 63) : Atoi s = some (n : Int) := by
  have hne : s.toList ≠ [] := by
    intro hnil
    rw [hnil] at h
    simp [parseNat] at h
  obtain ⟨c, cs, hcs⟩ := List.exists_cons_of_ne_nil hne
  rw [hcs] at h
  have hc := head_is_digit_of_parseNat c cs n h
  have hlow : - (2 : Int) ^ 63 ≤ (n : Int) := by
    have : (0 : Int) ≤ (n : Int) := Int.ofNat_nonneg n
    omega
  unfold Atoi
  rw [hcs]
  split
  · rename_i heq
    simp only [List.cons.injEq] at heq
    exact absurd heq.1 hc.1
  · rename_i heq
    simp only [List.cons.injEq] at heq
    exact absurd heq.1 hc.2
  · simp only [h]
    exact Option.bind_eq_some.mpr ⟨(n : Int), rfl, if_pos (And.intro hlow hr)⟩

/-- `strconv.Atoi(strconv.Itoa(k)) = k` for every `k` in the range of a 64-bit `int`. -/
theorem Atoi_Itoa (k : Int) (hlo : - (2 : Int) ^ 63 ≤ k) (hhi : k < (2 : Int) ^ 63) :
    Atoi (Itoa k) = some k := by
  cases k with
  | ofNat n =>
    have hs : (Itoa (Int.ofNat n)).toList = Nat.toDigits 10 n := rfl
    exact Atoi_of_digits _ n (by rw [hs]; exact parseNat_toDigits n) hhi
  | negSucc m =>
    have hs : (Itoa (Int.negSucc m)).toList = '-' :: Nat.toDigits 10 (m + 1) := rfl
    unfold Atoi
    rw [hs]
    simp only [parseNat_toDigits]
    have e : Int.negSucc m = - ((m + 1 : Nat) : Int) := rfl
    rw [e] at hlo hhi ⊢
    exact Option.bind_eq_some.mpr ⟨- ((m + 1 : Nat) : Int), rfl, if_pos (And.intro hlo hhi)⟩

theorem Itoa_ne_default (k : Int) (hlo : - (2 : Int) ^ 63 ≤ k) (hhi : k < (2 : Int) ^ 63) :
    Itoa k ≠ "default" := by
  intro h
  have h1 := Atoi_Itoa k hlo hhi
  rw [h] at h1
  have h2 : Atoi "default" = none := by decide
  rw [h2] at h1
  exact Option.noConfusion h1

theorem unmarshalResponseMap_not_object (codec : ResponseCodec R) (data : Json)
    (hobj : ∀ ms, data ≠ .object ms) (hnull : data ≠ .null) :
    unmarshalResponseMap codec data = none := by
  cases data with
  | null => exact absurd rfl hnull
  | object ms => exact absurd rfl (hobj ms)
  | bool b => rfl
  | number q => rfl
  | string s => rfl
  | array xs => rfl

/-- C11. `responsesProps.UnmarshalJSON` returns a nil error for every payload, every receiver
and every iteration order.  When `json.Unmarshal(data, &res)` fails, the receiver is returned
as it was: `Default` and `StatusCodeResponses` are unchanged.  That failure does happen: for
every payload that is neither `null` nor an object (a string, a number, an array, a boolean),
and for every object with a member whose value is not a response. -/
theorem responsesProps_decode_swallows_errors (codec : ResponseCodec R)
    (order : List (String × R) → List (String × R)) (r : responsesProps R) (data : Json) :
    (responsesProps.UnmarshalJSON codec order r data).2 = none ∧
    (unmarshalResponseMap codec data = none →
      (responsesProps.UnmarshalJSON codec order r data).1.Default = r.Default ∧
      (responsesProps.UnmarshalJSON codec order r data).1.StatusCodeResponses =
        r.StatusCodeResponses) ∧
    ((∀ ms, data ≠ .object ms) → data ≠ .null → unmarshalResponseMap codec data = none) ∧
    (∀ ms e, data = .object ms → e ∈ ms → codec.UnmarshalJSON e.2 = none →
      unmarshalResponseMap codec data = none) := by
  refine ⟨?_, ?_, unmarshalResponseMap_not_object codec data, ?_⟩
  · unfold responsesProps.UnmarshalJSON
    split
    · rfl
    · split <;> rfl
  · intro h
    simp only [responsesProps.UnmarshalJSON, h, and_self]
  · intro ms e hdata he hbad
    subst hdata
    exact unmarshalResponseMap_bad_member codec ms e he hbad

/-- C11, at concrete inputs: a receiver holding a `Default` and the status code `200` decodes
the string payload `"oops"`, and then an object whose member `x-note` is a string and not a
response: the first call returns a nil error, and after the second the receiver still holds
the status code `200` only (`404` is not stored). -/
theorem responsesProps_decode_swallows_errors_witness :
    (responsesProps.UnmarshalJSON descriptionCodec id ⟨some "d", [(200, "ok")]⟩
      (.string "oops")).2 = none ∧
    (responsesProps.UnmarshalJSON descriptionCodec id ⟨some "d", [(200, "ok")]⟩
      (.object [("404", .object [("description", .string "nf")]),
        ("x-note", .string "text")])).1.StatusCodeResponses = [(200, "ok")] :=
  ⟨(responsesProps_decode_swallows_errors descriptionCodec id ⟨some "d", [(200, "ok")]⟩
      (.string "oops")).1, by decide⟩

/-- C20. `Responses.JSONLookup(token)` returns the error exactly when the token is not
`"default"`, is not a key of `Extensions`, and is not the decimal form of a key of
`StatusCodeResponses`; the error names the token.  The token `"default"` returns `r.Default`,
set or not.  Any other token that is a key of `Extensions` returns that extension, whatever
`StatusCodeResponses` holds.  For every status code `k` (a 64-bit `int`) with a response stored
under it and whose decimal string `Itoa k` is not an extension key, `JSONLookup (Itoa k)`
returns that response. -/
theorem jsonLookup_resolution (r : Responses R) (token : String) :
    ((r.JSONLookup token).isError = true ↔
      token ≠ "default" ∧ mapLookup r.Extensions token = none ∧
        ∀ i, Atoi token = some i → mapLookup r.StatusCodeResponses i = none) ∧
    ((r.JSONLookup token).isError = true → r.JSONLookup token = .noField token) ∧
    r.JSONLookup "default" = .default r.Default ∧
    (token ≠ "default" → ∀ ex, mapLookup r.Extensions token = some ex →
      r.JSONLookup token = .extension ex) ∧
    (∀ (k : Int) (resp : R), - (2 : Int) ^ 63 ≤ k → k < (2 : Int) ^ 63 →
      mapLookup r.StatusCodeResponses k = some resp →
      mapLookup r.Extensions (Itoa k) = none →
      r.JSONLookup (Itoa k) = .statusCode resp) := by
  refine ⟨?_, ?_, ?_, ?_, ?_⟩
  · unfold Responses.JSONLookup
    by_cases hd : token = "default"
    · simp [hd, Lookup.isError]
    · cases hx : mapLookup r.Extensions token with
      | some ex => simp [hd, Lookup.isError]
      | none =>
        cases ha : Atoi token with
        | none => simp [hd, Lookup.isError]
        | some i =>
          cases hs : mapLookup r.StatusCodeResponses i with
          | none => simp [hd, hs, Lookup.isError]
          | some scr => simp [hd, hs, Lookup.isError]
  · unfold Responses.JSONLookup
    by_cases hd : token = "default"
    · simp [hd, Lookup.isError]
    · cases hx : mapLookup r.Extensions token with
      | some ex => simp [hd, Lookup.isError]
      | none =>
        cases ha : Atoi token with
        | none => simp [hd, Lookup.isError]
        | some i =>
          cases hs : mapLookup r.StatusCodeResponses i with
          | none => simp [hd, hs, Lookup.isError]
          | some scr => simp [hd, hs, Lookup.isError]
  · simp [Responses.JSONLookup]
  · intro hd ex hx
    simp [Responses.JSONLookup, hd, hx]
  · intro k resp hlo hhi hs hx
    have hd := Itoa_ne_default k hlo hhi
    have ha := Atoi_Itoa k hlo hhi
    simp only [Responses.JSONLookup, hd, if_false, hx, ha, hs]

/-- C20, at a concrete input: with responses stored under `200` and `404` and the extension
`x-rate`, the token `"404"` gives the response stored under `404`, and the token `"500"` is
refused. -/
theorem jsonLookup_resolution_witness :
    (⟨⟨[("x-rate", .json (.number 5))]⟩, ⟨none, [(200, "ok"), (404, "nf")]⟩⟩ :
        Responses String).JSONLookup (Itoa 404) = .statusCode "nf" ∧
    ((⟨⟨[("x-rate", .json (.number 5))]⟩, ⟨none, [(200, "ok"), (404, "nf")]⟩⟩ :
        Responses String).JSONLookup "500").isError = true :=
  ⟨(jsonLookup_resolution
      (⟨⟨[("x-rate", .json (.number 5))]⟩, ⟨none, [(200, "ok"), (404, "nf")]⟩⟩ : Responses String)
      "404").2.2.2.2 404 "nf" (by norm_num) (by norm_num) (by decide)
      (Option.isNone_iff_eq_none.mp (by decide)),
   by decide⟩

end

end Spec

end GoSwagger

/-! # The order in which the decoded map is visited -/

namespace GoSwagger

namespace Spec

section
variable {K V : Type} [DecidableEq K]

theorem key_of_mem_mapInsert (m : List (K × V)) (k : K) (v : V) (x : K)
    (h : x ∈ (mapInsert m k v).map Prod.fst) : x = k ∨ x ∈ m.map Prod.fst := by
  obtain ⟨e, he, rfl⟩ := List.mem_map.mp h
  rcases mem_of_mem_mapInsert m k v e he with h1 | h1
  · exact Or.inl (by rw [h1])
  · exact Or.inr (List.mem_map.mpr ⟨e, h1, rfl⟩)

theorem keys_nodup_mapInsert (m : List (K × V)) (k : K) (v : V)
    (h : (m.map Prod.fst).Nodup) : ((mapInsert m k v).map Prod.fst).Nodup := by
  induction m with
  | nil => simp [mapInsert]
  | cons e rest ih =>
    obtain ⟨a, b⟩ := e
    simp only [List.map_cons, List.nodup_cons] at h
    by_cases hk : a = k
    · subst hk
      simp only [mapInsert, if_true, List.map_cons, List.nodup_cons]
      exact h
    · simp only [mapInsert, hk, if_false, List.map_cons, List.nodup_cons]
      refine ⟨?_, ih h.2⟩
      intro hmem
      rcases key_of_mem_mapInsert rest k v a hmem with h1 | h1
      · exact hk h1
      · exact h.1 h1

end

theorem value_unique_of_keys_nodup {K V : Type} (m : List (K × V)) (h : (m.map Prod.fst).Nodup)
    (k : K) (v w : V) (hv : (k, v) ∈ m) (hw : (k, w) ∈ m) : v = w := by
  induction m with
  | nil => simp at hv
  | cons e rest ih =>
    obtain ⟨a, b⟩ := e
    simp only [List.map_cons, List.nodup_cons] at h
    simp only [List.mem_cons, Prod.mk.injEq] at hv hw
    rcases hv with hv | hv
    · rcases hw with hw | hw
      · rw [hv.2, hw.2]
      · exact absurd (List.mem_map.mpr ⟨(k, w), hw, hv.1⟩) h.1
    · rcases hw with hw | hw
      · exact absurd (List.mem_map.mpr ⟨(k, v), hv, hw.1⟩) h.1
      · exact ih h.2 hv hw

section
variable {R : Type}

theorem unmarshalResponseMap_keys (codec : ResponseCodec R) (data : Json)
    (res : List (String × R)) (h : unmarshalResponseMap codec data = some res) :
    (res.map Prod.fst).Nodup ∧ ∀ e ∈ res, ∃ j, (e.1, j) ∈ data.members := by
  have hfold : ∀ (ms : List (String × Json)) (acc : Option (List (String × R))),
      ms.foldl
        (fun acc e =>
          match acc with
          | none => none
          | some res =>
            match codec.UnmarshalJSON e.2 with
            | some v => some (mapInsert res e.1 v)
            | none => none) acc = some res →
      ∃ a, acc = some a ∧ ((a.map Prod.fst).Nodup → (res.map Prod.fst).Nodup) ∧
        ∀ e ∈ res, e ∈ a ∨ ∃ j, (e.1, j) ∈ ms := by
    intro ms
    induction ms with
    | nil =>
      intro acc hacc
      exact ⟨res, hacc, fun hn => hn, fun e he => Or.inl he⟩
    | cons m rest ih =>
      intro acc hacc
      rw [List.foldl_cons] at hacc
      obtain ⟨a2, ha2, hn2, hm2⟩ := ih _ hacc
      cases acc with
      | none => simp at ha2
      | some a =>
        cases hv : codec.UnmarshalJSON m.2 with
        | none => simp [hv] at ha2
        | some v =>
          simp only [hv, Option.some.injEq] at ha2
          subst ha2
          refine ⟨a, rfl, fun hn => hn2 (keys_nodup_mapInsert a m.1 v hn), ?_⟩
          intro e he
          rcases hm2 e he with h1 | ⟨j, hj⟩
          · rcases mem_of_mem_mapInsert a m.1 v e h1 with h2 | h2
            · exact Or.inr ⟨m.2, by rw [h2]; exact List.mem_cons_self _ _⟩
            · exact Or.inl h2
          · exact Or.inr ⟨j, List.mem_cons_of_mem _ hj⟩
  cases data with
  | null =>
    simp only [unmarshalResponseMap, Option.some.injEq] at h
    subst h
    exact ⟨List.nodup_nil, fun e he => absurd he (List.not_mem_nil e)⟩
  | object ms =>
    simp only [unmarshalResponseMap] at h
    obtain ⟨a, ha, hn, hm⟩ := hfold ms (some []) h
    simp only [Option.some.injEq] at ha
    subst ha
    refine ⟨hn List.nodup_nil, ?_⟩
    intro e he
    rcases hm e he with h1 | h1
    · exact absurd h1 (List.not_mem_nil e)
    · exact h1
  | bool b => simp [unmarshalResponseMap] at h
  | number q => simp [unmarshalResponseMap] at h
  | string s => simp [unmarshalResponseMap] at h
  | array xs => simp [unmarshalResponseMap] at h

theorem foldl_storeStatusCode_absent (l : List (String × R)) (r : responsesProps R) (k : Int)
    (h : ∀ e ∈ l, Atoi e.1 ≠ some k) :
    mapLookup (l.foldl storeStatusCode r).StatusCodeResponses k =
      mapLookup r.StatusCodeResponses k := by
  induction l generalizing r with
  | nil => rfl
  | cons e rest ih =>
    rw [List.foldl_cons, ih _ (fun e2 he2 => h e2 (List.mem_cons_of_mem _ he2))]
    have he := h e (List.mem_cons_self _ _)
    unfold storeStatusCode
    cases hk : Atoi e.1 with
    | none => rfl
    | some nk =>
      have hne : nk ≠ k := fun hnk => he (by rw [hk, hnk])
      simp [mapLookup_mapInsert, hne]

theorem foldl_storeStatusCode_unique (l : List (String × R)) (r : responsesProps R) (k : Int)
    (w : R) (hall : ∀ e ∈ l, Atoi e.1 = some k → e.2 = w)
    (hex : ∃ e ∈ l, Atoi e.1 = some k) :
    mapLookup (l.foldl storeStatusCode r).StatusCodeResponses k = some w := by
  induction l generalizing r with
  | nil =>
    obtain ⟨e, he, _⟩ := hex
    exact absurd he (List.not_mem_nil e)
  | cons e rest ih =>
    rw [List.foldl_cons]
    by_cases hrest : ∃ e2 ∈ rest, Atoi e2.1 = some k
    · exact ih _ (fun e2 he2 => hall e2 (List.mem_cons_of_mem _ he2)) hrest
    · have habs : ∀ e2 ∈ rest, Atoi e2.1 ≠ some k := fun e2 he2 hk => hrest ⟨e2, he2, hk⟩
      rw [foldl_storeStatusCode_absent rest _ k habs]
      obtain ⟨e3, he3, hk3⟩ := hex
      have he : Atoi e.1 = some k := by
        rcases List.mem_cons.mp he3 with h1 | h1
        · rw [← h1]; exact hk3
        · exact absurd hk3 (habs e3 h1)
      have hw := hall e (List.mem_cons_self _ _) he
      unfold storeStatusCode
      simp [he, mapLookup_mapInsert, hw]

theorem foldl_storeStatusCode_perm (l1 l2 : List (String × R)) (hp : l1.Perm l2)
    (r : responsesProps R) (k : Int)
    (huniq : ∀ e1 ∈ l1, ∀ e2 ∈ l1, Atoi e1.1 = some k → Atoi e2.1 = some k → e1.2 = e2.2) :
    mapLookup (l1.foldl storeStatusCode r).StatusCodeResponses k =
      mapLookup (l2.foldl storeStatusCode r).StatusCodeResponses k := by
  by_cases hex : ∃ e ∈ l1, Atoi e.1 = some k
  · obtain ⟨e, he, hk⟩ := hex
    rw [foldl_storeStatusCode_unique l1 r k e.2 (fun e2 he2 hk2 => huniq e2 he2 e he hk2 hk)
        ⟨e, he, hk⟩,
      foldl_storeStatusCode_unique l2 r k e.2
        (fun e2 he2 hk2 => huniq e2 (hp.mem_iff.mpr he2) e he hk2 hk)
        ⟨e, hp.mem_iff.mp he, hk⟩]
  · have h1 : ∀ e ∈ l1, Atoi e.1 ≠ some k := fun e he hk => hex ⟨e, he, hk⟩
    have h2 : ∀ e ∈ l2, Atoi e.1 ≠ some k := fun e he hk => hex ⟨e, hp.mem_iff.mpr he, hk⟩
    rw [foldl_storeStatusCode_absent l1 r k h1, foldl_storeStatusCode_absent l2 r k h2]

theorem names_of_marshalled (l : List (Int × R)) (init : List (String × R)) :
    ∀ e ∈ l.foldl (fun m e => mapInsert m (Itoa e.1) e.2) init,
      e ∈ init ∨ ∃ x ∈ l, e.1 = Itoa x.1 := by
  induction l generalizing init with
  | nil => intro e he; exact Or.inl he
  | cons x rest ih =>
    intro e he
    rw [List.foldl_cons] at he
    rcases ih _ e he with h1 | ⟨y, hy, hname⟩
    · rcases mem_of_mem_mapInsert init (Itoa x.1) x.2 e h1 with h2 | h2
      · exact Or.inr ⟨x, List.mem_cons_self _ _, by rw [h2]⟩
      · exact Or.inl h2
    · exact Or.inr ⟨y, List.mem_cons_of_mem _ hy, hname⟩

/-- The names `responsesProps.MarshalJSON` writes are `"default"` and the decimal forms of the
status codes: no two of them are read as the same integer. -/
theorem marshalled_distinctStatusCodes (codec : ResponseCodec R) (r : responsesProps R)
    (hrange : ∀ e ∈ r.StatusCodeResponses, - (2 : Int) ^ 63 ≤ e.1 ∧ e.1 < (2 : Int) ^ 63) :
    distinctStatusCodes (r.MarshalJSON codec).members := by
  have hno : Atoi "default" = none := by decide
  have hname : ∀ e ∈ (r.MarshalJSON codec).members,
      e.1 = "default" ∨ ∃ k, e.1 = Itoa k ∧ Atoi e.1 = some k := by
    intro e he
    simp only [responsesProps.MarshalJSON, Json.members, List.mem_map] at he
    obtain ⟨e0, he0, rfl⟩ := he
    rcases names_of_marshalled r.StatusCodeResponses _ e0 he0 with h1 | ⟨x, hx, hname⟩
    · left
      cases hd : r.Default with
      | none => simp [hd] at h1
      | some d =>
        simp only [hd, List.mem_singleton] at h1
        rw [h1]
    · right
      refine ⟨x.1, hname, ?_⟩
      show Atoi e0.1 = some x.1
      rw [hname]
      exact Atoi_Itoa x.1 (hrange x hx).1 (hrange x hx).2
  intro e1 he1 e2 he2 hsome heq
  rcases hname e1 he1 with h1 | ⟨k1, hn1, ha1⟩
  · rw [h1, hno] at hsome
    simp at hsome
  · rcases hname e2 he2 with h2 | ⟨k2, hn2, ha2⟩
    · rw [ha1, h2, hno] at heq
      exact Option.noConfusion heq
    · rw [ha1, ha2, Option.some.injEq] at heq
      rw [hn1, hn2, heq]

/-- C21 (amended). For a payload in which no two distinct member names are read by
`strconv.Atoi` as the same integer, and for every receiver, `responsesProps.UnmarshalJSON`
gives the same result in whatever order `range res` visits the decoded map: the same error,
the same `Default`, and under every status code the same entry of `StatusCodeResponses`. -/
theorem responsesProps_decode_order_independent (codec : ResponseCodec R)
    (order1 order2 : List (String × R) → List (String × R))
    (horder1 : ∀ l, (order1 l).Perm l) (horder2 : ∀ l, (order2 l).Perm l)
    (r : responsesProps R) (data : Json) (hdistinct : distinctStatusCodes data.members) :
    (responsesProps.UnmarshalJSON codec order1 r data).2 =
      (responsesProps.UnmarshalJSON codec order2 r data).2 ∧
    (responsesProps.UnmarshalJSON codec order1 r data).1.Default =
      (responsesProps.UnmarshalJSON codec order2 r data).1.Default ∧
    ∀ k, mapLookup (responsesProps.UnmarshalJSON codec order1 r data).1.StatusCodeResponses k =
      mapLookup (responsesProps.UnmarshalJSON codec order2 r data).1.StatusCodeResponses k := by
  cases hres : unmarshalResponseMap codec data with
  | none =>
    simp only [responsesProps.UnmarshalJSON, hres]
    exact ⟨trivial, trivial, fun _ => trivial⟩
  | some res =>
    obtain ⟨hnodup, hnames⟩ := unmarshalResponseMap_keys codec data res hres
    have huniq : ∀ k, ∀ e1 ∈ res, ∀ e2 ∈ res, Atoi e1.1 = some k → Atoi e2.1 = some k →
        e1.2 = e2.2 := by
      intro k e1 he1 e2 he2 hk1 hk2
      obtain ⟨j1, hj1⟩ := hnames e1 he1
      obtain ⟨j2, hj2⟩ := hnames e2 he2
      have hname : e1.1 = e2.1 :=
        hdistinct (e1.1, j1) hj1 (e2.1, j2) hj2 (by simp [hk1]) (by simp [hk1, hk2])
      have he2b : (e1.1, e2.2) ∈ res := by
        rw [hname]
        exact he2
      exact value_unique_of_keys_nodup res hnodup e1.1 e1.2 e2.2 he1 he2b
    cases hd : mapLookup res "default" with
    | none =>
      simp only [responsesProps.UnmarshalJSON, hres, hd]
      refine ⟨trivial, ?_, ?_⟩
      · rw [foldl_storeStatusCode_Default, foldl_storeStatusCode_Default]
      · intro k
        exact foldl_storeStatusCode_perm _ _ ((horder1 res).trans (horder2 res).symm) r k
          (fun e1 he1 e2 he2 =>
            huniq k e1 ((horder1 res).mem_iff.mp he1) e2 ((horder1 res).mem_iff.mp he2))
    | some v =>
      simp only [responsesProps.UnmarshalJSON, hres, hd]
      refine ⟨trivial, ?_, ?_⟩
      · rw [foldl_storeStatusCode_Default, foldl_storeStatusCode_Default]
      · intro k
        exact foldl_storeStatusCode_perm _ _
          ((horder1 (mapDelete res "default")).trans (horder2 (mapDelete res "default")).symm)
          _ k
          (fun e1 he1 e2 he2 =>
            huniq k e1
              ((mem_mapDelete res "default" e1).mp
                ((horder1 (mapDelete res "default")).mem_iff.mp he1)).1
              e2
              ((mem_mapDelete res "default" e2).mp
                ((horder1 (mapDelete res "default")).mem_iff.mp he2)).1)

end

/-- C21 (amended), at a concrete input: the object `{"default": .., "200": .., "404": ..}`
has no two names read as the same integer, and decoded in the order of the map and in the
reverse order it gives the same entry under `404`, which is the member `"404"`. -/
theorem responsesProps_decode_order_independent_witness :
    distinctStatusCodes
      [("default", .object [("description", .string "fallback")]),
        ("200", .object [("description", .string "ok")]),
        ("404", .object [("description", .string "nf")])] ∧
    mapLookup (responsesProps.UnmarshalJSON descriptionCodec id ⟨none, []⟩
      (.object [("default", .object [("description", .string "fallback")]),
        ("200", .object [("description", .string "ok")]),
        ("404", .object [("description", .string "nf")])])).1.StatusCodeResponses 404 =
    mapLookup (responsesProps.UnmarshalJSON descriptionCodec List.reverse ⟨none, []⟩
      (.object [("default", .object [("description", .string "fallback")]),
        ("200", .object [("description", .string "ok")]),
        ("404", .object [("description", .string "nf")])])).1.StatusCodeResponses 404 ∧
    mapLookup (responsesProps.UnmarshalJSON descriptionCodec List.reverse ⟨none, []⟩
      (.object [("default", .object [("description", .string "fallback")]),
        ("200", .object [("description", .string "ok")]),
        ("404", .object [("description", .string "nf")])])).1.StatusCodeResponses 404 =
      some "nf" :=
  ⟨by decide,
    (responsesProps_decode_order_independent descriptionCodec id List.reverse
      (fun l => List.Perm.refl l) (fun l => List.reverse_perm l) ⟨none, []⟩
      (.object [("default", .object [("description", .string "fallback")]),
        ("200", .object [("description", .string "ok")]),
        ("404", .object [("description", .string "nf")])])
      (by decide)).2.2 404,
    by decide⟩

/-- C21 as stated fails.  The member names `"200"` and `"0200"` are distinct and
`strconv.Atoi` reads both as `200`.  For the object `{"200": a, "0200": b}`, decoded into a
fresh value, the entry under status code `200` is `b` when the map is visited in the order
`"200"`, `"0200"` and `a` when it is visited in the reverse order (both orders are
permutations of the map). -/
theorem responsesProps_decode_depends_on_order :
    ("200" ≠ "0200" ∧ Atoi "200" = some 200 ∧ Atoi "0200" = some 200 ∧
      mapLookup (responsesProps.UnmarshalJSON descriptionCodec id ⟨none, []⟩
        (.object [("200", .object [("description", .string "a")]),
          ("0200", .object [("description", .string "b")])])).1.StatusCodeResponses 200
        = some "b" ∧
      mapLookup (responsesProps.UnmarshalJSON descriptionCodec List.reverse ⟨none, []⟩
        (.object [("200", .object [("description", .string "a")]),
          ("0200", .object [("description", .string "b")])])).1.StatusCodeResponses 200
        = some "a") ∧
    (∀ l : List (String × String), (id l).Perm l) ∧
    (∀ l : List (String × String), (List.reverse l).Perm l) :=
  ⟨by decide, fun l => List.Perm.refl l, fun l => List.reverse_perm l⟩

end Spec

end GoSwagger

/-! # Properties of the `Items` wire form -/

namespace GoSwagger

namespace Spec

theorem Int64.ofRat?_cast (n : Int64) : Int64.ofRat? (n.val : ℚ) = some n := by
  have h : ((n.val : ℚ)).den = 1 ∧ - (2 : Int) ^ 63 ≤ ((n.val : ℚ)).num ∧
      ((n.val : ℚ)).num < (2 : Int) ^ 63 := by
    simp only [Rat.intCast_den, Rat.intCast_num, true_and]
    exact n.property
  simp only [Int64.ofRat?, h, and_self, dite_true]
  exact congrArg some (Subtype.ext (Rat.intCast_num n.val))

theorem map_char_toChar (runes : List GoRune) (h : runes.all GoRune.isValid = true) :
    (runes.map GoRune.toChar).map GoRune.char = runes := by
  induction runes with
  | nil => rfl
  | cons r rest ih =>
    simp only [List.all_cons, Bool.and_eq_true] at h
    cases r with
    | char c =>
      simp only [List.map_cons, GoRune.toChar, List.cons.injEq, true_and]
      exact ih h.2
    | invalid b => simp [GoRune.isValid] at h

theorem GoString.ofText_toText (s : GoString) (h : s.isValid = true) :
    GoString.ofText s.toText = s := by
  obtain ⟨runes⟩ := s
  show GoString.mk ((runes.map GoRune.toChar).map GoRune.char) = ⟨runes⟩
  rw [map_char_toChar runes h]

theorem decodeFields_append {T : Type} (set : T → String → Json → Option T)
    (a b : List (String × Json)) (t : T) :
    decodeFields set (a ++ b) t = (decodeFields set a t).bind (decodeFields set b) := by
  induction a generalizing t with
  | nil => rfl
  | cons e rest ih =>
    simp only [List.cons_append, decodeFields]
    cases set t e.1 e.2 with
    | none => rfl
    | some t2 => exact ih t2

theorem decodeFields_skip {T : Type} (set : T → String → Json → Option T)
    (ms : List (String × Json)) (t : T)
    (h : ∀ e ∈ ms, set t e.1 e.2 = some t) : decodeFields set ms t = some t := by
  induction ms with
  | nil => rfl
  | cons e rest ih =>
    simp only [decodeFields, h e (List.mem_cons_self _ _)]
    exact ih (fun e2 he2 => h e2 (List.mem_cons_of_mem _ he2))

theorem cv_step_Maximum (x : Option Float64) (rest : List (String × Json))
    (c : commonValidations) (h : c.Maximum = none) (hx : x.all Float64.isFinite = true) :
    decodeFields commonValidations.setField (floatPtrMember "maximum" x ++ rest) c
      = decodeFields commonValidations.setField rest { c with Maximum := x } := by
  cases x with
  | none =>
    have e : ({ c with Maximum := none } : commonValidations) = c := by
      cases c; simp only at h; simp [h]
    simp [floatPtrMember, e]
  | some f =>
    cases f with
    | finite q =>
      simp +decide [floatPtrMember, decodeFields, commonValidations.setField, decodeFloatPtr]
    | nan => simp [Float64.isFinite] at hx
    | posInf => simp [Float64.isFinite] at hx
    | negInf => simp [Float64.isFinite] at hx

theorem cv_step_ExclusiveMaximum (x : Bool) (rest : List (String × Json)) (c : commonValidations)
    (h : c.ExclusiveMaximum = false) :
    decodeFields commonValidations.setField (boolMember "exclusiveMaximum" x ++ rest) c
      = decodeFields commonValidations.setField rest { c with ExclusiveMaximum := x } := by
  cases x with
  | false =>
    have e : ({ c with ExclusiveMaximum := false } : commonValidations) = c := by
      cases c; simp only at h; simp [h]
    simp [boolMember, e]
  | true => simp +decide [boolMember, decodeFields, commonValidations.setField, decodeBool]

theorem cv_step_Minimum (x : Option Float64) (rest : List (String × Json))
    (c : commonValidations) (h : c.Minimum = none) (hx : x.all Float64.isFinite = true) :
    decodeFields commonValidations.setField (floatPtrMember "minimum" x ++ rest) c
      = decodeFields commonValidations.setField rest { c with Minimum := x } := by
  cases x with
  | none =>
    have e : ({ c with Minimum := none } : commonValidations) = c := by
      cases c; simp only at h; simp [h]
    simp [floatPtrMember, e]
  | some f =>
    cases f with
    | finite q =>
      simp +decide [floatPtrMember, decodeFields, commonValidations.setField, decodeFloatPtr]
    | nan => simp [Float64.isFinite] at hx
    | posInf => simp [Float64.isFinite] at hx
    | negInf => simp [Float64.isFinite] at hx

theorem cv_step_ExclusiveMinimum (x : Bool) (rest : List (String × Json)) (c : commonValidations)
    (h : c.ExclusiveMinimum = false) :
    decodeFields commonValidations.setField (boolMember "exclusiveMinimum" x ++ rest) c
      = decodeFields commonValidations.setField rest { c with ExclusiveMinimum := x } := by
  cases x with
  | false =>
    have e : ({ c with ExclusiveMinimum := false } : commonValidations) = c := by
      cases c; simp only at h; simp [h]
    simp [boolMember, e]
  | true => simp +decide [boolMember, decodeFields, commonValidations.setField, decodeBool]

theorem cv_step_MaxLength (x : Option Int64) (rest : List (String × Json)) (c : commonValidations)
    (h : c.MaxLength = none) :
    decodeFields commonValidations.setField (int64PtrMember "maxLength" x ++ rest) c
      = decodeFields commonValidations.setField rest { c with MaxLength := x } := by
  cases x with
  | none =>
    have e : ({ c with MaxLength := none } : commonValidations) = c := by
      cases c; simp only at h; simp [h]
    simp [int64PtrMember, e]
  | some n =>
    simp +decide [int64PtrMember, decodeFields, commonValidations.setField, decodeInt64Ptr,
      Int64.ofRat?_cast]

theorem cv_step_MinLength (x : Option Int64) (rest : List (String × Json)) (c : commonValidations)
    (h : c.MinLength = none) :
    decodeFields commonValidations.setField (int64PtrMember "minLength" x ++ rest) c
      = decodeFields commonValidations.setField rest { c with MinLength := x } := by
  cases x with
  | none =>
    have e : ({ c with MinLength := none } : commonValidations) = c := by
      cases c; simp only at h; simp [h]
    simp [int64PtrMember, e]
  | some n =>
    simp +decide [int64PtrMember, decodeFields, commonValidations.setField, decodeInt64Ptr,
      Int64.ofRat?_cast]

theorem cv_step_Pattern (x : GoString) (rest : List (String × Json)) (c : commonValidations)
    (h : c.Pattern = "") (hv : x.isValid = true) :
    decodeFields commonValidations.setField (stringMember "pattern" x ++ rest) c
      = decodeFields commonValidations.setField rest { c with Pattern := x } := by
  by_cases hx : x = ""
  · have e : ({ c with Pattern := x } : commonValidations) = c := by
      cases c; simp only at h; simp [h, hx]
    simp only [stringMember, hx, if_true, List.nil_append]
    rw [← hx, e]
  · simp +decide [stringMember, hx, decodeFields, commonValidations.setField, decodeString,
      GoString.ofText_toText x hv]

theorem cv_step_MaxItems (x : Option Int64) (rest : List (String × Json)) (c : commonValidations)
    (h : c.MaxItems = none) :
    decodeFields commonValidations.setField (int64PtrMember "maxItems" x ++ rest) c
      = decodeFields commonValidations.setField rest { c with MaxItems := x } := by
  cases x with
  | none =>
    have e : ({ c with MaxItems := none } : commonValidations) = c := by
      cases c; simp only at h; simp [h]
    simp [int64PtrMember, e]
  | some n =>
    simp +decide [int64PtrMember, decodeFields, commonValidations.setField, decodeInt64Ptr,
      Int64.ofRat?_cast]

theorem cv_step_MinItems (x : Option Int64) (rest : List (String × Json)) (c : commonValidations)
    (h : c.MinItems = none) :
    decodeFields commonValidations.setField (int64PtrMember "minItems" x ++ rest) c
      = decodeFields commonValidations.setField rest { c with MinItems := x } := by
  cases x with
  | none =>
    have e : ({ c with MinItems := none } : commonValidations) = c := by
      cases c; simp only at h; simp [h]
    simp [int64PtrMember, e]
  | some n =>
    simp +decide [int64PtrMember, decodeFields, commonValidations.setField, decodeInt64Ptr,
      Int64.ofRat?_cast]

theorem cv_step_UniqueItems (x : Bool) (rest : List (String × Json)) (c : commonValidations)
    (h : c.UniqueItems = false) :
    decodeFields commonValidations.setField (boolMember "uniqueItems" x ++ rest) c
      = decodeFields commonValidations.setField rest { c with UniqueItems := x } := by
  cases x with
  | false =>
    have e : ({ c with UniqueItems := false } : commonValidations) = c := by
      cases c; simp only at h; simp [h]
    simp [boolMember, e]
  | true => simp +decide [boolMember, decodeFields, commonValidations.setField, decodeBool]

theorem cv_step_MultipleOf (x : Option Float64) (rest : List (String × Json))
    (c : commonValidations) (h : c.MultipleOf = none) (hx : x.all Float64.isFinite = true) :
    decodeFields commonValidations.setField (floatPtrMember "multipleOf" x ++ rest) c
      = decodeFields commonValidations.setField rest { c with MultipleOf := x } := by
  cases x with
  | none =>
    have e : ({ c with MultipleOf := none } : commonValidations) = c := by
      cases c; simp only at h; simp [h]
    simp [floatPtrMember, e]
  | some f =>
    cases f with
    | finite q =>
      simp +decide [floatPtrMember, decodeFields, commonValidations.setField, decodeFloatPtr]
    | nan => simp [Float64.isFinite] at hx
    | posInf => simp [Float64.isFinite] at hx
    | negInf => simp [Float64.isFinite] at hx

theorem map_json_toJson (xs : List GoValue) (h : xs.all GoValue.isNative = true) :
    (xs.map GoValue.toJson).map GoValue.json = xs := by
  induction xs with
  | nil => rfl
  | cons v rest ih =>
    simp only [List.all_cons, Bool.and_eq_true] at h
    cases v with
    | json j => simp [GoValue.toJson, ih h.2]
    | int n => simp [GoValue.isNative] at h

theorem cv_step_Enum (xs : Option (List GoValue)) (c : commonValidations) (h : c.Enum = none)
    (hne : isEmptySlice xs = false) (hn : (xs.getD []).all GoValue.isNative = true) :
    decodeFields commonValidations.setField (sliceMember "enum" xs) c
      = some { c with Enum := xs } := by
  cases xs with
  | none =>
    have e : ({ c with Enum := none } : commonValidations) = c := by
      cases c; simp only at h; simp [h]
    simp [sliceMember, decodeFields, e]
  | some l =>
    cases l with
    | nil => simp [isEmptySlice] at hne
    | cons v rest =>
      have hm : decodeSlice (.array ((v :: rest).map GoValue.toJson))
          = some (some (v :: rest)) := by
        simp only [decodeSlice]
        rw [map_json_toJson (v :: rest) hn]
      simp only [sliceMember, decodeFields, commonValidations.setField, hm]
      simp +decide

/-- Decoding the members written for a `commonValidations` gives it back. -/
theorem commonValidations_decode_members (c : commonValidations)
    (hfin : c.finiteBounds = true) (hpat : c.Pattern.isValid = true)
    (hne : isEmptySlice c.Enum = false)
    (hn : (c.Enum.getD []).all GoValue.isNative = true) :
    decodeFields commonValidations.setField c.members commonValidations.zero = some c := by
  simp only [commonValidations.finiteBounds, Bool.and_eq_true] at hfin
  unfold commonValidations.members
  rw [cv_step_Maximum _ _ _ rfl hfin.1.1, cv_step_ExclusiveMaximum _ _ _ rfl,
    cv_step_Minimum _ _ _ rfl hfin.1.2,
    cv_step_ExclusiveMinimum _ _ _ rfl, cv_step_MaxLength _ _ _ rfl, cv_step_MinLength _ _ _ rfl,
    cv_step_Pattern _ _ _ rfl hpat, cv_step_MaxItems _ _ _ rfl, cv_step_MinItems _ _ _ rfl,
    cv_step_UniqueItems _ _ _ rfl, cv_step_MultipleOf _ _ _ rfl hfin.2,
    cv_step_Enum _ _ rfl hne hn]

theorem fst_of_mem_floatPtrMember (name : String) (x : Option Float64) (e : String × Json)
    (h : e ∈ floatPtrMember name x) : e.1 = name := by
  match x with
  | none => simp [floatPtrMember] at h
  | some (.finite q) =>
    simp [floatPtrMember] at h
    rw [h]
  | some .nan => simp [floatPtrMember] at h
  | some .posInf => simp [floatPtrMember] at h
  | some .negInf => simp [floatPtrMember] at h

theorem fst_of_mem_boolMember (name : String) (x : Bool) (e : String × Json)
    (h : e ∈ boolMember name x) : e.1 = name := by
  cases x <;> simp [boolMember] at h
  rw [h]

theorem fst_of_mem_int64PtrMember (name : String) (x : Option Int64) (e : String × Json)
    (h : e ∈ int64PtrMember name x) : e.1 = name := by
  cases x <;> simp [int64PtrMember] at h
  rw [h]

theorem fst_of_mem_stringMember (name : String) (x : GoString) (e : String × Json)
    (h : e ∈ stringMember name x) : e.1 = name := by
  by_cases hx : x = "" <;> simp [stringMember, hx] at h
  rw [h]

theorem fst_of_mem_textMember (name : String) (x : String) (e : String × Json)
    (h : e ∈ textMember name x) : e.1 = name := by
  by_cases hx : x = "" <;> simp [textMember, hx] at h
  rw [h]

theorem fst_of_mem_sliceMember (name : String) (x : Option (List GoValue))
    (e : String × Json) (h : e ∈ sliceMember name x) : e.1 = name := by
  match x with
  | none => simp [sliceMember] at h
  | some [] => simp [sliceMember] at h
  | some (v :: vs) =>
    simp [sliceMember] at h
    rw [h]

theorem fst_of_mem_interfaceMember (name : String) (x : GoValue) (e : String × Json)
    (h : e ∈ interfaceMember name x) : e.1 = name := by
  by_cases hx : x.isNil = true <;> simp [interfaceMember, hx] at h
  rw [h]

theorem fst_of_mem_itemsPtrMember (name : String) (x : Option Json) (e : String × Json)
    (h : e ∈ itemsPtrMember name x) : e.1 = name := by
  cases x <;> simp [itemsPtrMember] at h
  rw [h]

/-- The member names written for a `commonValidations`. -/
theorem name_of_mem_validations (c : commonValidations) (e : String × Json)
    (h : e ∈ c.members) :
    e.1 ∈ ["maximum", "exclusiveMaximum", "minimum", "exclusiveMinimum", "maxLength",
      "minLength", "pattern", "maxItems", "minItems", "uniqueItems", "multipleOf", "enum"] := by
  simp only [commonValidations.members, List.mem_append] at h
  rcases h with h | h | h | h | h | h | h | h | h | h | h | h
  · simp [fst_of_mem_floatPtrMember _ _ _ h]
  · simp [fst_of_mem_boolMember _ _ _ h]
  · simp [fst_of_mem_floatPtrMember _ _ _ h]
  · simp [fst_of_mem_boolMember _ _ _ h]
  · simp [fst_of_mem_int64PtrMember _ _ _ h]
  · simp [fst_of_mem_int64PtrMember _ _ _ h]
  · simp [fst_of_mem_stringMember _ _ _ h]
  · simp [fst_of_mem_int64PtrMember _ _ _ h]
  · simp [fst_of_mem_int64PtrMember _ _ _ h]
  · simp [fst_of_mem_boolMember _ _ _ h]
  · simp [fst_of_mem_floatPtrMember _ _ _ h]
  · simp [fst_of_mem_sliceMember _ _ _ h]

/-- The member names written for a `simpleSchema`. -/
theorem name_of_mem_simple (t f : GoString) (ij : Option Json) (cf : GoString) (d : GoValue)
    (e : String × Json) (h : e ∈ simpleSchema.members t f ij cf d) :
    e.1 ∈ ["type", "format", "items", "collectionFormat", "default"] := by
  simp only [simpleSchema.members, List.mem_append] at h
  rcases h with h | h | h | h | h
  · simp [fst_of_mem_stringMember _ _ _ h]
  · simp [fst_of_mem_stringMember _ _ _ h]
  · simp [fst_of_mem_itemsPtrMember _ _ _ h]
  · simp [fst_of_mem_stringMember _ _ _ h]
  · simp [fst_of_mem_interfaceMember _ _ _ h]

/-- The member name written for a `refable`. -/
theorem name_of_mem_ref (r : refable) (e : String × Json) (h : e ∈ r.members) :
    e.1 = "$ref" :=
  fst_of_mem_textMember _ _ _ h

theorem validations_skip_ref (r : refable) (c : commonValidations) :
    decodeFields commonValidations.setField r.members c = some c := by
  apply decodeFields_skip
  intro e he
  simp +decide [commonValidations.setField, name_of_mem_ref r e he]

theorem validations_skip_simple (t f : GoString) (ij : Option Json) (cf : GoString) (d : GoValue)
    (c : commonValidations) :
    decodeFields commonValidations.setField (simpleSchema.members t f ij cf d) c = some c := by
  apply decodeFields_skip
  intro e he
  have h := name_of_mem_simple t f ij cf d e he
  simp only [List.mem_cons, List.mem_singleton, List.not_mem_nil, or_false] at h
  rcases h with h | h | h | h | h <;> simp +decide [commonValidations.setField, h]

theorem ref_skip_validations (c : commonValidations) (r : refable) :
    decodeFields refable.setField c.members r = some r := by
  apply decodeFields_skip
  intro e he
  have h := name_of_mem_validations c e he
  simp only [List.mem_cons, List.mem_singleton, List.not_mem_nil, or_false] at h
  rcases h with h | h | h | h | h | h | h | h | h | h | h | h <;> simp [refable.setField, h]

theorem ref_skip_simple (t f : GoString) (ij : Option Json) (cf : GoString) (d : GoValue)
    (r : refable) :
    decodeFields refable.setField (simpleSchema.members t f ij cf d) r = some r := by
  apply decodeFields_skip
  intro e he
  have h := name_of_mem_simple t f ij cf d e he
  simp only [List.mem_cons, List.mem_singleton, List.not_mem_nil, or_false] at h
  rcases h with h | h | h | h | h <;> simp [refable.setField, h]

/-- Decoding the member written for a `refable` gives it back. -/
theorem refable_decode_members (r : refable) :
    decodeFields refable.setField r.members ⟨""⟩ = some r := by
  cases r with
  | mk s =>
    by_cases hs : s = ""
    · simp [refable.members, textMember, hs, decodeFields]
    · simp [refable.members, textMember, hs, decodeFields, refable.setField]

theorem simple_decodeFields_nil (s : simpleSchema Items) :
    simpleSchema.decodeFields [] s = some s := by
  rw [simpleSchema.decodeFields]

theorem simple_decodeFields_cons (name : String) (value : Json) (rest : List (String × Json))
    (s : simpleSchema Items) :
    simpleSchema.decodeFields ((name, value) :: rest) s =
      if fieldFor simpleFields name = "items" then
        match value with
        | .null => simpleSchema.decodeFields rest { s with Items := none }
        | value =>
          match Items.UnmarshalJSON value with
          | some items => simpleSchema.decodeFields rest { s with Items := some items }
          | none => none
      else
        match s.setField name value with
        | some s2 => simpleSchema.decodeFields rest s2
        | none => none := by
  cases value <;> rfl

theorem simple_decodeFields_cons_other (name : String) (value : Json)
    (rest : List (String × Json)) (s : simpleSchema Items)
    (hn : fieldFor simpleFields name ≠ "items") :
    simpleSchema.decodeFields ((name, value) :: rest) s =
      (s.setField name value).bind (simpleSchema.decodeFields rest) := by
  rw [simple_decodeFields_cons, if_neg hn]
  cases s.setField name value <;> rfl

theorem simple_decodeFields_cons_items_null (name : String) (rest : List (String × Json))
    (s : simpleSchema Items) (hn : fieldFor simpleFields name = "items") :
    simpleSchema.decodeFields ((name, .null) :: rest) s =
      simpleSchema.decodeFields rest { s with Items := none } := by
  rw [simple_decodeFields_cons, if_pos hn]

theorem simple_decodeFields_cons_items (name : String) (value : Json)
    (rest : List (String × Json)) (s : simpleSchema Items)
    (hn : fieldFor simpleFields name = "items") (hv : value ≠ .null) :
    simpleSchema.decodeFields ((name, value) :: rest) s =
      (Items.UnmarshalJSON value).bind fun items =>
        simpleSchema.decodeFields rest { s with Items := some items } := by
  rw [simple_decodeFields_cons, if_pos hn]
  cases value with
  | null => exact absurd rfl hv
  | _ => simp only []; cases Items.UnmarshalJSON _ <;> rfl

theorem Items_UnmarshalJSON_object (ms : List (String × Json)) :
    Items.UnmarshalJSON (.object ms) =
      (decodeFields commonValidations.setField ms commonValidations.zero).bind fun validations =>
        (decodeFields refable.setField ms ⟨""⟩).bind fun ref =>
          (simpleSchema.decodeFields ms simpleSchema.zero).bind fun simple =>
            some ⟨ref, validations, simple⟩ := by
  rw [Items.UnmarshalJSON]
  cases decodeFields commonValidations.setField ms commonValidations.zero with
  | none => rfl
  | some v =>
    cases decodeFields refable.setField ms ⟨""⟩ with
    | none => rfl
    | some r =>
      cases simpleSchema.decodeFields ms simpleSchema.zero <;> rfl

theorem simple_decodeFields_append (a b : List (String × Json)) (s : simpleSchema Items) :
    simpleSchema.decodeFields (a ++ b) s
      = (simpleSchema.decodeFields a s).bind (simpleSchema.decodeFields b) := by
  induction a generalizing s with
  | nil => simp [simple_decodeFields_nil]
  | cons e rest ih =>
    obtain ⟨name, value⟩ := e
    simp only [List.cons_append]
    by_cases hn : fieldFor simpleFields name = "items"
    · by_cases hv : value = .null
      · subst hv
        simp only [simple_decodeFields_cons_items_null _ _ _ hn, ih]
      · simp only [simple_decodeFields_cons_items _ _ _ _ hn hv]
        cases Items.UnmarshalJSON value with
        | none => rfl
        | some it => simp [ih]
    · simp only [simple_decodeFields_cons_other _ _ _ _ hn]
      cases s.setField name value with
      | none => rfl
      | some s2 => simp [ih]

theorem simple_decodeFields_skip (ms : List (String × Json)) (s : simpleSchema Items)
    (h : ∀ e ∈ ms, fieldFor simpleFields e.1 ≠ "items" ∧ s.setField e.1 e.2 = some s) :
    simpleSchema.decodeFields ms s = some s := by
  induction ms with
  | nil => simp [simple_decodeFields_nil]
  | cons e rest ih =>
    obtain ⟨name, value⟩ := e
    have h1 := h (name, value) (List.mem_cons_self _ _)
    rw [simple_decodeFields_cons_other _ _ _ _ h1.1, h1.2]
    exact ih (fun e2 he2 => h e2 (List.mem_cons_of_mem _ he2))

theorem simple_skip_ref (r : refable) (s : simpleSchema Items) :
    simpleSchema.decodeFields r.members s = some s := by
  apply simple_decodeFields_skip
  intro e he
  simp +decide [simpleSchema.setField, name_of_mem_ref r e he]

theorem simple_skip_validations (c : commonValidations) (s : simpleSchema Items) :
    simpleSchema.decodeFields c.members s = some s := by
  apply simple_decodeFields_skip
  intro e he
  have h := name_of_mem_validations c e he
  simp only [List.mem_cons, List.mem_singleton, List.not_mem_nil, or_false] at h
  rcases h with h | h | h | h | h | h | h | h | h | h | h | h <;>
    simp +decide [simpleSchema.setField, h]

theorem simple_step_Type_ (x : GoString) (rest : List (String × Json))
    (s : simpleSchema Items) (h : s.Type_ = "") (hv : x.isValid = true) :
    simpleSchema.decodeFields (stringMember "type" x ++ rest) s
      = simpleSchema.decodeFields rest { s with Type_ := x } := by
  by_cases hx : x = ""
  · have e : ({ s with Type_ := x } : simpleSchema Items) = s := by
      cases s; simp only at h; simp [h, hx]
    simp only [stringMember, hx, if_true, List.nil_append]
    rw [← hx, e]
  · have hne : fieldFor simpleFields "type" ≠ "items" := by decide
    simp +decide [stringMember, hx, simple_decodeFields_cons_other _ _ _ _ hne, simpleSchema.setField,
      decodeString, GoString.ofText_toText x hv]

theorem simple_step_Format (x : GoString) (rest : List (String × Json))
    (s : simpleSchema Items) (h : s.Format = "") (hv : x.isValid = true) :
    simpleSchema.decodeFields (stringMember "format" x ++ rest) s
      = simpleSchema.decodeFields rest { s with Format := x } := by
  by_cases hx : x = ""
  · have e : ({ s with Format := x } : simpleSchema Items) = s := by
      cases s; simp only at h; simp [h, hx]
    simp only [stringMember, hx, if_true, List.nil_append]
    rw [← hx, e]
  · have hne : fieldFor simpleFields "format" ≠ "items" := by decide
    simp +decide [stringMember, hx, simple_decodeFields_cons_other _ _ _ _ hne, simpleSchema.setField,
      decodeString, GoString.ofText_toText x hv]

theorem simple_step_CollectionFormat (x : GoString) (rest : List (String × Json))
    (s : simpleSchema Items) (h : s.CollectionFormat = "") (hv : x.isValid = true) :
    simpleSchema.decodeFields (stringMember "collectionFormat" x ++ rest) s
      = simpleSchema.decodeFields rest { s with CollectionFormat := x } := by
  by_cases hx : x = ""
  · have e : ({ s with CollectionFormat := x } : simpleSchema Items) = s := by
      cases s; simp only at h; simp [h, hx]
    simp only [stringMember, hx, if_true, List.nil_append]
    rw [← hx, e]
  · have hne : fieldFor simpleFields "collectionFormat" ≠ "items" := by decide
    simp +decide [stringMember, hx, simple_decodeFields_cons_other _ _ _ _ hne, simpleSchema.setField,
      decodeString, GoString.ofText_toText x hv]

theorem simple_step_Items (items : Option Items) (ij : Option Json)
    (rest : List (String × Json)) (s : simpleSchema Items) (h : s.Items = none)
    (hrel : (items = none ∧ ij = none) ∨
      ∃ it ms, items = some it ∧ ij = some (.object ms) ∧
        Items.UnmarshalJSON (.object ms) = some it) :
    simpleSchema.decodeFields (itemsPtrMember "items" ij ++ rest) s
      = simpleSchema.decodeFields rest { s with Items := items } := by
  rcases hrel with ⟨h1, h2⟩ | ⟨it, ms, h1, h2, h3⟩
  · have e : ({ s with Items := items } : simpleSchema Items) = s := by
      cases s; simp only at h; simp [h, h1]
    simp [itemsPtrMember, h2, e]
  · have hname : fieldFor simpleFields "items" = "items" := by decide
    have hv : Json.object ms ≠ .null := by intro hc; cases hc
    simp [itemsPtrMember, h1, h2, simple_decodeFields_cons_items _ _ _ _ hname hv, h3]

theorem simple_step_Default (d : GoValue) (s : simpleSchema Items)
    (h : s.Default = .json .null) (hn : d.isNative = true) :
    simpleSchema.decodeFields (interfaceMember "default" d) s = some { s with Default := d } := by
  cases d with
  | int n => simp [GoValue.isNative] at hn
  | json j =>
    by_cases hj : j = .null
    · have e : ({ s with Default := .json j } : simpleSchema Items) = s := by
        cases s; simp only at h; simp [h, hj]
      simp [interfaceMember, GoValue.isNil, hj, simple_decodeFields_nil]
      rw [← hj, e]
    · have hnil : (GoValue.json j).isNil = false := by
        cases j <;> simp [GoValue.isNil] at hj ⊢
      have hne : fieldFor simpleFields "default" ≠ "items" := by decide
      simp +decide [interfaceMember, hnil, simple_decodeFields_cons_other _ _ _ _ hne,
        simple_decodeFields_nil, simpleSchema.setField, GoValue.toJson]

/-- Decoding the members written for a `simpleSchema` gives it back, when the encoding of the
`Items` it points to decodes to that `Items`. -/
theorem simpleSchema_decode_members (t f cf : GoString) (d : GoValue) (items : Option Items)
    (ij : Option Json) (ht : t.isValid = true) (hf : f.isValid = true)
    (hcf : cf.isValid = true) (hn : d.isNative = true)
    (hrel : (items = none ∧ ij = none) ∨
      ∃ it ms, items = some it ∧ ij = some (.object ms) ∧
        Items.UnmarshalJSON (.object ms) = some it) :
    simpleSchema.decodeFields (simpleSchema.members t f ij cf d) simpleSchema.zero
      = some ⟨t, f, items, cf, d⟩ := by
  unfold simpleSchema.members
  rw [simple_step_Type_ _ _ _ rfl ht, simple_step_Format _ _ _ rfl hf,
    simple_step_Items items ij _ _ rfl hrel, simple_step_CollectionFormat _ _ _ rfl hcf,
    simple_step_Default _ _ rfl hn]

theorem items_decode_flattened (ref : refable) (val : commonValidations) (t f cf : GoString)
    (d : GoValue) (items : Option Items) (ij : Option Json)
    (hfin : val.finiteBounds = true) (hstr : validStrings val t f cf = true)
    (hne : isEmptySlice val.Enum = false)
    (hEnum : (val.Enum.getD []).all GoValue.isNative = true) (hd : d.isNative = true)
    (hrel : (items = none ∧ ij = none) ∨
      ∃ it ms, items = some it ∧ ij = some (.object ms) ∧
        Items.UnmarshalJSON (.object ms) = some it) :
    Items.UnmarshalJSON
        (ConcatJSON [.object ref.members, .object val.members,
          .object (simpleSchema.members t f ij cf d)])
      = some ⟨ref, val, ⟨t, f, items, cf, d⟩⟩ := by
  have hflat : ConcatJSON [.object ref.members, .object val.members,
        .object (simpleSchema.members t f ij cf d)]
      = .object (ref.members ++ (val.members ++ simpleSchema.members t f ij cf d)) := by
    simp [ConcatJSON, Json.members]
  simp only [validStrings, Bool.and_eq_true] at hstr
  rw [hflat, Items_UnmarshalJSON_object]
  have h1 : decodeFields commonValidations.setField
      (ref.members ++ (val.members ++ simpleSchema.members t f ij cf d)) commonValidations.zero
      = some val := by
    simp [decodeFields_append, validations_skip_ref,
      commonValidations_decode_members val hfin hstr.1.1.1 hne hEnum, validations_skip_simple]
  have h2 : decodeFields refable.setField
      (ref.members ++ (val.members ++ simpleSchema.members t f ij cf d)) ⟨""⟩ = some ref := by
    simp [decodeFields_append, refable_decode_members, ref_skip_validations, ref_skip_simple]
  have h3 : simpleSchema.decodeFields
      (ref.members ++ (val.members ++ simpleSchema.members t f ij cf d)) simpleSchema.zero
      = some ⟨t, f, items, cf, d⟩ := by
    simp [simple_decodeFields_append, simple_skip_ref, simple_skip_validations,
      simpleSchema_decode_members t f cf d items ij hstr.1.1.2 hstr.1.2 hstr.2 hd hrel]
  simp [h1, h2, h3]

theorem commonValidations_MarshalJSON_eq (c : commonValidations)
    (h : c.finiteBounds = true) : c.MarshalJSON = some (.object c.members) := by
  simp [commonValidations.MarshalJSON, h]

theorem commonValidations_MarshalJSON_none (c : commonValidations)
    (h : c.finiteBounds = false) : c.MarshalJSON = none := by
  simp [commonValidations.MarshalJSON, h]

theorem Items_MarshalJSON_object (x : Items) (j : Json) (h : x.MarshalJSON = some j) :
    ∃ ms, j = .object ms := by
  match x with
  | ⟨_, val, ⟨_, _, none, _, _⟩⟩ =>
    rw [Items.MarshalJSON] at h
    cases hb : val.MarshalJSON with
    | none => simp [hb] at h
    | some b1 =>
      simp only [hb, Option.some.injEq] at h
      exact ⟨_, by rw [← h]; rfl⟩
  | ⟨_, val, ⟨_, _, some it, _, _⟩⟩ =>
    rw [Items.MarshalJSON] at h
    cases hb : val.MarshalJSON with
    | none => simp [hb] at h
    | some b1 =>
      cases hi : it.MarshalJSON with
      | none => simp [hb, hi] at h
      | some b =>
        simp only [hb, hi, Option.some.injEq] at h
        exact ⟨_, by rw [← h]; rfl⟩

theorem items_round_trip_rec : ∀ x : Items, x.finiteBounds = true → x.validStrings = true →
    x.noEmptyEnum = true → x.isNative = true →
    ∃ payload, x.MarshalJSON = some payload ∧ Items.UnmarshalJSON payload = some x
  | ⟨ref, val, ⟨t, f, none, cf, d⟩⟩, hfin, hstr, hne, h => by
    simp only [Items.isNative, Bool.and_eq_true] at h
    simp only [Items.finiteBounds] at hfin
    simp only [Items.validStrings] at hstr
    simp only [Items.noEmptyEnum, Bool.not_eq_true'] at hne
    refine ⟨_, ?_, items_decode_flattened ref val t f cf d none none hfin hstr hne h.1 h.2
      (Or.inl ⟨rfl, rfl⟩)⟩
    rw [Items.MarshalJSON, commonValidations_MarshalJSON_eq val hfin]
  | ⟨ref, val, ⟨t, f, some it, cf, d⟩⟩, hfin, hstr, hne, h => by
    simp only [Items.isNative, Bool.and_eq_true] at h
    simp only [Items.finiteBounds, Bool.and_eq_true] at hfin
    simp only [Items.validStrings, Bool.and_eq_true] at hstr
    simp only [Items.noEmptyEnum, Bool.and_eq_true, Bool.not_eq_true'] at hne
    obtain ⟨b, hb, hdec⟩ := items_round_trip_rec it hfin.2 hstr.2 hne.2 h.2
    obtain ⟨ms, hms⟩ := Items_MarshalJSON_object it b hb
    refine ⟨_, ?_, items_decode_flattened ref val t f cf d (some it) (some b) hfin.1 hstr.1
      hne.1 h.1.1 h.1.2 (Or.inr ⟨it, ms, rfl, by rw [hms], by rw [← hms]; exact hdec⟩)⟩
    rw [Items.MarshalJSON, commonValidations_MarshalJSON_eq val hfin.1, hb]

theorem names_floatPtrMember (name : String) (x : Option Float64) :
    (memberNames (floatPtrMember name x)).Sublist [name] := by
  match x with
  | none => simp [memberNames, floatPtrMember]
  | some (.finite q) => simp [memberNames, floatPtrMember]
  | some .nan => simp [memberNames, floatPtrMember]
  | some .posInf => simp [memberNames, floatPtrMember]
  | some .negInf => simp [memberNames, floatPtrMember]

theorem names_boolMember (name : String) (x : Bool) :
    (memberNames (boolMember name x)).Sublist [name] := by
  cases x <;> simp [memberNames, boolMember]

theorem names_int64PtrMember (name : String) (x : Option Int64) :
    (memberNames (int64PtrMember name x)).Sublist [name] := by
  cases x <;> simp [memberNames, int64PtrMember]

theorem names_stringMember (name : String) (x : GoString) :
    (memberNames (stringMember name x)).Sublist [name] := by
  by_cases hx : x = "" <;> simp [memberNames, stringMember, hx]

theorem names_textMember (name : String) (x : String) :
    (memberNames (textMember name x)).Sublist [name] := by
  by_cases hx : x = "" <;> simp [memberNames, textMember, hx]

theorem names_sliceMember (name : String) (x : Option (List GoValue)) :
    (memberNames (sliceMember name x)).Sublist [name] := by
  match x with
  | none => simp [memberNames, sliceMember]
  | some [] => simp [memberNames, sliceMember]
  | some (v :: vs) => simp [memberNames, sliceMember]

theorem names_interfaceMember (name : String) (x : GoValue) :
    (memberNames (interfaceMember name x)).Sublist [name] := by
  by_cases hx : x.isNil = true <;> simp [memberNames, interfaceMember, hx]

theorem names_itemsPtrMember (name : String) (x : Option Json) :
    (memberNames (itemsPtrMember name x)).Sublist [name] := by
  cases x <;> simp [memberNames, itemsPtrMember]

theorem memberNames_append (a b : List (String × Json)) :
    memberNames (a ++ b) = memberNames a ++ memberNames b := by
  simp [memberNames]

/-- The names of the flattened object are a sub-sequence of the eighteen field names. -/
theorem names_flattened (ref : refable) (val : commonValidations) (t f cf : GoString)
    (d : GoValue) (ij : Option Json) :
    (memberNames (ref.members ++ (val.members ++ simpleSchema.members t f ij cf d))).Sublist
      itemsMemberNames := by
  simp only [refable.members, commonValidations.members, simpleSchema.members,
    memberNames_append]
  exact (names_textMember _ _).append
    (((names_floatPtrMember _ _).append
      ((names_boolMember _ _).append
      ((names_floatPtrMember _ _).append
      ((names_boolMember _ _).append
      ((names_int64PtrMember _ _).append
      ((names_int64PtrMember _ _).append
      ((names_stringMember _ _).append
      ((names_int64PtrMember _ _).append
      ((names_int64PtrMember _ _).append
      ((names_boolMember _ _).append
      ((names_floatPtrMember _ _).append
      (names_sliceMember _ _)))))))))))).append
    ((names_stringMember _ _).append
      ((names_stringMember _ _).append
      ((names_itemsPtrMember _ _).append
      ((names_stringMember _ _).append
      (names_interfaceMember _ _))))))

theorem names_nodup (x : Items) (payload : Json) (h : x.MarshalJSON = some payload) :
    (memberNames payload.members).Nodup := by
  have hnd : itemsMemberNames.Nodup := by decide
  match x with
  | ⟨ref, val, ⟨t, f, none, cf, d⟩⟩ =>
    rw [Items.MarshalJSON] at h
    by_cases hfin : val.finiteBounds = true
    · rw [commonValidations_MarshalJSON_eq val hfin] at h
      simp only [Option.some.injEq] at h
      have hn := names_flattened ref val t f cf d none
      rw [← h]
      simp only [ConcatJSON, Json.members, List.flatMap_cons, List.flatMap_nil,
        List.append_nil]
      exact hn.nodup hnd
    · rw [commonValidations_MarshalJSON_none val (by simpa using hfin)] at h
      simp at h
  | ⟨ref, val, ⟨t, f, some it, cf, d⟩⟩ =>
    rw [Items.MarshalJSON] at h
    by_cases hfin : val.finiteBounds = true
    · rw [commonValidations_MarshalJSON_eq val hfin] at h
      cases hi : it.MarshalJSON with
      | none => simp [hi] at h
      | some b =>
        simp only [hi, Option.some.injEq] at h
        have hn := names_flattened ref val t f cf d (some b)
        rw [← h]
        simp only [ConcatJSON, Json.members, List.flatMap_cons, List.flatMap_nil,
          List.append_nil]
        exact hn.nodup hnd
    · rw [commonValidations_MarshalJSON_none val (by simpa using hfin)] at h
      simp at h

/-- C10, as amended.  For every `Items` value (a finite chain of nested `Items`) in which every
`float64` bound is finite, every string is valid UTF-8, no `Enum` is an empty slice that is
not nil, and every dynamic value (`Default`, the elements of `Enum`) is a value the JSON
decoder produces, `Items.MarshalJSON` succeeds, and `Items.UnmarshalJSON` applied to the
payload succeeds and yields `x`: the reference, the twelve validation constraints and the five
simple-schema fields, nested `Items` included.  And every payload `Items.MarshalJSON` returns,
for whatever `Items`, is a flattened object with no two members of the same name. -/
theorem items_round_trip (x : Items) (hfin : x.finiteBounds = true)
    (hstr : x.validStrings = true) (hne : x.noEmptyEnum = true) (h : x.isNative = true) :
    (∃ payload, x.MarshalJSON = some payload ∧ Items.UnmarshalJSON payload = some x) ∧
    ∀ (y : Items) (payload : Json), y.MarshalJSON = some payload →
      (memberNames payload.members).Nodup :=
  ⟨items_round_trip_rec x hfin hstr hne h, names_nodup⟩

/-- C10, as amended, at a concrete input: an array of integers, with a nested `Items` for the
elements. -/
theorem items_round_trip_witness :
    (sampleItems.finiteBounds = true ∧ sampleItems.validStrings = true ∧
      sampleItems.noEmptyEnum = true ∧ sampleItems.isNative = true) ∧
    ∃ payload, sampleItems.MarshalJSON = some payload ∧
      Items.UnmarshalJSON payload = some sampleItems :=
  ⟨by decide, (items_round_trip sampleItems (by decide) (by decide) (by decide) (by decide)).1⟩

/-- C10 as stated fails, in four ways.  `new(Items).WithDefault(5)` holds the Go `int` 5 in
`Default`; it is written as `{"default": 5}` and read back with the `float64` 5, a different
dynamic value.  `new(Items).WithMaximum(math.NaN(), false)` is not written at all:
`MarshalJSON` returns the error.  `new(Items).WithPattern("a\xffb")` is written with U+FFFD in
place of the byte `0xff` and read back with that code point.  `new(Items).WithEnum()` holds an
empty slice, which `omitempty` leaves out, and is read back with the nil slice. -/
theorem items_round_trip_fails_in_four_ways :
    (intDefaultItems.MarshalJSON = some (.object [("default", .number 5)]) ∧
      (Items.UnmarshalJSON (.object [("default", .number 5)])).map
        (fun i => i.tosimpleSchema.Default) = some (.json (.number 5)) ∧
      intDefaultItems.tosimpleSchema.Default = .int 5) ∧
    nanMaximumItems.MarshalJSON = none ∧
    (invalidPatternItems.MarshalJSON
        = some (.object [("pattern", .string (String.mk ['a', Char.ofNat 0xFFFD, 'b']))]) ∧
      (Items.UnmarshalJSON
          (.object [("pattern", .string (String.mk ['a', Char.ofNat 0xFFFD, 'b']))])).map
        (fun i => i.tocommonValidations.Pattern)
        = some ⟨[.char 'a', .char (Char.ofNat 0xFFFD), .char 'b']⟩ ∧
      invalidPatternItems.tocommonValidations.Pattern
        = ⟨[.char 'a', .invalid 255, .char 'b']⟩) ∧
    (emptyEnumItems.MarshalJSON = some (.object []) ∧
      (Items.UnmarshalJSON (.object [])).map
        (fun i => isEmptySlice i.tocommonValidations.Enum) = some false ∧
      isEmptySlice emptyEnumItems.tocommonValidations.Enum = true) := by
  refine ⟨⟨rfl, rfl, rfl⟩, rfl, ⟨?_, ?_, rfl⟩, ⟨rfl, rfl, rfl⟩⟩
  · rfl
  · rfl

end Spec

end GoSwagger

/-! # The fluent builders of `Items` -/

namespace GoSwagger

namespace Spec

/-- C17. Every fluent builder of `Items` stores its arguments in the fields it names and
leaves each of the other fields (of `refable`, `commonValidations` and `simpleSchema`) as it
was; its result is the receiver after the call.  `Typed` sets `Type` and `Format`;
`CollectionOf` sets `Type` to `"array"`, `Items` and `CollectionFormat`; `WithMaximum` and
`WithMinimum` set the bound and its exclusivity flag; `WithMaxLength`, `WithMinLength`,
`WithPattern`, `WithMultipleOf`, `WithMaxItems`, `WithMinItems` and `WithDefault` set their one
field; `WithEnum` makes `Enum` a slice of the given values, whatever it held; `UniqueValues` sets
`UniqueItems` to true and `AllowDuplicates` sets it to false. -/
theorem builders_set_only_named_fields (i : Items) :
    (∀ tpe format,
      (i.Typed tpe format).tosimpleSchema.Type_ = tpe ∧
      (i.Typed tpe format).tosimpleSchema.Format = format ∧
      Items.changesOnly [.Type_, .Format] i (i.Typed tpe format)) ∧
    (∀ items format,
      (i.CollectionOf items format).tosimpleSchema.Type_ = "array" ∧
      (i.CollectionOf items format).tosimpleSchema.Items = items ∧
      (i.CollectionOf items format).tosimpleSchema.CollectionFormat = format ∧
      Items.changesOnly [.Type_, .Items, .CollectionFormat] i (i.CollectionOf items format)) ∧
    (∀ max exclusive,
      (i.WithMaximum max exclusive).tocommonValidations.Maximum = some max ∧
      (i.WithMaximum max exclusive).tocommonValidations.ExclusiveMaximum = exclusive ∧
      Items.changesOnly [.Maximum, .ExclusiveMaximum] i (i.WithMaximum max exclusive)) ∧
    (∀ min exclusive,
      (i.WithMinimum min exclusive).tocommonValidations.Minimum = some min ∧
      (i.WithMinimum min exclusive).tocommonValidations.ExclusiveMinimum = exclusive ∧
      Items.changesOnly [.Minimum, .ExclusiveMinimum] i (i.WithMinimum min exclusive)) ∧
    (∀ max, (i.WithMaxLength max).tocommonValidations.MaxLength = some max ∧
      Items.changesOnly [.MaxLength] i (i.WithMaxLength max)) ∧
    (∀ min, (i.WithMinLength min).tocommonValidations.MinLength = some min ∧
      Items.changesOnly [.MinLength] i (i.WithMinLength min)) ∧
    (∀ pattern, (i.WithPattern pattern).tocommonValidations.Pattern = pattern ∧
      Items.changesOnly [.Pattern] i (i.WithPattern pattern)) ∧
    (∀ number, (i.WithMultipleOf number).tocommonValidations.MultipleOf = some number ∧
      Items.changesOnly [.MultipleOf] i (i.WithMultipleOf number)) ∧
    (∀ size, (i.WithMaxItems size).tocommonValidations.MaxItems = some size ∧
      Items.changesOnly [.MaxItems] i (i.WithMaxItems size)) ∧
    (∀ size, (i.WithMinItems size).tocommonValidations.MinItems = some size ∧
      Items.changesOnly [.MinItems] i (i.WithMinItems size)) ∧
    (∀ defaultValue, (i.WithDefault defaultValue).tosimpleSchema.Default = defaultValue ∧
      Items.changesOnly [.Default] i (i.WithDefault defaultValue)) ∧
    (∀ values, (i.WithEnum values).tocommonValidations.Enum = some values ∧
      Items.changesOnly [.Enum] i (i.WithEnum values)) ∧
    (i.UniqueValues.tocommonValidations.UniqueItems = true ∧
      Items.changesOnly [.UniqueItems] i i.UniqueValues) ∧
    (i.AllowDuplicates.tocommonValidations.UniqueItems = false ∧
      Items.changesOnly [.UniqueItems] i i.AllowDuplicates) := by
  obtain ⟨ref, validations, simple⟩ := i
  refine ⟨?_, ?_, ?_, ?_, ?_, ?_, ?_, ?_, ?_, ?_, ?_, ?_, ?_, ?_⟩
  all_goals first
    | (intro a b
       refine ⟨rfl, rfl, rfl, ?_⟩
       intro f hf
       cases f <;> first | rfl | (exact absurd (by simp) hf))
    | (intro a b
       refine ⟨rfl, rfl, ?_⟩
       intro f hf
       cases f <;> first | rfl | (exact absurd (by simp) hf))
    | (intro a
       refine ⟨rfl, ?_⟩
       intro f hf
       cases f <;> first | rfl | (exact absurd (by simp) hf))
    | (refine ⟨rfl, ?_⟩
       intro f hf
       cases f <;> first | rfl | (exact absurd (by simp) hf))

/-- C17, at a concrete input: starting from `NewItems()` with a reference text, the chain
`Typed("integer", "int32").WithMaximum(10, true).WithEnum(1, 2).WithEnum(3)` ends with `Enum`
holding `3` only, the maximum `10` exclusive, the type and format as given, and the reference
text, `Minimum` and `Items` as they were. -/
theorem builders_set_only_named_fields_witness :
    ((((Items.mk ⟨"#/x"⟩ commonValidations.zero simpleSchema.zero).Typed "integer"
      "int32").WithMaximum (.finite 10) true).WithEnum [.int 1, .int 2]).WithEnum
        [.int 3] =
      Items.mk ⟨"#/x"⟩
        { commonValidations.zero with
          Maximum := some (.finite 10), ExclusiveMaximum := true, Enum := some [.int 3] }
        { Type_ := "integer", Format := "int32", Items := none, CollectionFormat := "",
          Default := .json .null } ∧
    Items.sameField .Type_
      ((((Items.mk ⟨"#/x"⟩ commonValidations.zero simpleSchema.zero).Typed "integer"
        "int32").WithMaximum (.finite 10) true).WithEnum [.int 1, .int 2])
      (((Items.mk ⟨"#/x"⟩ commonValidations.zero simpleSchema.zero).Typed "integer"
        "int32").WithMaximum (.finite 10) true) :=
  ⟨rfl,
    ((builders_set_only_named_fields
      (((Items.mk ⟨"#/x"⟩ commonValidations.zero simpleSchema.zero).Typed "integer"
        "int32").WithMaximum (.finite 10) true)).2.2.2.2.2.2.2.2.2.2.2.1 [.int 1, .int 2]).2
      .Type_ (by decide)⟩

end Spec

end GoSwagger

/-! # Properties of the contract registry and of the document queries -/

namespace GoSwagger

namespace Untyped

theorem lessChars_asymm : ∀ a b : List Char, lessChars a b = true → lessChars b a = false
  | [], [], h => by simp [lessChars] at h
  | [], _ :: _, _ => by simp [lessChars]
  | _ :: _, [], h => by simp [lessChars] at h
  | a :: as, b :: bs, h => by
    simp only [lessChars] at h ⊢
    by_cases h1 : a.toNat < b.toNat
    · have h2 : ¬ b.toNat < a.toNat := by omega
      simp [h2, h1]
    · by_cases h2 : b.toNat < a.toNat
      · simp [h1, h2] at h
      · simp only [h1, h2, if_false] at h ⊢
        exact lessChars_asymm as bs h

theorem lessChars_trans_le : ∀ a b c : List Char,
    lessChars b a = false → lessChars c b = false → lessChars c a = false
  | [], _, [], _, _ => by simp [lessChars]
  | [], _, _ :: _, _, _ => by simp [lessChars]
  | _ :: _, [], _, h1, _ => by simp [lessChars] at h1
  | _ :: _, _ :: _, [], _, h2 => by simp [lessChars] at h2
  | a :: as, b :: bs, c :: cs, h1, h2 => by
    simp only [lessChars] at h1 h2 ⊢
    by_cases hba : b.toNat < a.toNat
    · simp [hba] at h1
    · by_cases hab : a.toNat < b.toNat
      · by_cases hcb : c.toNat < b.toNat
        · simp [hcb] at h2
        · have h3 : ¬ c.toNat < a.toNat := by omega
          have h4 : a.toNat < c.toNat := by omega
          simp [h3, h4]
      · simp only [hba, hab, if_false] at h1
        by_cases hcb : c.toNat < b.toNat
        · simp [hcb] at h2
        · by_cases hbc : b.toNat < c.toNat
          · have h3 : ¬ c.toNat < a.toNat := by omega
            have h4 : a.toNat < c.toNat := by omega
            simp [h3, h4]
          · simp only [hcb, hbc, if_false] at h2
            have h3 : ¬ c.toNat < a.toNat := by omega
            have h4 : ¬ a.toNat < c.toNat := by omega
            simp only [h3, h4, if_false]
            exact lessChars_trans_le as bs cs h1 h2

theorem nameLE_total (a b : String) : nameLE a b ∨ nameLE b a := by
  unfold nameLE
  cases h : lessChars b.toList a.toList with
  | false => exact Or.inl rfl
  | true => exact Or.inr (lessChars_asymm _ _ h)

theorem nameLE_trans (a b c : String) (h1 : nameLE a b) (h2 : nameLE b c) : nameLE a c :=
  lessChars_trans_le a.toList b.toList c.toList h1 h2

theorem sortNames_sorted (names : List String) : (sortNames names).Sorted nameLE :=
  @List.sorted_insertionSort _ nameLE _ ⟨nameLE_total⟩ ⟨nameLE_trans⟩ names

theorem mem_sortNames (names : List String) (x : String) : x ∈ sortNames names ↔ x ∈ names :=
  List.mem_insertionSort nameLE

theorem sortNames_eq_nil (names : List String) : sortNames names = [] ↔ names = [] := by
  constructor
  · intro h
    have hp := List.perm_insertionSort nameLE names
    rw [show List.insertionSort nameLE names = [] from h] at hp
    exact hp.symm.eq_nil
  · intro h
    subst h
    rfl

theorem mem_difference (a b : List String) (x : String) :
    x ∈ difference a b ↔ x ∈ a ∧ x ∉ b := by
  simp [difference]

theorem nodup_sorted_difference (a b : List String) : (sortNames (difference a b)).Nodup :=
  (List.perm_insertionSort nameLE (difference a b)).nodup_iff.mpr (List.nodup_dedup _)

theorem mem_sorted_difference (a b : List String) (x : String) :
    x ∈ sortNames (difference a b) ↔ x ∈ a ∧ x ∉ b := by
  rw [mem_sortNames, mem_difference]

theorem sorted_difference_eq_nil (a b : List String) :
    sortNames (difference a b) = [] ↔ ∀ x, x ∈ a → x ∈ b := by
  rw [sortNames_eq_nil, List.eq_nil_iff_forall_not_mem]
  constructor
  · intro h x hx
    by_contra hb
    exact h x ((mem_difference a b x).mpr ⟨hx, hb⟩)
  · intro h x hx
    have := (mem_difference a b x).mp hx
    exact this.2 (h x this.1)

theorem verify_eq_nil (kind : String) (registrations expectations : List String) :
    verify kind registrations expectations = [] ↔
      ∀ x, x ∈ registrations ↔ x ∈ expectations := by
  unfold verify
  simp only [List.append_eq_nil]
  constructor
  · rintro ⟨h1, h2⟩
    have e1 : sortNames (difference expectations registrations) = [] := by
      by_contra hne
      simp [hne] at h1
    have e2 : sortNames (difference registrations expectations) = [] := by
      by_contra hne
      simp [hne] at h2
    intro x
    exact ⟨(sorted_difference_eq_nil _ _).mp e2 x, (sorted_difference_eq_nil _ _).mp e1 x⟩
  · intro h
    have e1 : sortNames (difference expectations registrations) = [] :=
      (sorted_difference_eq_nil _ _).mpr fun x hx => (h x).mpr hx
    have e2 : sortNames (difference registrations expectations) = [] :=
      (sorted_difference_eq_nil _ _).mpr fun x hx => (h x).mp hx
    simp [e1, e2]

theorem securityDefinitionsCheck_eq_nil (defined required : List String) :
    securityDefinitionsCheck defined required = [] ↔ ∀ x, x ∈ required → x ∈ defined := by
  unfold securityDefinitionsCheck
  rw [← sorted_difference_eq_nil]
  by_cases h : sortNames (difference required defined) = []
  · simp [h]
  · simp [h]

theorem firstFailure_eq_none (cs : List (List String)) :
    firstFailure cs = none ↔ ∀ c ∈ cs, c = [] := by
  induction cs with
  | nil => simp [firstFailure]
  | cons c rest ih =>
    by_cases hc : c = []
    · simp [firstFailure, hc, ih]
    · simp [firstFailure, hc]

theorem firstFailure_at (cs : List (List String)) :
    ∀ (i : Nat) (h : i < cs.length), (∀ j (hj : j < i), cs[j] = []) → cs[i] ≠ [] →
      firstFailure cs = some cs[i] := by
  induction cs with
  | nil => intro i h; simp at h
  | cons c rest ih =>
    intro i h hbefore hne
    cases i with
    | zero =>
      have hc : c ≠ [] := by simpa using hne
      simp [firstFailure, hc]
    | succ i =>
      have hc : c = [] := by simpa using hbefore 0 (Nat.succ_pos i)
      have hi : i < rest.length := by simpa using h
      simp only [firstFailure, hc, if_true, List.getElem_cons_succ]
      exact ih i hi
        (fun j hj => by simpa using hbefore (j + 1) (Nat.succ_lt_succ hj))
        (by simpa using hne)

theorem firstFailure_some (cs : List (List String)) (lines : List String)
    (h : firstFailure cs = some lines) :
    lines ≠ [] ∧ ∃ (i : Nat) (hi : i < cs.length), cs[i] = lines ∧
      ∀ j (hj : j < i), cs[j] = [] := by
  induction cs with
  | nil => simp [firstFailure] at h
  | cons c rest ih =>
    by_cases hc : c = []
    · simp only [firstFailure, hc, if_true] at h
      obtain ⟨hne, i, hi, hget, hbefore⟩ := ih h
      refine ⟨hne, i + 1, by simpa using hi, by simpa using hget, ?_⟩
      intro j hj
      cases j with
      | zero => simpa using hc
      | succ j => simpa using hbefore j (by omega)
    · simp only [firstFailure, hc, if_false, Option.some.injEq] at h
      subst h
      exact ⟨hc, 0, by simp, by simp, fun j hj => absurd hj (Nat.not_lt_zero j)⟩

/-- C12 (amended). For every `Validate` and `validate` that satisfy the assertions of the test
on `api1` (api_test.go lines 174-194): on the fresh registry, against the document that needs
an extra consumer, producer, operation and two authenticators, the error is the violation of
the consumes check alone, although the produces, operation, auth scheme and security
definitions checks fail too; after the consumer is registered it is the violation of the
produces check alone, then of the operation check, then of the auth scheme check, then of the
security definitions check: one check per call, the first that fails in the fixed order, with
every later check failing as well and not reported. -/
theorem validate_reports_one_check_per_call (Validate validate : API → Option String)
    (htest : validationAssertions Validate validate) :
    (reportsCheck (Validate (NewAPI invalidSpec)) (NewAPI invalidSpec) 0 ∧
      laterChecksFail (NewAPI invalidSpec) 0) ∧
    (reportsCheck (validate ((NewAPI invalidSpec).RegisterConsumer "application/x-yaml"))
        ((NewAPI invalidSpec).RegisterConsumer "application/x-yaml") 1 ∧
      laterChecksFail ((NewAPI invalidSpec).RegisterConsumer "application/x-yaml") 1) ∧
    (reportsCheck
        (validate (((NewAPI invalidSpec).RegisterConsumer "application/x-yaml").RegisterProducer
          "application/x-yaml"))
        (((NewAPI invalidSpec).RegisterConsumer "application/x-yaml").RegisterProducer
          "application/x-yaml") 2 ∧
      laterChecksFail (((NewAPI invalidSpec).RegisterConsumer "application/x-yaml").RegisterProducer
          "application/x-yaml") 2) ∧
    (reportsCheck
        (validate ((((NewAPI invalidSpec).RegisterConsumer "application/x-yaml").RegisterProducer
          "application/x-yaml").RegisterOperation "someOperation"))
        ((((NewAPI invalidSpec).RegisterConsumer "application/x-yaml").RegisterProducer
          "application/x-yaml").RegisterOperation "someOperation") 3 ∧
      laterChecksFail ((((NewAPI invalidSpec).RegisterConsumer
        "application/x-yaml").RegisterProducer "application/x-yaml").RegisterOperation
        "someOperation") 3) ∧
    reportsCheck (validate (completeAPI invalidSpec)) (completeAPI invalidSpec) 4 := by
  obtain ⟨h0, h1, h2, h3, h4⟩ := htest
  rw [h0, h1, h2, h3, h4]
  decide

/-- C12 (amended), for a `validate` that returns the violation of the first failing check: it
satisfies the assertions of the test, and for the registry with the consumer, the producer and
the operation registered its error is the auth scheme check alone: the three checks before it
pass and the security definitions check after it fails. -/
theorem validate_reports_one_check_per_call_witness :
    validationAssertions reportFirst reportFirst ∧
    reportsCheck
      (reportFirst ((((NewAPI invalidSpec).RegisterConsumer "application/x-yaml").RegisterProducer
        "application/x-yaml").RegisterOperation "someOperation"))
      ((((NewAPI invalidSpec).RegisterConsumer "application/x-yaml").RegisterProducer
        "application/x-yaml").RegisterOperation "someOperation") 3 ∧
    laterChecksFail ((((NewAPI invalidSpec).RegisterConsumer
      "application/x-yaml").RegisterProducer "application/x-yaml").RegisterOperation
      "someOperation") 3 :=
  ⟨by unfold validationAssertions; decide,
    (validate_reports_one_check_per_call reportFirst reportFirst
      (by unfold validationAssertions; decide)).2.2.2.1⟩

/-- C12 as stated contradicts the test.  For the fresh registry against the document of the
test, the `Validate` the specification describes returns the five violations in one error;
that function does not satisfy the assertion of lines 174-177; and for every `Validate` that
satisfies the assertions of the test the error of the fresh registry holds neither the
produces line nor the operation line nor the auth scheme line. -/
theorem aggregate_error_contradicts_test :
    (NewAPI invalidSpec).Validate =
      some ["missing [application/x-yaml] consumes registrations",
        "missing [application/x-yaml] produces registrations",
        "missing [someOperation] operation registrations",
        "missing [apiKey, basic] auth scheme registrations",
        "missing [apiKey, basic] security definitions registrations"] ∧
    ¬ validationAssertions (fun d => d.Validate.map errorText)
      (fun d => d.validate.map errorText) ∧
    ∀ Validate validate : API → Option String, validationAssertions Validate validate →
      ¬ holdsLine (Validate (NewAPI invalidSpec))
          "missing [application/x-yaml] produces registrations" ∧
      ¬ holdsLine (Validate (NewAPI invalidSpec))
          "missing [someOperation] operation registrations" ∧
      ¬ holdsLine (Validate (NewAPI invalidSpec))
          "missing [apiKey, basic] auth scheme registrations" := by
  refine ⟨by decide, ?_, ?_⟩
  · intro h
    have h0 := h.1
    revert h0
    decide
  · intro Validate validate htest
    rw [htest.1]
    decide

/-- C13 (amended). For every `ConsumesFor` and `ProducesFor` that satisfy the assertions of
the test (api_test.go lines 169-170, 223-227, 231-233): for the operation declaring
`["application/x-yaml"]` in the document whose list is `["application/json"]`, `ConsumesFor`
holds the media types of the document-level list and of the operation's own list, no others,
each once, so it is not the operation's own list; `ProducesFor` holds the media types of both
produces lists and is not the operation's own list. -/
theorem consumesFor_keeps_document_list (ConsumesFor ProducesFor : Document → Operation →
    List String) (htest : queryAssertions ConsumesFor ProducesFor) :
    (∀ m, m ∈ ConsumesFor testDocument testOperation ↔
      m ∈ testDocument.Consumes ∨ m ∈ testOperation.Consumes) ∧
    (ConsumesFor testDocument testOperation).Nodup ∧
    ConsumesFor testDocument testOperation ≠ testOperation.Consumes ∧
    (∀ m, m ∈ ProducesFor testDocument testOperation ↔
      m ∈ testDocument.Produces ∨ m ∈ testOperation.Produces) ∧
    ProducesFor testDocument testOperation ≠ testOperation.Produces := by
  obtain ⟨hlen, hc, hp⟩ := htest
  have hmc : ∀ m, m ∈ ConsumesFor testDocument testOperation ↔
      m ∈ testDocument.Consumes ∨ m ∈ testOperation.Consumes := by
    intro m
    rw [← mem_sortNames, hc]
    simp [testDocument, testOperation]
  have hmp : ∀ m, m ∈ ProducesFor testDocument testOperation ↔
      m ∈ testDocument.Produces ∨ m ∈ testOperation.Produces := by
    intro m
    rw [← mem_sortNames, hp]
    simp [testDocument, testOperation]
  refine ⟨hmc, ?_, ?_, hmp, ?_⟩
  · have hperm := List.perm_insertionSort nameLE (ConsumesFor testDocument testOperation)
    refine hperm.nodup_iff.mp ?_
    show (sortNames (ConsumesFor testDocument testOperation)).Nodup
    rw [hc]
    decide
  · intro h
    have hj := (hmc "application/json").mpr (Or.inl (by decide))
    rw [h] at hj
    revert hj
    decide
  · intro h
    have hj := (hmp "application/json").mpr (Or.inl (by decide))
    rw [h] at hj
    revert hj
    decide

/-- C13 (amended), for the queries that return the document-level list and the operation's own
list together: they satisfy the assertions of the test, and `application/json`, which only
the document declares, is in the result. -/
theorem consumesFor_keeps_document_list_witness :
    queryAssertions (fun d op => bothLists d.Consumes op.Consumes)
      (fun d op => bothLists d.Produces op.Produces) ∧
    "application/json" ∈ bothLists testDocument.Consumes testOperation.Consumes :=
  ⟨by unfold queryAssertions; decide,
    ((consumesFor_keeps_document_list (fun d op => bothLists d.Consumes op.Consumes)
      (fun d op => bothLists d.Produces op.Produces)
      (by unfold queryAssertions; decide)).1 "application/json").mpr (Or.inl (by decide))⟩

/-- C13 as stated contradicts the test.  For the operation declaring `["application/x-yaml"]`
in the document whose list is `["application/json"]`, the `ConsumesFor` the specification
describes returns `["application/x-yaml"]`; that function does not satisfy the assertions of
lines 169-170 and 223-227; and no `ConsumesFor` that satisfies them returns
`["application/x-yaml"]`. -/
theorem own_list_contradicts_test :
    testDocument.ConsumesFor testOperation = ["application/x-yaml"] ∧
    ¬ queryAssertions Document.ConsumesFor Document.ProducesFor ∧
    ∀ ConsumesFor ProducesFor : Document → Operation → List String,
      queryAssertions ConsumesFor ProducesFor →
      ConsumesFor testDocument testOperation ≠ ["application/x-yaml"] := by
  refine ⟨by decide, ?_, ?_⟩
  · intro h
    have h0 := h.1
    revert h0
    decide
  · intro ConsumesFor ProducesFor htest h
    have hlen := htest.1
    rw [h] at hlen
    revert hlen
    decide

/-- C14 (amended). The check of one kind computes `required − registered` and
`registered − required` as sets, sorted and without repetition, and its violation is the line
"missing [names] <kind> registrations" when the first is non-empty, followed by the line
"missing from spec file [names] <kind>" when the second is non-empty, the names joined by
`", "`.  For every `validate` that satisfies the assertions of the test on `api3` and `api2`
(api_test.go lines 196-219): the complete registry, whose registered and required keys
coincide for every kind, gets no error; with the unrequired consumer it gets the violation of
the kind consumes; the fresh registry with that consumer gets the violation of the kind
consumes, both lines, and nothing of the kind produces, whose keys differ too; and when the
consumes keys coincide it gets the violation of the kind produces, both lines. -/
theorem validate_reports_differences_of_first_kind (validate : API → Option String)
    (htest : registrationAssertions validate) (kind : String)
    (registered required : List String) :
    (∀ x, x ∈ sortNames (difference required registered) ↔ x ∈ required ∧ x ∉ registered) ∧
    (∀ x, x ∈ sortNames (difference registered required) ↔ x ∈ registered ∧ x ∉ required) ∧
    (sortNames (difference required registered)).Sorted nameLE ∧
    (sortNames (difference registered required)).Sorted nameLE ∧
    (sortNames (difference required registered)).Nodup ∧
    (sortNames (difference registered required)).Nodup ∧
    verify kind registered required =
      (if sortNames (difference required registered) = [] then []
        else ["missing [" ++ ", ".intercalate (sortNames (difference required registered))
          ++ "] " ++ kind ++ " registrations"]) ++
      (if sortNames (difference registered required) = [] then []
        else ["missing from spec file [" ++
          ", ".intercalate (sortNames (difference registered required)) ++ "] " ++ kind]) ∧
    ((∀ k ∈ (completeAPI validSpec).registrations, ∀ x, x ∈ k.2.1 ↔ x ∈ k.2.2) ∧
      validate (completeAPI validSpec) = none) ∧
    validate ((completeAPI validSpec).RegisterConsumer "application/something") =
      some (errorText (verify "consumes"
        ((completeAPI validSpec).RegisterConsumer "application/something").consumers
        validSpec.RequiredConsumes)) ∧
    (validate ((NewAPI invalidSpec).RegisterConsumer "application/something") =
      some (errorText (verify "consumes"
        ((NewAPI invalidSpec).RegisterConsumer "application/something").consumers
        invalidSpec.RequiredConsumes)) ∧
      verify "produces" ((NewAPI invalidSpec).RegisterConsumer "application/something").producers
        invalidSpec.RequiredProduces ≠ []) ∧
    (verify "consumes"
        (((((NewAPI invalidSpec).RegisterConsumer "application/something").RegisterConsumer
          "application/x-yaml").deleteConsumer "application/something").RegisterProducer
          "application/something").consumers invalidSpec.RequiredConsumes = [] ∧
      validate (((((NewAPI invalidSpec).RegisterConsumer "application/something").RegisterConsumer
          "application/x-yaml").deleteConsumer "application/something").RegisterProducer
          "application/something") =
        some (errorText (verify "produces"
          (((((NewAPI invalidSpec).RegisterConsumer "application/something").RegisterConsumer
            "application/x-yaml").deleteConsumer "application/something").RegisterProducer
            "application/something").producers invalidSpec.RequiredProduces))) := by
  obtain ⟨h0, h1, h2, h3⟩ := htest
  refine ⟨mem_sorted_difference _ _, mem_sorted_difference _ _, sortNames_sorted _,
    sortNames_sorted _, nodup_sorted_difference _ _, nodup_sorted_difference _ _, rfl,
    ⟨?_, h0⟩, ?_, ⟨?_, ?_⟩, ⟨?_, ?_⟩⟩
  · intro k hk
    have hv : verify k.1 k.2.1 k.2.2 = [] := by
      revert k
      decide
    exact (verify_eq_nil _ _ _).mp hv
  · rw [h1]; decide
  · rw [h2]; decide
  · decide
  · decide
  · rw [h3]; decide

/-- C14 (amended), for a `validate` that returns the violation of the first failing check: it
satisfies the assertions of the test, and for the registry of lines 214-219, whose consumes
keys coincide with the required ones and which has the unrequired producer
`application/something` and lacks the producer `application/x-yaml`, its error is the
violation of the kind produces, both lines. -/
theorem validate_reports_differences_of_first_kind_witness :
    registrationAssertions reportFirst ∧
    verify "consumes"
        (((((NewAPI invalidSpec).RegisterConsumer "application/something").RegisterConsumer
          "application/x-yaml").deleteConsumer "application/something").RegisterProducer
          "application/something").consumers invalidSpec.RequiredConsumes = [] ∧
    reportFirst (((((NewAPI invalidSpec).RegisterConsumer "application/something").RegisterConsumer
        "application/x-yaml").deleteConsumer "application/something").RegisterProducer
        "application/something") =
      some (errorText (verify "produces"
        (((((NewAPI invalidSpec).RegisterConsumer "application/something").RegisterConsumer
          "application/x-yaml").deleteConsumer "application/something").RegisterProducer
          "application/something").producers invalidSpec.RequiredProduces)) :=
  ⟨by unfold registrationAssertions; decide,
    (validate_reports_differences_of_first_kind reportFirst
      (by unfold registrationAssertions; decide) "produces"
      ["application/json", "application/something"]
      ["application/json", "application/x-yaml"]).2.2.2.2.2.2.2.2.2.2⟩

/-- C14 as stated contradicts the test.  For the fresh registry with the extra consumer
`application/something`, against the document of the test, the difference
`required − registered` of the kind produces is `[application/x-yaml]`, and the `validate` the
specification describes reports its line; that function does not satisfy the assertions of
lines 196-219; and for every `validate` that satisfies them the error holds no produces
line. -/
theorem produces_difference_unreported_in_test :
    verify "produces" ((NewAPI invalidSpec).RegisterConsumer "application/something").producers
      invalidSpec.RequiredProduces = ["missing [application/x-yaml] produces registrations"] ∧
    holdsLine (((NewAPI invalidSpec).RegisterConsumer "application/something").validate.map
      errorText) "missing [application/x-yaml] produces registrations" ∧
    ¬ registrationAssertions (fun d => d.validate.map errorText) ∧
    ∀ validate : API → Option String, registrationAssertions validate →
      ¬ holdsLine (validate ((NewAPI invalidSpec).RegisterConsumer "application/something"))
          "missing [application/x-yaml] produces registrations" := by
  refine ⟨by decide, by decide, ?_, ?_⟩
  · intro h
    have h2 := h.2.2.1
    revert h2
    decide
  · intro validate htest
    rw [htest.2.2.1]
    decide

end Untyped

end GoSwagger
